import Mathlib

/-!
Verification development for the copper finite-domain constraint solver.

The repository contains two generations of the engine side by side:
an older one in which the domain store (src/vars.rs) is threaded by value
through propagators (src/props.rs) and the search driver
(src/search/mod.rs, src/search/engine.rs), and a newer one built on views
(src/views.rs) and per-constraint pruners (src/props/leq.rs, ...).
Both are embedded below.  Machine integers (i32) are modelled as
unbounded Int, matching the arithmetic the specification describes;
overflow is out of scope.
-/

namespace Copper

/-! ## Rust integer primitives

Rust division `/` truncates toward zero (Int.tdiv), `%` is the matching
remainder (Int.tmod), and `rem_euclid` is the Euclidean remainder
(Int.emod).  `div_ceil` and `div_floor` on signed integers follow the
documented std algorithm: correct the truncated quotient by the sign of
the remainder. -/

/-- Mathematical ceiling of the real quotient a / b for b positive,
expressed through floor division of the negation. -/
def ceilDiv (a b : Int) : Int := -((-a) / b)

/-- Rust `i32::div_floor` (std int_roundings algorithm). -/
def div_floor (a b : Int) : Int :=
  let d := a.tdiv b
  let r := a.tmod b
  if (0 < r ∧ b < 0) ∨ (r < 0 ∧ 0 < b) then d - 1 else d

/-- Rust `i32::div_ceil` (std int_roundings algorithm). -/
def div_ceil (a b : Int) : Int :=
  let d := a.tdiv b
  let r := a.tmod b
  if (0 < r ∧ 0 < b) ∨ (r < 0 ∧ b < 0) then d + 1 else d

/-- Rust `next_multiple_of` as spelled in src/utils.rs (NumExt). -/
def next_multiple_of_tmp (a rhs : Int) : Int :=
  if rhs = -1 then a
  else
    let r := a.tmod rhs
    let m := if (0 < r ∧ rhs < 0) ∨ (r < 0 ∧ 0 < rhs) then r + rhs else r
    if m = 0 then a else a + (rhs - m)

theorem div_floor_def (a b : Int) :
    div_floor a b =
      if (0 < a.tmod b ∧ b < 0) ∨ (a.tmod b < 0 ∧ 0 < b) then a.tdiv b - 1
      else a.tdiv b := rfl

theorem div_ceil_def (a b : Int) :
    div_ceil a b =
      if (0 < a.tmod b ∧ 0 < b) ∨ (a.tmod b < 0 ∧ b < 0) then a.tdiv b + 1
      else a.tdiv b := rfl

theorem next_multiple_of_tmp_def (a n : Int) (h : ¬ (n = -1)) :
    next_multiple_of_tmp a n =
      if (if (0 < a.tmod n ∧ n < 0) ∨ (a.tmod n < 0 ∧ 0 < n)
          then a.tmod n + n else a.tmod n) = 0
      then a
      else a + (n - (if (0 < a.tmod n ∧ n < 0) ∨ (a.tmod n < 0 ∧ 0 < n)
                     then a.tmod n + n else a.tmod n)) := by
  rw [next_multiple_of_tmp, if_neg h]

theorem neg_tmod_eq (a b : Int) : (-a).tmod b = -(a.tmod b) := by
  have h1 := Int.tdiv_add_tmod a b
  have h2 := Int.tdiv_add_tmod (-a) b
  rw [Int.neg_tdiv, mul_neg] at h2
  omega

theorem tmod_bounds_of_pos (a : Int) {b : Int} (hb : 0 < b) :
    -b < a.tmod b ∧ a.tmod b < b := by
  constructor
  · have h := Int.tmod_lt_of_pos (-a) hb
    rw [neg_tmod_eq] at h
    omega
  · exact Int.tmod_lt_of_pos a hb

/-- Floor division uniqueness: the euclidean quotient is the unique q with
b * q ≤ a < b * (q + 1) when b is positive. -/
theorem ediv_eq_of_between {a b q : Int} (hb : 0 < b)
    (h1 : b * q ≤ a) (h2 : a < b * (q + 1)) : a / b = q := by
  have hle : q ≤ a / b := (Int.le_ediv_iff_mul_le hb).2 (by linarith [h1])
  have hlt : a / b < q + 1 := by
    by_contra hcon
    push_neg at hcon
    have hmono : b * (q + 1) ≤ b * (a / b) := by
      apply mul_le_mul_of_nonneg_left _ (le_of_lt hb)
      omega
    have hfl : b * (a / b) ≤ a := by
      have := Int.ediv_add_emod a b
      have := Int.emod_nonneg a (ne_of_gt hb)
      omega
    omega
  omega

/-- Characterization of floor division for positive divisor. -/
theorem ediv_between {a b : Int} (hb : 0 < b) :
    b * (a / b) ≤ a ∧ a < b * (a / b + 1) := by
  have hadd := Int.ediv_add_emod a b
  have hnn := Int.emod_nonneg a (ne_of_gt hb)
  have hlt := Int.emod_lt_of_pos a hb
  constructor <;> [omega; nlinarith [hadd, hlt]]

/-- Characterization of the ceiling quotient for positive divisor. -/
theorem ceilDiv_between {a b : Int} (hb : 0 < b) :
    b * (ceilDiv a b - 1) < a ∧ a ≤ b * ceilDiv a b := by
  unfold ceilDiv
  obtain ⟨h1, h2⟩ := ediv_between (a := -a) hb
  constructor <;> nlinarith

/-- Rust div_floor computes the floor of the real quotient for b > 0. -/
theorem div_floor_eq (a : Int) {b : Int} (hb : 0 < b) :
    div_floor a b = a / b := by
  rw [div_floor_def]
  have hdm := Int.tdiv_add_tmod a b
  obtain ⟨hlo, hhi⟩ := tmod_bounds_of_pos a hb
  by_cases hr : a.tmod b < 0
  · rw [if_pos (Or.inr ⟨hr, hb⟩), eq_comm]
    exact ediv_eq_of_between hb (by nlinarith [hdm]) (by nlinarith [hdm])
  · push_neg at hr
    have hc : ¬ ((0 < a.tmod b ∧ b < 0) ∨ (a.tmod b < 0 ∧ 0 < b)) := by
      rintro (⟨_, h⟩ | ⟨h, _⟩) <;> omega
    rw [if_neg hc, eq_comm]
    exact ediv_eq_of_between hb (by nlinarith [hdm]) (by nlinarith [hdm])

/-- Rust div_ceil computes the ceiling of the real quotient for b > 0. -/
theorem div_ceil_eq (a : Int) {b : Int} (hb : 0 < b) :
    div_ceil a b = ceilDiv a b := by
  rw [div_ceil_def]
  have hdm := Int.tdiv_add_tmod a b
  obtain ⟨hlo, hhi⟩ := tmod_bounds_of_pos a hb
  by_cases hr : 0 < a.tmod b
  · rw [if_pos (Or.inl ⟨hr, hb⟩)]
    unfold ceilDiv
    have hq : (-a) / b = -(a.tdiv b) - 1 := by
      apply ediv_eq_of_between hb <;> nlinarith [hdm]
    rw [hq]; ring
  · push_neg at hr
    have hc : ¬ ((0 < a.tmod b ∧ 0 < b) ∨ (a.tmod b < 0 ∧ b < 0)) := by
      rintro (⟨h, _⟩ | ⟨_, h⟩) <;> omega
    rw [if_neg hc]
    unfold ceilDiv
    have hq : (-a) / b = -(a.tdiv b) := by
      apply ediv_eq_of_between hb <;> nlinarith [hdm]
    rw [hq]; ring

/-- Ceiling quotient through truncated division, by sign of the remainder. -/
theorem ceilDiv_cases (a : Int) {n : Int} (hn : 0 < n) :
    ceilDiv a n = if 0 < a.tmod n then a.tdiv n + 1 else a.tdiv n := by
  rw [← div_ceil_eq a hn, div_ceil_def]
  by_cases hr : 0 < a.tmod n
  · rw [if_pos (Or.inl ⟨hr, hn⟩), if_pos hr]
  · have hc : ¬ ((0 < a.tmod n ∧ 0 < n) ∨ (a.tmod n < 0 ∧ n < 0)) := by
      rintro (⟨h, _⟩ | ⟨_, h⟩) <;> omega
    rw [if_neg hc, if_neg hr]

/-- The bespoke next_multiple_of returns the smallest multiple of n that is
greater than or equal to a, which is n times the ceiling quotient. -/
theorem next_multiple_of_tmp_eq (a : Int) {n : Int} (hn : 0 < n) :
    next_multiple_of_tmp a n = n * ceilDiv a n := by
  rw [next_multiple_of_tmp_def a n (by omega)]
  have hdm := Int.tdiv_add_tmod a n
  obtain ⟨hlo, hhi⟩ := tmod_bounds_of_pos a hn
  have hceil := ceilDiv_cases a hn
  by_cases hr : a.tmod n < 0
  · rw [if_pos (Or.inr ⟨hr, hn⟩)]
    by_cases hz : a.tmod n + n = 0
    · rw [if_pos hz, hceil, if_neg (by omega)]
      nlinarith [hdm]
    · rw [if_neg hz, hceil, if_neg (by omega)]
      nlinarith [hdm]
  · push_neg at hr
    have hcond : ¬ ((0 < a.tmod n ∧ n < 0) ∨ (a.tmod n < 0 ∧ 0 < n)) := by
      rintro (⟨_, h⟩ | ⟨h, _⟩) <;> omega
    rw [if_neg hcond]
    by_cases hz : a.tmod n = 0
    · rw [if_pos hz, hceil, if_neg (by omega)]
      nlinarith [hdm]
    · rw [if_neg hz, hceil, if_pos (by omega)]
      nlinarith [hdm]

/-! ## Domain store of the by-value engine (src/vars.rs)

A decision variable is a closed interval of Int.  The store is a list of
intervals plus the change-event set, modelled as a duplicate-free list
(Rust HashSet); List.insert prepends only when absent, exactly the
HashSet insert semantics.  Out-of-range indexing panics in the source;
the embedding totalizes it with a default interval and the theorems
restrict indices where this matters. -/

/-- Decision variable or expression, with its associated domain bounds. -/
structure Var where
  min : Int
  max : Int
deriving Repr, DecidableEq

/-- Variable domain is reduced to a singleton. -/
def Var.is_set (v : Var) : Bool := v.min == v.max

/-- Error type signaling that a space has been failed by a propagator. -/
inductive Failed where
  | failed
deriving Repr, DecidableEq

/-- Assign a value to a single domain if the domain contains it. -/
def Var.try_set (v : Var) (value : Int) : Except Failed Var :=
  if value < v.min ∨ value > v.max then .error .failed
  else .ok { min := value, max := value }

/-- Domain store: decision variable domains plus the change-event set. -/
structure Vars where
  vars : List Var
  events : List Nat
deriving Repr, DecidableEq

/-- Indexing into the store (panics in the source when out of range). -/
def Vars.getVar (s : Vars) (i : Nat) : Var := s.vars.getD i ⟨0, 0⟩

/-- Validation helper of src/vars.rs. -/
def ensure_min_leq_max (mn mx : Int) : Except Failed Unit :=
  if mn > mx then .error .failed else .ok ()

/-- Vars::try_set: try to assign a value to a variable. -/
def Vars.try_set (s : Vars) (id : Nat) (value : Int) : Except Failed Vars :=
  let var := s.getVar id
  match var.try_set value with
  | .error e => .error e
  | .ok var2 =>
      if var.is_set then .ok ⟨s.vars.set id var2, s.events⟩
      else .ok ⟨s.vars.set id var2, s.events.insert id⟩

/-- Vars::try_set_min: bound a domain from below. -/
def Vars.try_set_min (s : Vars) (id : Nat) (mn : Int) : Except Failed Vars :=
  let var := s.getVar id
  match ensure_min_leq_max mn var.max with
  | .error e => .error e
  | .ok _ =>
      if mn > var.min then
        .ok ⟨s.vars.set id ⟨mn, var.max⟩, s.events.insert id⟩
      else .ok s

/-- Vars::try_set_max: bound a domain from above. -/
def Vars.try_set_max (s : Vars) (id : Nat) (mx : Int) : Except Failed Vars :=
  let var := s.getVar id
  match ensure_min_leq_max var.min mx with
  | .error e => .error e
  | .ok _ =>
      if mx < var.max then
        .ok ⟨s.vars.set id ⟨var.min, mx⟩, s.events.insert id⟩
      else .ok s

/-- Vars::try_set_min_and_max: bound a domain on both sides. -/
def Vars.try_set_min_and_max (s : Vars) (id : Nat) (mn mx : Int) :
    Except Failed Vars :=
  match ensure_min_leq_max mn mx with
  | .error e => .error e
  | .ok _ =>
      match s.try_set_min id mn with
      | .error e => .error e
      | .ok s2 => s2.try_set_max id mx

/-- Vars::drain_events: yield the recorded events and clear the set. -/
def Vars.drain_events (s : Vars) : List Nat × Vars :=
  (s.events, ⟨s.vars, []⟩)

/-- Vars::get_assignment_if_all_variables_are_set. -/
def Vars.get_assignment_if_all_variables_are_set (s : Vars) :
    Option (List Int) :=
  if s.vars.all Var.is_set then some (s.vars.map Var.min) else none

/-- Vars::new builds a store with an empty change-event set. -/
def Vars.new (vars : List Var) : Vars := ⟨vars, []⟩

/-! ### Characterizations of the store primitives -/

theorem try_set_min_eq (s : Vars) (id : Nat) (mn : Int) :
    s.try_set_min id mn =
      if mn > (s.getVar id).max then .error .failed
      else if mn > (s.getVar id).min then
        .ok ⟨s.vars.set id ⟨mn, (s.getVar id).max⟩, s.events.insert id⟩
      else .ok s := by
  by_cases h : mn > (s.getVar id).max
  · simp only [Vars.try_set_min, ensure_min_leq_max, if_pos h]
  · simp only [Vars.try_set_min, ensure_min_leq_max, if_neg h]

theorem try_set_max_eq (s : Vars) (id : Nat) (mx : Int) :
    s.try_set_max id mx =
      if (s.getVar id).min > mx then .error .failed
      else if mx < (s.getVar id).max then
        .ok ⟨s.vars.set id ⟨(s.getVar id).min, mx⟩, s.events.insert id⟩
      else .ok s := by
  by_cases h : (s.getVar id).min > mx
  · simp only [Vars.try_set_max, ensure_min_leq_max, if_pos h]
  · simp only [Vars.try_set_max, ensure_min_leq_max, if_neg h]

theorem try_set_eq (s : Vars) (id : Nat) (v : Int) :
    s.try_set id v =
      if v < (s.getVar id).min ∨ v > (s.getVar id).max then .error .failed
      else if (s.getVar id).is_set then .ok ⟨s.vars.set id ⟨v, v⟩, s.events⟩
      else .ok ⟨s.vars.set id ⟨v, v⟩, s.events.insert id⟩ := by
  by_cases h : v < (s.getVar id).min ∨ v > (s.getVar id).max
  · simp only [Vars.try_set, Var.try_set, if_pos h]
  · simp only [Vars.try_set, Var.try_set, if_neg h]

theorem getVar_set_self (s : Vars) (id : Nat) (h : id < s.vars.length)
    (v : Var) (es : List Nat) :
    Vars.getVar ⟨s.vars.set id v, es⟩ id = v := by
  unfold Vars.getVar
  simp [List.getD_eq_getElem?_getD, List.getElem?_set_self h]

theorem getVar_set_other (s : Vars) (id j : Nat) (hne : id ≠ j)
    (v : Var) (es : List Nat) :
    Vars.getVar ⟨s.vars.set id v, es⟩ j = s.getVar j := by
  unfold Vars.getVar
  simp [List.getD_eq_getElem?_getD, List.getElem?_set_ne hne]

theorem is_set_iff (v : Var) : v.is_set = true ↔ v.min = v.max := by
  unfold Var.is_set
  exact beq_iff_eq

/-! ### Store invariants: narrowing, crossing, span, events -/

/-- Assignment a lies within every domain of the store. -/
def inBox (s : Vars) (a : Nat → Int) : Prop :=
  ∀ i, i < s.vars.length → (s.getVar i).min ≤ a i ∧ a i ≤ (s.getVar i).max

/-- Pointwise domain inclusion: s2 has the same variables with domains
contained in those of s1. -/
def Narrows (s2 s1 : Vars) : Prop :=
  s2.vars.length = s1.vars.length ∧
  ∀ i, i < s1.vars.length →
    (s1.getVar i).min ≤ (s2.getVar i).min ∧
    (s2.getVar i).max ≤ (s1.getVar i).max

/-- Every domain of the store satisfies min ≤ max. -/
def NonCross (s : Vars) : Prop :=
  ∀ i, i < s.vars.length → (s.getVar i).min ≤ (s.getVar i).max

/-- Width of a domain as a natural number. -/
def Var.span (v : Var) : Nat := (v.max - v.min).toNat

/-- Total width of all domains, the search termination measure. -/
def Vars.spanTotal (s : Vars) : Nat := (s.vars.map Var.span).sum

theorem Narrows.refl (s : Vars) : Narrows s s :=
  ⟨rfl, fun _ _ => ⟨le_refl _, le_refl _⟩⟩

theorem Narrows.trans {s3 s2 s1 : Vars}
    (h32 : Narrows s3 s2) (h21 : Narrows s2 s1) : Narrows s3 s1 := by
  obtain ⟨hl32, hb32⟩ := h32
  obtain ⟨hl21, hb21⟩ := h21
  refine ⟨hl32.trans hl21, fun i hi => ?_⟩
  obtain ⟨a1, a2⟩ := hb21 i hi
  obtain ⟨b1, b2⟩ := hb32 i (hl21 ▸ hi)
  exact ⟨le_trans a1 b1, le_trans b2 a2⟩

theorem Narrows.inBox_mono {s2 s1 : Vars} {a : Nat → Int}
    (h : Narrows s2 s1) (hb : inBox s2 a) : inBox s1 a := by
  intro i hi
  obtain ⟨hmin, hmax⟩ := h.2 i hi
  obtain ⟨bmin, bmax⟩ := hb i (h.1 ▸ hi)
  exact ⟨le_trans hmin bmin, le_trans bmax hmax⟩

theorem spanTotal_set (l : List Var) (i : Nat) (v : Var) (h : i < l.length) :
    ((l.set i v).map Var.span).sum + Var.span (l.getD i ⟨0, 0⟩) =
      (l.map Var.span).sum + Var.span v := by
  induction l generalizing i with
  | nil => simp at h
  | cons hd tl ih =>
      cases i with
      | zero => simp [List.set, List.getD]; omega
      | succ j =>
          have hj : j < tl.length := by simpa using h
          have := ih j hj
          simp only [List.set, List.map, List.sum_cons, List.getD_cons_succ]
          omega

theorem set_getD_self (l : List Var) (i : Nat) (h : i < l.length) :
    l.set i (l.getD i ⟨0, 0⟩) = l := by
  induction l generalizing i with
  | nil => simp at h
  | cons hd tl ih =>
      cases i with
      | zero => simp [List.set, List.getD]
      | succ j =>
          have hj : j < tl.length := by simpa using h
          have hih := ih j hj
          rw [List.getD_eq_getElem?_getD] at hih
          simp [List.set, List.getD_cons_succ, List.getD_eq_getElem?_getD, hih]

/-- Facts common to every successful store primitive: at most the target
domains change, domains only shrink, min ≤ max is preserved, the total
span never grows and strictly shrinks on an actual change, events only
accumulate targets, every change is recorded, and the event set stays
duplicate-free. -/
structure StepsOK (P : Nat → Prop) (s s2 : Vars) : Prop where
  narrows : Narrows s2 s
  frame : ∀ j, ¬ P j → s2.getVar j = s.getVar j
  noncross : NonCross s → NonCross s2
  spanLe : s2.spanTotal ≤ s.spanTotal
  spanLt : s2 ≠ s → s2.spanTotal < s.spanTotal
  eventsSuffix : List.IsSuffix s.events s2.events
  eventsNew : ∀ x, x ∈ s2.events → x ∈ s.events ∨ P x
  changeRecorded : ∀ j, s2.getVar j ≠ s.getVar j → j ∈ s2.events
  nodupKept : s.events.Nodup → s2.events.Nodup

theorem StepsOK.self (P : Nat → Prop) (s : Vars) : StepsOK P s s where
  narrows := Narrows.refl s
  frame := fun _ _ => rfl
  noncross := id
  spanLe := le_refl _
  spanLt := fun h => absurd rfl h
  eventsSuffix := List.suffix_refl _
  eventsNew := fun _ hx => Or.inl hx
  changeRecorded := fun _ h => absurd rfl h
  nodupKept := id

theorem StepsOK.comp {P : Nat → Prop} {s1 s2 s3 : Vars}
    (h12 : StepsOK P s1 s2) (h23 : StepsOK P s2 s3) : StepsOK P s1 s3 where
  narrows := h23.narrows.trans h12.narrows
  frame := fun j hj => (h23.frame j hj).trans (h12.frame j hj)
  noncross := fun h => h23.noncross (h12.noncross h)
  spanLe := le_trans h23.spanLe h12.spanLe
  spanLt := by
    intro hne
    by_cases h2 : s2 = s1
    · subst h2
      exact h23.spanLt hne
    · exact lt_of_le_of_lt h23.spanLe (h12.spanLt h2)
  eventsSuffix := h12.eventsSuffix.trans h23.eventsSuffix
  eventsNew := by
    intro x hx
    rcases h23.eventsNew x hx with hin | hp
    · exact h12.eventsNew x hin
    · exact Or.inr hp
  changeRecorded := by
    intro j hj
    by_cases h2 : s3.getVar j = s2.getVar j
    · have : s2.getVar j ≠ s1.getVar j := by rw [← h2]; exact hj
      exact h23.eventsSuffix.sublist.mem (h12.changeRecorded j this)
    · exact h23.changeRecorded j h2
  nodupKept := fun h => h23.nodupKept (h12.nodupKept h)

/-- The single-index mutation shared by the change branches of the store
primitives: replace the domain at id and record the event. -/
theorem stepsOK_set (s : Vars) (id : Nat) (vmn vmx : Int)
    (hid : id < s.vars.length)
    (hmin : (s.getVar id).min ≤ vmn)
    (hmax : vmx ≤ (s.getVar id).max)
    (hcross : vmn ≤ vmx)
    (hchange : vmn ≠ (s.getVar id).min ∨ vmx ≠ (s.getVar id).max) :
    StepsOK (· = id) s ⟨s.vars.set id ⟨vmn, vmx⟩, s.events.insert id⟩ := by
  set vNew : Var := ⟨vmn, vmx⟩ with hv
  set s2 : Vars := ⟨s.vars.set id vNew, s.events.insert id⟩ with hs2
  have hlen : s2.vars.length = s.vars.length := by
    simp [hs2, List.length_set]
  have hself : s2.getVar id = vNew := getVar_set_self s id hid vNew _
  have hother : ∀ j, j ≠ id → s2.getVar j = s.getVar j := by
    intro j hj
    exact getVar_set_other s id j (fun h => hj h.symm) vNew _
  have hspan : s2.spanTotal + Var.span (s.getVar id) =
      s.spanTotal + Var.span vNew := by
    have := spanTotal_set s.vars id vNew hid
    simpa [Vars.spanTotal, hs2, Vars.getVar] using this
  have hspanlt : Var.span vNew < Var.span (s.getVar id) := by
    show (vmx - vmn).toNat < ((s.getVar id).max - (s.getVar id).min).toNat
    omega
  have hmemsuffix : List.IsSuffix s.events (s.events.insert id) := by
    by_cases hmem : id ∈ s.events
    · rw [List.insert_of_mem hmem]
    · rw [List.insert_of_not_mem hmem]
      exact List.suffix_cons id s.events
  refine ⟨⟨hlen, ?_⟩, hother, ?_, by omega, fun _ => by omega, hmemsuffix,
    ?_, ?_, ?_⟩
  · intro i hi
    by_cases hji : i = id
    · subst hji
      rw [hself]
      exact ⟨hmin, hmax⟩
    · rw [hother i hji]
      exact ⟨le_refl _, le_refl _⟩
  · intro hnc i hi
    by_cases hji : i = id
    · subst hji
      rw [hself]
      exact hcross
    · rw [hother i hji]
      exact hnc i (hlen ▸ hi)
  · intro x hx
    have : x ∈ s.events.insert id := hx
    rcases List.mem_insert_iff.1 this with h | h
    · exact Or.inr h
    · exact Or.inl h
  · intro j hj
    by_cases hji : j = id
    · subst hji
      exact List.mem_insert_self j s.events
    · exact absurd (hother j hji) hj
  · intro h
    exact h.insert

theorem StepsOK.mono {P Q : Nat → Prop} {s1 s2 : Vars}
    (h : StepsOK P s1 s2) (hpq : ∀ x, P x → Q x) : StepsOK Q s1 s2 where
  narrows := h.narrows
  frame := fun j hj => h.frame j (fun hp => hj (hpq j hp))
  noncross := h.noncross
  spanLe := h.spanLe
  spanLt := h.spanLt
  eventsSuffix := h.eventsSuffix
  eventsNew := by
    intro x hx
    rcases h.eventsNew x hx with hin | hp
    · exact Or.inl hin
    · exact Or.inr (hpq x hp)
  changeRecorded := h.changeRecorded
  nodupKept := h.nodupKept

/-! ### Per-primitive facts -/

theorem try_set_min_stepsOK {s s2 : Vars} {id : Nat} {mn : Int}
    (hid : id < s.vars.length) (h : s.try_set_min id mn = .ok s2) :
    StepsOK (· = id) s s2 := by
  rw [try_set_min_eq] at h
  split_ifs at h with h1 h2
  · cases h
    exact stepsOK_set s id mn (s.getVar id).max hid (by omega) (le_refl _)
      (by omega) (Or.inl (by omega))
  · cases h
    exact StepsOK.self _ s

theorem try_set_min_ok_bounds {s s2 : Vars} {id : Nat} {mn : Int}
    (hid : id < s.vars.length) (h : s.try_set_min id mn = .ok s2) :
    s2.getVar id = ⟨max (s.getVar id).min mn, (s.getVar id).max⟩ ∧
      mn ≤ (s.getVar id).max := by
  rw [try_set_min_eq] at h
  split_ifs at h with h1 h2
  · cases h
    rw [getVar_set_self s id hid]
    have hmx : max (s.getVar id).min mn = mn := by omega
    rw [hmx]
    exact ⟨rfl, by omega⟩
  · cases h
    constructor
    · have hmx : max (s.getVar id).min mn = (s.getVar id).min := by omega
      rw [hmx]
    · omega

theorem try_set_min_err {s : Vars} {id : Nat} {mn : Int} {e : Failed}
    (h : s.try_set_min id mn = .error e) : (s.getVar id).max < mn := by
  rw [try_set_min_eq] at h
  split_ifs at h with h1 h2
  omega

theorem try_set_max_stepsOK {s s2 : Vars} {id : Nat} {mx : Int}
    (hid : id < s.vars.length) (h : s.try_set_max id mx = .ok s2) :
    StepsOK (· = id) s s2 := by
  rw [try_set_max_eq] at h
  split_ifs at h with h1 h2
  · cases h
    exact stepsOK_set s id (s.getVar id).min mx hid (le_refl _) (by omega)
      (by omega) (Or.inr (by omega))
  · cases h
    exact StepsOK.self _ s

theorem try_set_max_ok_bounds {s s2 : Vars} {id : Nat} {mx : Int}
    (hid : id < s.vars.length) (h : s.try_set_max id mx = .ok s2) :
    s2.getVar id = ⟨(s.getVar id).min, min (s.getVar id).max mx⟩ ∧
      (s.getVar id).min ≤ mx := by
  rw [try_set_max_eq] at h
  split_ifs at h with h1 h2
  · cases h
    rw [getVar_set_self s id hid]
    have hmx : min (s.getVar id).max mx = mx := by omega
    rw [hmx]
    exact ⟨rfl, by omega⟩
  · cases h
    constructor
    · have hmx : min (s.getVar id).max mx = (s.getVar id).max := by omega
      rw [hmx]
    · omega

theorem try_set_max_err {s : Vars} {id : Nat} {mx : Int} {e : Failed}
    (h : s.try_set_max id mx = .error e) : mx < (s.getVar id).min := by
  rw [try_set_max_eq] at h
  split_ifs at h with h1 h2
  omega

theorem try_set_stepsOK {s s2 : Vars} {id : Nat} {v : Int}
    (hid : id < s.vars.length) (h : s.try_set id v = .ok s2) :
    StepsOK (· = id) s s2 := by
  rw [try_set_eq] at h
  split_ifs at h with h1 h2
  · cases h
    push_neg at h1
    have hset := (is_set_iff (s.getVar id)).1 h2
    have hvar : (⟨v, v⟩ : Var) = s.getVar id := by
      have : v = (s.getVar id).min := by omega
      cases hh : s.getVar id
      simp_all
    have : s.vars.set id ⟨v, v⟩ = s.vars := by
      rw [hvar]
      have := set_getD_self s.vars id hid
      simpa [Vars.getVar] using this
    rw [this]
    exact StepsOK.self _ s
  · cases h
    push_neg at h1
    have hns : (s.getVar id).min ≠ (s.getVar id).max := by
      intro hc
      exact h2 ((is_set_iff _).2 hc)
    exact stepsOK_set s id v v hid (by omega) (by omega) (le_refl _)
      (by omega)

theorem try_set_ok_bounds {s s2 : Vars} {id : Nat} {v : Int}
    (hid : id < s.vars.length) (h : s.try_set id v = .ok s2) :
    s2.getVar id = ⟨v, v⟩ ∧ (s.getVar id).min ≤ v ∧ v ≤ (s.getVar id).max := by
  rw [try_set_eq] at h
  split_ifs at h with h1 h2
  · cases h
    push_neg at h1
    have hset := (is_set_iff (s.getVar id)).1 h2
    refine ⟨?_, h1.1, h1.2⟩
    rw [getVar_set_self s id hid]
  · cases h
    push_neg at h1
    refine ⟨?_, h1.1, h1.2⟩
    rw [getVar_set_self s id hid]

theorem try_set_err {s : Vars} {id : Nat} {v : Int} {e : Failed}
    (h : s.try_set id v = .error e) :
    v < (s.getVar id).min ∨ (s.getVar id).max < v := by
  rw [try_set_eq] at h
  split_ifs at h with h1 h2
  omega

theorem try_set_min_and_max_stepsOK {s s2 : Vars} {id : Nat} {mn mx : Int}
    (hid : id < s.vars.length)
    (h : s.try_set_min_and_max id mn mx = .ok s2) :
    StepsOK (· = id) s s2 := by
  unfold Vars.try_set_min_and_max ensure_min_leq_max at h
  split_ifs at h with h1
  cases hm : s.try_set_min id mn with
  | error e => rw [hm] at h; cases h
  | ok s1 =>
      rw [hm] at h
      have hs1 := try_set_min_stepsOK hid hm
      have hid1 : id < s1.vars.length := by
        rw [hs1.narrows.1]; exact hid
      exact hs1.comp (try_set_max_stepsOK hid1 h)

theorem try_set_min_and_max_ok_bounds {s s2 : Vars} {id : Nat} {mn mx : Int}
    (hid : id < s.vars.length)
    (h : s.try_set_min_and_max id mn mx = .ok s2) :
    s2.getVar id = ⟨max (s.getVar id).min mn, min (s.getVar id).max mx⟩ ∧
      mn ≤ mx ∧ mn ≤ (s.getVar id).max ∧ max (s.getVar id).min mn ≤ mx := by
  unfold Vars.try_set_min_and_max ensure_min_leq_max at h
  split_ifs at h with h1
  cases hm : s.try_set_min id mn with
  | error e => rw [hm] at h; cases h
  | ok s1 =>
      rw [hm] at h
      have hs1 := try_set_min_stepsOK hid hm
      have hid1 : id < s1.vars.length := by
        rw [hs1.narrows.1]; exact hid
      obtain ⟨hb1, hc1⟩ := try_set_min_ok_bounds hid hm
      obtain ⟨hb2, hc2⟩ := try_set_max_ok_bounds hid1 h
      rw [hb1] at hb2 hc2
      refine ⟨?_, by omega, hc1, by simpa using hc2⟩
      rw [hb2]

theorem try_set_min_and_max_err {s : Vars} {id : Nat} {mn mx : Int} {e : Failed}
    (h : s.try_set_min_and_max id mn mx = .error e) :
    mx < mn ∨ (s.getVar id).max < mn ∨ mx < max (s.getVar id).min mn := by
  unfold Vars.try_set_min_and_max ensure_min_leq_max at h
  split_ifs at h with h1
  · omega
  · cases hm : s.try_set_min id mn with
    | error e2 =>
        exact Or.inr (Or.inl (try_set_min_err hm))
    | ok s1 =>
        rw [hm] at h
        right; right
        have hmax := try_set_max_err h
        by_cases hid : id < s.vars.length
        · obtain ⟨hb1, _⟩ := try_set_min_ok_bounds hid hm
          rw [hb1] at hmax
          simpa using hmax
        · push_neg at hid
          have : s1.getVar id = s.getVar id := by
            rw [try_set_min_eq] at hm
            split_ifs at hm with ha hb
            · cases hm
              unfold Vars.getVar
              have h1 : s.vars.length ≤ id := hid
              simp [List.getD_eq_getElem?_getD, List.getElem?_eq_none,
                List.length_set, h1]
            · cases hm; rfl
          rw [this] at hmax
          omega

/-! ### Soundness of the primitives: a feasible point inside the box
survives every bound mutation that its value justifies. -/

theorem try_set_min_sound {s : Vars} {id : Nat} {mn : Int} {a : Nat → Int}
    (hid : id < s.vars.length) (ha : inBox s a) (hm : mn ≤ a id) :
    ∃ s2, s.try_set_min id mn = .ok s2 ∧ inBox s2 a := by
  obtain ⟨hlo, hhi⟩ := ha id hid
  cases hres : s.try_set_min id mn with
  | error e =>
      have := try_set_min_err hres
      omega
  | ok s2 =>
      refine ⟨s2, rfl, ?_⟩
      have hst := try_set_min_stepsOK hid hres
      obtain ⟨hb, _⟩ := try_set_min_ok_bounds hid hres
      intro i hi
      have hi0 : i < s.vars.length := by rw [← hst.narrows.1]; exact hi
      by_cases hji : i = id
      · subst hji
        rw [hb]
        refine ⟨?_, ?_⟩
        · show max (s.getVar i).min mn ≤ a i
          omega
        · show a i ≤ (s.getVar i).max
          omega
      · rw [hst.frame i hji]
        exact ha i hi0

theorem try_set_max_sound {s : Vars} {id : Nat} {mx : Int} {a : Nat → Int}
    (hid : id < s.vars.length) (ha : inBox s a) (hm : a id ≤ mx) :
    ∃ s2, s.try_set_max id mx = .ok s2 ∧ inBox s2 a := by
  obtain ⟨hlo, hhi⟩ := ha id hid
  cases hres : s.try_set_max id mx with
  | error e =>
      have := try_set_max_err hres
      omega
  | ok s2 =>
      refine ⟨s2, rfl, ?_⟩
      have hst := try_set_max_stepsOK hid hres
      obtain ⟨hb, _⟩ := try_set_max_ok_bounds hid hres
      intro i hi
      have hi0 : i < s.vars.length := by rw [← hst.narrows.1]; exact hi
      by_cases hji : i = id
      · subst hji
        rw [hb]
        refine ⟨?_, ?_⟩
        · show (s.getVar i).min ≤ a i
          omega
        · show a i ≤ min (s.getVar i).max mx
          omega
      · rw [hst.frame i hji]
        exact ha i hi0

theorem try_set_min_and_max_sound {s : Vars} {id : Nat} {mn mx : Int}
    {a : Nat → Int} (hid : id < s.vars.length) (ha : inBox s a)
    (h1 : mn ≤ a id) (h2 : a id ≤ mx) :
    ∃ s2, s.try_set_min_and_max id mn mx = .ok s2 ∧ inBox s2 a := by
  unfold Vars.try_set_min_and_max ensure_min_leq_max
  rw [if_neg (by omega)]
  obtain ⟨s1, hs1, hb1⟩ := try_set_min_sound hid ha h1
  rw [hs1]
  have hid1 : id < s1.vars.length := by
    rw [(try_set_min_stepsOK hid hs1).narrows.1]; exact hid
  obtain ⟨s2, hs2, hb2⟩ := try_set_max_sound hid1 hb1 h2
  exact ⟨s2, hs2, hb2⟩

theorem try_set_sound {s : Vars} {id : Nat} {v : Int} {a : Nat → Int}
    (hid : id < s.vars.length) (ha : inBox s a) (hv : a id = v) :
    ∃ s2, s.try_set id v = .ok s2 ∧ inBox s2 a := by
  obtain ⟨hlo, hhi⟩ := ha id hid
  cases hres : s.try_set id v with
  | error e =>
      have := try_set_err hres
      omega
  | ok s2 =>
      refine ⟨s2, rfl, ?_⟩
      have hst := try_set_stepsOK hid hres
      obtain ⟨hb, _, _⟩ := try_set_ok_bounds hid hres
      intro i hi
      have hi0 : i < s.vars.length := by rw [← hst.narrows.1]; exact hi
      by_cases hji : i = id
      · subst hji
        rw [hb]
        refine ⟨?_, ?_⟩
        · show v ≤ a i
          omega
        · show a i ≤ v
          omega
      · rw [hst.frame i hji]
        exact ha i hi0

/-! ## Propagators of the by-value engine (src/props.rs)

Each propagator receives its dependency tuple and the store, and either
fails the space or returns the updated store.  Custom propagators
(PropId::Custom, a user extension point) are outside the scope of this
development; the six built-in kinds are embedded. -/

/-- Propagator handle, discriminated by kind (src/props.rs PropId). -/
inductive PropId where
  | scalePos (i : Nat)
  | scaleNeg (i : Nat)
  | plus (i : Nat)
  | sum (i : Nat)
  | eq (i : Nat)
  | leq (i : Nat)
deriving Repr, DecidableEq

/-- PropScalePos::propagate: enforce y = coef * x for coef > 0. -/
def propScalePos (d : Nat × Nat × Int) (vars : Vars) : Except Failed Vars :=
  let x := d.1
  let y := d.2.1
  let coef := d.2.2
  let var_x := vars.getVar x
  let var_y := vars.getVar y
  let mn := max var_x.min ((next_multiple_of_tmp var_y.min coef).tdiv coef)
  let mx := min var_x.max ((var_y.max - var_y.max.emod coef).tdiv coef)
  match vars.try_set_min_and_max x mn mx with
  | .error e => .error e
  | .ok vars2 => vars2.try_set_min_and_max y (mn * coef) (mx * coef)

/-- PropScaleNeg::propagate: enforce y = coef * x for coef < 0. -/
def propScaleNeg (d : Nat × Nat × Int) (vars : Vars) : Except Failed Vars :=
  let x := d.1
  let y := d.2.1
  let coef := d.2.2
  let var_x := vars.getVar x
  let var_y := vars.getVar y
  let mn := max var_x.min ((var_y.max - var_y.max.emod (-coef)).tdiv coef)
  let mx := min var_x.max ((next_multiple_of_tmp var_y.min (-coef)).tdiv coef)
  match vars.try_set_min_and_max x mn mx with
  | .error e => .error e
  | .ok vars2 => vars2.try_set_min_and_max y (mx * coef) (mn * coef)

/-- PropPlus::propagate: enforce x + y = p. -/
def propPlus (d : Nat × Nat × Nat) (vars : Vars) : Except Failed Vars :=
  let p := d.1
  let x := d.2.1
  let y := d.2.2
  let var_x := vars.getVar x
  let var_y := vars.getVar y
  let var_p := vars.getVar p
  let mn := max (var_x.min + var_y.min) var_p.min
  let mx := min (var_x.max + var_y.max) var_p.max
  match vars.try_set_min_and_max x (mn - var_y.max) (mx - var_y.min) with
  | .error e => .error e
  | .ok vars2 =>
      match vars2.try_set_min_and_max y (mn - var_x.max) (mx - var_x.min) with
      | .error e => .error e
      | .ok vars3 => vars3.try_set_min_and_max p mn mx

/-- Bounds of the summed terms, folded exactly as in PropSum::propagate. -/
def sumBounds (vars : Vars) (xs : List Nat) : Int × Int :=
  xs.foldl
    (fun pr id => (pr.1 + (vars.getVar id).min, pr.2 + (vars.getVar id).max))
    (0, 0)

/-- Per-term pruning loop of PropSum::propagate (reads updated domains). -/
def sumLoop (mn mx som soM : Int) (xs : List Nat) (vars : Vars) :
    Except Failed Vars :=
  match xs with
  | [] => .ok vars
  | x :: rest =>
      match vars.try_set_min_and_max x (mn - (soM - (vars.getVar x).max))
          (mx - (som - (vars.getVar x).min)) with
      | .error e => .error e
      | .ok v2 => sumLoop mn mx som soM rest v2

/-- PropSum::propagate: enforce sum xs = s. -/
def propSum (d : Nat × List Nat) (vars : Vars) : Except Failed Vars :=
  let s := d.1
  let xs := d.2
  let sums := sumBounds vars xs
  let var := vars.getVar s
  let mn := max sums.1 var.min
  let mx := min sums.2 var.max
  match vars.try_set_min_and_max s mn mx with
  | .error e => .error e
  | .ok v2 => sumLoop mn mx sums.1 sums.2 xs v2

/-- PropEq::propagate: enforce x = y. -/
def propEq (d : Nat × Nat) (vars : Vars) : Except Failed Vars :=
  let x := d.1
  let y := d.2
  let mn := max (vars.getVar x).min (vars.getVar y).min
  let mx := min (vars.getVar x).max (vars.getVar y).max
  match vars.try_set_min_and_max x mn mx with
  | .error e => .error e
  | .ok vars2 => vars2.try_set_min_and_max y mn mx

/-- PropLeq::propagate: prune only the maximum of x (src/props.rs). -/
def propLeq (d : Nat × Nat) (vars : Vars) : Except Failed Vars :=
  let x := d.1
  let y := d.2
  let mx := min (vars.getVar x).max (vars.getVar y).max
  vars.try_set_max x mx

/-! ### Constraint semantics of each propagator kind -/

def satScalePos (d : Nat × Nat × Int) (a : Nat → Int) : Prop :=
  a d.2.1 = d.2.2 * a d.1

def satScaleNeg (d : Nat × Nat × Int) (a : Nat → Int) : Prop :=
  a d.2.1 = d.2.2 * a d.1

def satPlus (d : Nat × Nat × Nat) (a : Nat → Int) : Prop :=
  a d.2.1 + a d.2.2 = a d.1

def satSum (d : Nat × List Nat) (a : Nat → Int) : Prop :=
  (d.2.map a).sum = a d.1

def satEq (d : Nat × Nat) (a : Nat → Int) : Prop := a d.1 = a d.2

def satLeq (d : Nat × Nat) (a : Nat → Int) : Prop := a d.1 ≤ a d.2

/-- Assignment read off a fully assigned store (the minima). -/
def minsOf (s : Vars) : Nat → Int := fun i => (s.getVar i).min

/-- The domain at index i is a singleton. -/
def isSetVar (s : Vars) (i : Nat) : Prop :=
  (s.getVar i).min = (s.getVar i).max

theorem Var.ext_mm {u v : Var} (h1 : u.min = v.min) (h2 : u.max = v.max) :
    u = v := by
  cases u; cases v; simp_all

/-- Squeeze: a domain unchanged across two narrowings is unchanged at the
intermediate state as well. -/
theorem narrows_squeeze {s1 s2 s3 : Vars} (h21 : Narrows s2 s1)
    (h32 : Narrows s3 s2) (j : Nat) (hj : j < s1.vars.length)
    (hend : s3.getVar j = s1.getVar j) : s2.getVar j = s1.getVar j := by
  obtain ⟨hl21, hb21⟩ := h21
  obtain ⟨hl32, hb32⟩ := h32
  obtain ⟨a1, a2⟩ := hb21 j hj
  obtain ⟨b1, b2⟩ := hb32 j (hl21 ▸ hj)
  apply Var.ext_mm
  · have := congrArg Var.min hend
    omega
  · have := congrArg Var.max hend
    omega

/-! ### Fixed-point checks per propagator kind

pcheck is the stable fact a successful propagator run leaves behind when
it did not touch its trigger variables; it survives later narrowing of
non-trigger domains and yields the constraint once every operand domain
is a singleton. -/

def pcheckScalePos (d : Nat × Nat × Int) (v : Vars) : Prop :=
  isSetVar v d.1 → isSetVar v d.2.1 → satScalePos d (minsOf v)

def pcheckScaleNeg (d : Nat × Nat × Int) (v : Vars) : Prop :=
  isSetVar v d.1 → isSetVar v d.2.1 → satScaleNeg d (minsOf v)

def pcheckPlus (d : Nat × Nat × Nat) (v : Vars) : Prop :=
  isSetVar v d.2.1 → isSetVar v d.2.2 →
    (v.getVar d.1).min = (v.getVar d.2.1).min + (v.getVar d.2.2).min ∧
    (v.getVar d.1).max = (v.getVar d.2.1).min + (v.getVar d.2.2).min

def pcheckSum (d : Nat × List Nat) (v : Vars) : Prop :=
  (∀ x ∈ d.2, isSetVar v x) →
    (v.getVar d.1).min = (d.2.map (minsOf v)).sum ∧
    (v.getVar d.1).max = (d.2.map (minsOf v)).sum

def pcheckEq (d : Nat × Nat) (v : Vars) : Prop :=
  isSetVar v d.1 → isSetVar v d.2 → satEq d (minsOf v)

def pcheckLeq (d : Nat × Nat) (v : Vars) : Prop :=
  isSetVar v d.1 → isSetVar v d.2 → satLeq d (minsOf v)

/-- Common slack extraction for a propagator that runs two sequential
try_set_min_and_max calls with bounds computed from the initial store and
whose run left both target domains unchanged. -/
theorem twoTry_facts {vars s1 v2 : Vars} {x y : Nat} {lo1 hi1 lo2 hi2 : Int}
    (hx : x < vars.vars.length) (hy : y < vars.vars.length)
    (h1 : vars.try_set_min_and_max x lo1 hi1 = .ok s1)
    (h2 : s1.try_set_min_and_max y lo2 hi2 = .ok v2)
    (hux : v2.getVar x = vars.getVar x)
    (huy : v2.getVar y = vars.getVar y) :
    lo1 ≤ (vars.getVar x).min ∧ (vars.getVar x).max ≤ hi1 ∧
    lo2 ≤ (vars.getVar y).min ∧ (vars.getVar y).max ≤ hi2 := by
  have st1 := try_set_min_and_max_stepsOK hx h1
  have hy1 : y < s1.vars.length := by rw [st1.narrows.1]; exact hy
  have hx1 : x < s1.vars.length := by rw [st1.narrows.1]; exact hx
  have st2 := try_set_min_and_max_stepsOK hy1 h2
  have hsx : s1.getVar x = vars.getVar x :=
    narrows_squeeze st1.narrows st2.narrows x hx hux
  have hsy : s1.getVar y = vars.getVar y := by
    by_cases hxy : y = x
    · subst hxy; exact hsx
    · exact st1.frame y hxy
  obtain ⟨hb1, _⟩ := try_set_min_and_max_ok_bounds hx h1
  obtain ⟨hb2, _⟩ := try_set_min_and_max_ok_bounds hy1 h2
  rw [hsx] at hb1
  rw [hsy, huy] at hb2
  have e1min := congrArg Var.min hb1
  have e1max := congrArg Var.max hb1
  have e2min := congrArg Var.min hb2
  have e2max := congrArg Var.max hb2
  simp only at e1min e1max e2min e2max
  refine ⟨by omega, by omega, by omega, by omega⟩

/-! ### Kind: Leq (x <= y), src/props.rs PropLeq -/

theorem propLeq_sound {x y : Nat} {vars : Vars} {a : Nat → Int}
    (hx : x < vars.vars.length) (hy : y < vars.vars.length)
    (hsat : a x ≤ a y) (hb : inBox vars a) :
    ∃ v2, propLeq (x, y) vars = .ok v2 ∧ inBox v2 a := by
  have h1 := (hb x hx).2
  have h2 := (hb y hy).2
  show ∃ v2, vars.try_set_max x (min (vars.getVar x).max (vars.getVar y).max)
      = .ok v2 ∧ inBox v2 a
  exact try_set_max_sound hx hb (by omega)

theorem propLeq_stepsOK {x y : Nat} {vars v2 : Vars}
    (hx : x < vars.vars.length) (h : propLeq (x, y) vars = .ok v2) :
    StepsOK (fun j => j = x ∨ j = y) vars v2 := by
  have h2 : vars.try_set_max x (min (vars.getVar x).max (vars.getVar y).max)
      = .ok v2 := h
  exact (try_set_max_stepsOK hx h2).mono (fun j hj => Or.inl hj)

theorem propLeq_establish {x y : Nat} {vars v2 : Vars}
    (hx : x < vars.vars.length)
    (h : propLeq (x, y) vars = .ok v2)
    (hux : v2.getVar x = vars.getVar x)
    (huy : v2.getVar y = vars.getVar y) :
    pcheckLeq (x, y) v2 := by
  intro hsx hsy
  have h2 : vars.try_set_max x (min (vars.getVar x).max (vars.getVar y).max)
      = .ok v2 := h
  obtain ⟨hb, _⟩ := try_set_max_ok_bounds hx h2
  rw [hux] at hb
  have emax := congrArg Var.max hb
  simp only at emax
  unfold isSetVar at hsx hsy
  rw [hux] at hsx
  rw [huy] at hsy
  show minsOf v2 x ≤ minsOf v2 y
  unfold minsOf
  rw [hux, huy]
  omega

theorem pcheckLeq_preserve {x y : Nat} {v2 v3 : Vars}
    (hp : pcheckLeq (x, y) v2)
    (hux : v3.getVar x = v2.getVar x) (huy : v3.getVar y = v2.getVar y) :
    pcheckLeq (x, y) v3 := by
  intro hsx hsy
  unfold isSetVar at hsx hsy
  rw [hux] at hsx
  rw [huy] at hsy
  have := hp hsx hsy
  show minsOf v3 x ≤ minsOf v3 y
  unfold minsOf
  rw [hux, huy]
  exact this

/-! ### Kind: Eq (x = y), src/props.rs PropEq -/

theorem propEq_eq (x y : Nat) (vars : Vars) :
    propEq (x, y) vars =
      match vars.try_set_min_and_max x
          (max (vars.getVar x).min (vars.getVar y).min)
          (min (vars.getVar x).max (vars.getVar y).max) with
      | .error e => .error e
      | .ok vars2 => vars2.try_set_min_and_max y
          (max (vars.getVar x).min (vars.getVar y).min)
          (min (vars.getVar x).max (vars.getVar y).max) := rfl

theorem propEq_sound {x y : Nat} {vars : Vars} {a : Nat → Int}
    (hx : x < vars.vars.length) (hy : y < vars.vars.length)
    (hsat : a x = a y) (hb : inBox vars a) :
    ∃ v2, propEq (x, y) vars = .ok v2 ∧ inBox v2 a := by
  have h1 := hb x hx
  have h2 := hb y hy
  obtain ⟨s1, hs1, hbox1⟩ := @try_set_min_and_max_sound _ _
    (max (vars.getVar x).min (vars.getVar y).min)
    (min (vars.getVar x).max (vars.getVar y).max) _
    hx hb (by omega) (by omega)
  have hy1 : y < s1.vars.length := by
    rw [(try_set_min_and_max_stepsOK hx hs1).narrows.1]; exact hy
  obtain ⟨v2, hv2, hbox2⟩ := @try_set_min_and_max_sound _ _
    (max (vars.getVar x).min (vars.getVar y).min)
    (min (vars.getVar x).max (vars.getVar y).max) _
    hy1 hbox1 (by omega) (by omega)
  refine ⟨v2, ?_, hbox2⟩
  rw [propEq_eq, hs1]
  exact hv2

theorem propEq_stepsOK {x y : Nat} {vars v2 : Vars}
    (hx : x < vars.vars.length) (hy : y < vars.vars.length)
    (h : propEq (x, y) vars = .ok v2) :
    StepsOK (fun j => j = x ∨ j = y) vars v2 := by
  rw [propEq_eq] at h
  cases hs1 : vars.try_set_min_and_max x (max (vars.getVar x).min
      (vars.getVar y).min) (min (vars.getVar x).max (vars.getVar y).max) with
  | error e => rw [hs1] at h; cases h
  | ok s1 =>
      rw [hs1] at h
      have st1 := try_set_min_and_max_stepsOK hx hs1
      have hy1 : y < s1.vars.length := by rw [st1.narrows.1]; exact hy
      have st2 := try_set_min_and_max_stepsOK hy1 h
      exact (st1.mono (fun j hj => Or.inl hj)).comp
        (st2.mono (fun j hj => Or.inr hj))

theorem propEq_establish {x y : Nat} {vars v2 : Vars}
    (hx : x < vars.vars.length) (hy : y < vars.vars.length)
    (h : propEq (x, y) vars = .ok v2)
    (hux : v2.getVar x = vars.getVar x)
    (huy : v2.getVar y = vars.getVar y) :
    pcheckEq (x, y) v2 := by
  intro _ _
  rw [propEq_eq] at h
  cases hs1 : vars.try_set_min_and_max x (max (vars.getVar x).min
      (vars.getVar y).min) (min (vars.getVar x).max (vars.getVar y).max) with
  | error e => rw [hs1] at h; cases h
  | ok s1 =>
      rw [hs1] at h
      obtain ⟨f1, f2, f3, f4⟩ := twoTry_facts hx hy hs1 h hux huy
      show minsOf v2 x = minsOf v2 y
      unfold minsOf
      rw [hux, huy]
      omega

theorem pcheckEq_preserve {x y : Nat} {v2 v3 : Vars}
    (hp : pcheckEq (x, y) v2)
    (hux : v3.getVar x = v2.getVar x) (huy : v3.getVar y = v2.getVar y) :
    pcheckEq (x, y) v3 := by
  intro hsx hsy
  unfold isSetVar at hsx hsy
  rw [hux] at hsx
  rw [huy] at hsy
  have := hp hsx hsy
  show minsOf v3 x = minsOf v3 y
  unfold minsOf
  rw [hux, huy]
  exact this

/-! ### Division facts used by the scale propagators -/

theorem ceilDiv_le_iff {m c t : Int} (hc : 0 < c) :
    ceilDiv m c ≤ t ↔ m ≤ c * t := by
  unfold ceilDiv
  constructor
  · intro h
    have h2 : -t ≤ (-m) / c := by omega
    have h3 := (Int.le_ediv_iff_mul_le hc).1 h2
    nlinarith
  · intro h
    have h2 : (-t) * c ≤ -m := by nlinarith
    have h3 := (Int.le_ediv_iff_mul_le hc).2 h2
    omega

theorem nmo_tdiv (m : Int) {c : Int} (hc : 0 < c) :
    (next_multiple_of_tmp m c).tdiv c = ceilDiv m c := by
  rw [next_multiple_of_tmp_eq m hc]
  exact Int.mul_tdiv_cancel_left _ (ne_of_gt hc)

theorem sub_emod_tdiv (M : Int) {c : Int} (hc : 0 < c) :
    (M - M.emod c).tdiv c = M / c := by
  have h := Int.ediv_add_emod M c
  have he : M.emod c = M % c := rfl
  have h2 : M - M.emod c = c * (M / c) := by omega
  rw [h2]
  exact Int.mul_tdiv_cancel_left _ (ne_of_gt hc)

theorem sub_emod_neg_tdiv (M : Int) {c : Int} (hc : c < 0) :
    (M - M.emod (-c)).tdiv c = -(M / (-c)) := by
  have h := Int.ediv_add_emod M (-c)
  have he : M.emod (-c) = M % (-c) := rfl
  have h2 : M - M.emod (-c) = (-c) * (M / (-c)) := by omega
  rw [h2, show ((-c) * (M / (-c))) = c * (-(M / (-c))) by ring]
  exact Int.mul_tdiv_cancel_left _ (by omega)

theorem nmo_neg_tdiv (m : Int) {c : Int} (hc : c < 0) :
    (next_multiple_of_tmp m (-c)).tdiv c = -(ceilDiv m (-c)) := by
  rw [next_multiple_of_tmp_eq m (by omega : (0:Int) < -c),
    show ((-c) * ceilDiv m (-c)) = c * (-(ceilDiv m (-c))) by ring]
  exact Int.mul_tdiv_cancel_left _ (by omega)

/-! ### Kind: ScalePos (y = coef * x, coef > 0) -/

theorem propScalePos_eq (x y : Nat) (c : Int) (vars : Vars) :
    propScalePos (x, y, c) vars =
      match vars.try_set_min_and_max x
          (max (vars.getVar x).min
            ((next_multiple_of_tmp (vars.getVar y).min c).tdiv c))
          (min (vars.getVar x).max
            (((vars.getVar y).max - (vars.getVar y).max.emod c).tdiv c)) with
      | .error e => .error e
      | .ok vars2 => vars2.try_set_min_and_max y
          ((max (vars.getVar x).min
            ((next_multiple_of_tmp (vars.getVar y).min c).tdiv c)) * c)
          ((min (vars.getVar x).max
            (((vars.getVar y).max - (vars.getVar y).max.emod c).tdiv c)) * c)
      := rfl

theorem propScalePos_sound {x y : Nat} {c : Int} {vars : Vars} {a : Nat → Int}
    (hx : x < vars.vars.length) (hy : y < vars.vars.length) (hc : 0 < c)
    (hsat : a y = c * a x) (hb : inBox vars a) :
    ∃ v2, propScalePos (x, y, c) vars = .ok v2 ∧ inBox v2 a := by
  have hbx := hb x hx
  have hby := hb y hy
  have hmn : max (vars.getVar x).min
      ((next_multiple_of_tmp (vars.getVar y).min c).tdiv c) ≤ a x := by
    rw [nmo_tdiv _ hc]
    have hcd : ceilDiv (vars.getVar y).min c ≤ a x :=
      (ceilDiv_le_iff (t := a x) hc).2 (by rw [← hsat]; exact hby.1)
    omega
  have hmx : a x ≤ min (vars.getVar x).max
      (((vars.getVar y).max - (vars.getVar y).max.emod c).tdiv c) := by
    rw [sub_emod_tdiv _ hc]
    have hfd : a x ≤ (vars.getVar y).max / c :=
      (Int.le_ediv_iff_mul_le hc).2
        (by rw [mul_comm, ← hsat]; exact hby.2)
    omega
  obtain ⟨s1, hs1, hbox1⟩ := try_set_min_and_max_sound hx hb hmn hmx
  have hy1 : y < s1.vars.length := by
    rw [(try_set_min_and_max_stepsOK hx hs1).narrows.1]; exact hy
  have hlo : (max (vars.getVar x).min
      ((next_multiple_of_tmp (vars.getVar y).min c).tdiv c)) * c ≤ a y := by
    calc (max (vars.getVar x).min
          ((next_multiple_of_tmp (vars.getVar y).min c).tdiv c)) * c
        ≤ a x * c := mul_le_mul_of_nonneg_right hmn (le_of_lt hc)
      _ = c * a x := mul_comm _ _
      _ = a y := hsat.symm
  have hhi : a y ≤ (min (vars.getVar x).max
      (((vars.getVar y).max - (vars.getVar y).max.emod c).tdiv c)) * c := by
    calc a y = c * a x := hsat
      _ = a x * c := mul_comm _ _
      _ ≤ _ := mul_le_mul_of_nonneg_right hmx (le_of_lt hc)
  obtain ⟨v2, hv2, hbox2⟩ := try_set_min_and_max_sound hy1 hbox1 hlo hhi
  refine ⟨v2, ?_, hbox2⟩
  rw [propScalePos_eq, hs1]
  exact hv2

theorem propScalePos_stepsOK {x y : Nat} {c : Int} {vars v2 : Vars}
    (hx : x < vars.vars.length) (hy : y < vars.vars.length)
    (h : propScalePos (x, y, c) vars = .ok v2) :
    StepsOK (fun j => j = x ∨ j = y) vars v2 := by
  rw [propScalePos_eq] at h
  cases hs1 : vars.try_set_min_and_max x
      (max (vars.getVar x).min
        ((next_multiple_of_tmp (vars.getVar y).min c).tdiv c))
      (min (vars.getVar x).max
        (((vars.getVar y).max - (vars.getVar y).max.emod c).tdiv c)) with
  | error e => rw [hs1] at h; cases h
  | ok s1 =>
      rw [hs1] at h
      have st1 := try_set_min_and_max_stepsOK hx hs1
      have hy1 : y < s1.vars.length := by rw [st1.narrows.1]; exact hy
      have st2 := try_set_min_and_max_stepsOK hy1 h
      exact (st1.mono (fun j hj => Or.inl hj)).comp
        (st2.mono (fun j hj => Or.inr hj))

theorem propScalePos_establish {x y : Nat} {c : Int} {vars v2 : Vars}
    (hx : x < vars.vars.length) (hy : y < vars.vars.length)
    (h : propScalePos (x, y, c) vars = .ok v2)
    (hux : v2.getVar x = vars.getVar x)
    (huy : v2.getVar y = vars.getVar y) :
    pcheckScalePos (x, y, c) v2 := by
  intro hsx hsy
  rw [propScalePos_eq] at h
  cases hs1 : vars.try_set_min_and_max x
      (max (vars.getVar x).min
        ((next_multiple_of_tmp (vars.getVar y).min c).tdiv c))
      (min (vars.getVar x).max
        (((vars.getVar y).max - (vars.getVar y).max.emod c).tdiv c)) with
  | error e => rw [hs1] at h; cases h
  | ok s1 =>
      rw [hs1] at h
      obtain ⟨f1, f2, f3, f4⟩ := twoTry_facts hx hy hs1 h hux huy
      unfold isSetVar at hsx hsy
      rw [hux] at hsx
      rw [huy] at hsy
      show minsOf v2 y = c * minsOf v2 x
      unfold minsOf
      rw [hux, huy]
      have hmn : max (vars.getVar x).min
          ((next_multiple_of_tmp (vars.getVar y).min c).tdiv c)
          = (vars.getVar x).min := by omega
      have hmx : min (vars.getVar x).max
          (((vars.getVar y).max - (vars.getVar y).max.emod c).tdiv c)
          = (vars.getVar x).max := by omega
      rw [hmn] at f3
      rw [hmx, ← hsx] at f4
      rw [mul_comm]
      omega

theorem pcheckScalePos_preserve {x y : Nat} {c : Int} {v2 v3 : Vars}
    (hp : pcheckScalePos (x, y, c) v2)
    (hux : v3.getVar x = v2.getVar x) (huy : v3.getVar y = v2.getVar y) :
    pcheckScalePos (x, y, c) v3 := by
  intro hsx hsy
  unfold isSetVar at hsx hsy
  rw [hux] at hsx
  rw [huy] at hsy
  have := hp hsx hsy
  show minsOf v3 y = c * minsOf v3 x
  unfold minsOf
  rw [hux, huy]
  exact this

/-! ### Kind: ScaleNeg (y = coef * x, coef < 0) -/

theorem propScaleNeg_eq (x y : Nat) (c : Int) (vars : Vars) :
    propScaleNeg (x, y, c) vars =
      match vars.try_set_min_and_max x
          (max (vars.getVar x).min
            (((vars.getVar y).max - (vars.getVar y).max.emod (-c)).tdiv c))
          (min (vars.getVar x).max
            ((next_multiple_of_tmp (vars.getVar y).min (-c)).tdiv c)) with
      | .error e => .error e
      | .ok vars2 => vars2.try_set_min_and_max y
          ((min (vars.getVar x).max
            ((next_multiple_of_tmp (vars.getVar y).min (-c)).tdiv c)) * c)
          ((max (vars.getVar x).min
            (((vars.getVar y).max - (vars.getVar y).max.emod (-c)).tdiv c)) * c)
      := rfl

theorem propScaleNeg_sound {x y : Nat} {c : Int} {vars : Vars} {a : Nat → Int}
    (hx : x < vars.vars.length) (hy : y < vars.vars.length) (hc : c < 0)
    (hsat : a y = c * a x) (hb : inBox vars a) :
    ∃ v2, propScaleNeg (x, y, c) vars = .ok v2 ∧ inBox v2 a := by
  have hbx := hb x hx
  have hby := hb y hy
  have hcp : (0:Int) < -c := by omega
  have hmn : max (vars.getVar x).min
      (((vars.getVar y).max - (vars.getVar y).max.emod (-c)).tdiv c) ≤ a x := by
    rw [sub_emod_neg_tdiv _ hc]
    have hfd : -(a x) ≤ (vars.getVar y).max / (-c) :=
      (Int.le_ediv_iff_mul_le hcp).2
        (by rw [show -(a x) * -c = c * a x by ring, ← hsat]; exact hby.2)
    omega
  have hmx : a x ≤ min (vars.getVar x).max
      ((next_multiple_of_tmp (vars.getVar y).min (-c)).tdiv c) := by
    rw [nmo_neg_tdiv _ hc]
    have hcd : ceilDiv (vars.getVar y).min (-c) ≤ -(a x) :=
      (ceilDiv_le_iff (t := -(a x)) hcp).2
        (by rw [show -c * -(a x) = c * a x by ring, ← hsat]; exact hby.1)
    omega
  obtain ⟨s1, hs1, hbox1⟩ := try_set_min_and_max_sound hx hb hmn hmx
  have hy1 : y < s1.vars.length := by
    rw [(try_set_min_and_max_stepsOK hx hs1).narrows.1]; exact hy
  have hlo : (min (vars.getVar x).max
      ((next_multiple_of_tmp (vars.getVar y).min (-c)).tdiv c)) * c ≤ a y := by
    calc (min (vars.getVar x).max
          ((next_multiple_of_tmp (vars.getVar y).min (-c)).tdiv c)) * c
        ≤ a x * c := mul_le_mul_of_nonpos_right hmx (le_of_lt hc)
      _ = c * a x := mul_comm _ _
      _ = a y := hsat.symm
  have hhi : a y ≤ (max (vars.getVar x).min
      (((vars.getVar y).max - (vars.getVar y).max.emod (-c)).tdiv c)) * c := by
    calc a y = c * a x := hsat
      _ = a x * c := mul_comm _ _
      _ ≤ _ := mul_le_mul_of_nonpos_right hmn (le_of_lt hc)
  obtain ⟨v2, hv2, hbox2⟩ := try_set_min_and_max_sound hy1 hbox1 hlo hhi
  refine ⟨v2, ?_, hbox2⟩
  rw [propScaleNeg_eq, hs1]
  exact hv2

theorem propScaleNeg_stepsOK {x y : Nat} {c : Int} {vars v2 : Vars}
    (hx : x < vars.vars.length) (hy : y < vars.vars.length)
    (h : propScaleNeg (x, y, c) vars = .ok v2) :
    StepsOK (fun j => j = x ∨ j = y) vars v2 := by
  rw [propScaleNeg_eq] at h
  cases hs1 : vars.try_set_min_and_max x
      (max (vars.getVar x).min
        (((vars.getVar y).max - (vars.getVar y).max.emod (-c)).tdiv c))
      (min (vars.getVar x).max
        ((next_multiple_of_tmp (vars.getVar y).min (-c)).tdiv c)) with
  | error e => rw [hs1] at h; cases h
  | ok s1 =>
      rw [hs1] at h
      have st1 := try_set_min_and_max_stepsOK hx hs1
      have hy1 : y < s1.vars.length := by rw [st1.narrows.1]; exact hy
      have st2 := try_set_min_and_max_stepsOK hy1 h
      exact (st1.mono (fun j hj => Or.inl hj)).comp
        (st2.mono (fun j hj => Or.inr hj))

theorem propScaleNeg_establish {x y : Nat} {c : Int} {vars v2 : Vars}
    (hx : x < vars.vars.length) (hy : y < vars.vars.length)
    (h : propScaleNeg (x, y, c) vars = .ok v2)
    (hux : v2.getVar x = vars.getVar x)
    (huy : v2.getVar y = vars.getVar y) :
    pcheckScaleNeg (x, y, c) v2 := by
  intro hsx hsy
  rw [propScaleNeg_eq] at h
  cases hs1 : vars.try_set_min_and_max x
      (max (vars.getVar x).min
        (((vars.getVar y).max - (vars.getVar y).max.emod (-c)).tdiv c))
      (min (vars.getVar x).max
        ((next_multiple_of_tmp (vars.getVar y).min (-c)).tdiv c)) with
  | error e => rw [hs1] at h; cases h
  | ok s1 =>
      rw [hs1] at h
      obtain ⟨f1, f2, f3, f4⟩ := twoTry_facts hx hy hs1 h hux huy
      unfold isSetVar at hsx hsy
      rw [hux] at hsx
      rw [huy] at hsy
      show minsOf v2 y = c * minsOf v2 x
      unfold minsOf
      rw [hux, huy]
      have hmn : max (vars.getVar x).min
          (((vars.getVar y).max - (vars.getVar y).max.emod (-c)).tdiv c)
          = (vars.getVar x).min := by omega
      have hmx : min (vars.getVar x).max
          ((next_multiple_of_tmp (vars.getVar y).min (-c)).tdiv c)
          = (vars.getVar x).max := by omega
      rw [hmx, ← hsx] at f3
      rw [hmn] at f4
      rw [mul_comm]
      omega

theorem pcheckScaleNeg_preserve {x y : Nat} {c : Int} {v2 v3 : Vars}
    (hp : pcheckScaleNeg (x, y, c) v2)
    (hux : v3.getVar x = v2.getVar x) (huy : v3.getVar y = v2.getVar y) :
    pcheckScaleNeg (x, y, c) v3 := by
  intro hsx hsy
  unfold isSetVar at hsx hsy
  rw [hux] at hsx
  rw [huy] at hsy
  have := hp hsx hsy
  show minsOf v3 y = c * minsOf v3 x
  unfold minsOf
  rw [hux, huy]
  exact this

/-! ### Kind: Plus (x + y = p) -/

theorem threeTry_facts {vars s1 s2 v2 : Vars} {x y p : Nat}
    {lo1 hi1 lo2 hi2 lo3 hi3 : Int}
    (hx : x < vars.vars.length) (hy : y < vars.vars.length)
    (hp : p < vars.vars.length)
    (h1 : vars.try_set_min_and_max x lo1 hi1 = .ok s1)
    (h2 : s1.try_set_min_and_max y lo2 hi2 = .ok s2)
    (h3 : s2.try_set_min_and_max p lo3 hi3 = .ok v2)
    (hux : v2.getVar x = vars.getVar x)
    (huy : v2.getVar y = vars.getVar y)
    (hup : v2.getVar p = vars.getVar p) :
    lo1 ≤ (vars.getVar x).min ∧ (vars.getVar x).max ≤ hi1 ∧
    lo2 ≤ (vars.getVar y).min ∧ (vars.getVar y).max ≤ hi2 ∧
    lo3 ≤ (vars.getVar p).min ∧ (vars.getVar p).max ≤ hi3 := by
  have st1 := try_set_min_and_max_stepsOK hx h1
  have hy1 : y < s1.vars.length := by rw [st1.narrows.1]; exact hy
  have st2 := try_set_min_and_max_stepsOK hy1 h2
  have hp2 : p < s2.vars.length := by
    rw [st2.narrows.1, st1.narrows.1]; exact hp
  have st3 := try_set_min_and_max_stepsOK hp2 h3
  have hn21 : Narrows s2 vars := st2.narrows.trans st1.narrows
  have hn32 : Narrows v2 s2 := st3.narrows
  have hsx1 : s1.getVar x = vars.getVar x :=
    narrows_squeeze st1.narrows (hn32.trans st2.narrows) x hx hux
  have hsy2 : s2.getVar y = vars.getVar y :=
    narrows_squeeze hn21 hn32 y hy huy
  have hsy1 : s1.getVar y = vars.getVar y :=
    narrows_squeeze st1.narrows st2.narrows y hy hsy2
  have hsp2 : s2.getVar p = vars.getVar p :=
    narrows_squeeze hn21 hn32 p hp hup
  obtain ⟨hb1, _⟩ := try_set_min_and_max_ok_bounds hx h1
  obtain ⟨hb2, _⟩ := try_set_min_and_max_ok_bounds hy1 h2
  obtain ⟨hb3, _⟩ := try_set_min_and_max_ok_bounds hp2 h3
  rw [hsx1] at hb1
  rw [hsy1, hsy2] at hb2
  rw [hsp2, hup] at hb3
  have e1min := congrArg Var.min hb1
  have e1max := congrArg Var.max hb1
  have e2min := congrArg Var.min hb2
  have e2max := congrArg Var.max hb2
  have e3min := congrArg Var.min hb3
  have e3max := congrArg Var.max hb3
  simp only at e1min e1max e2min e2max e3min e3max
  exact ⟨by omega, by omega, by omega, by omega, by omega, by omega⟩

theorem propPlus_eq (p x y : Nat) (vars : Vars) :
    propPlus (p, x, y) vars =
      match vars.try_set_min_and_max x
          (max ((vars.getVar x).min + (vars.getVar y).min) (vars.getVar p).min
            - (vars.getVar y).max)
          (min ((vars.getVar x).max + (vars.getVar y).max) (vars.getVar p).max
            - (vars.getVar y).min) with
      | .error e => .error e
      | .ok vars2 =>
          match vars2.try_set_min_and_max y
              (max ((vars.getVar x).min + (vars.getVar y).min)
                (vars.getVar p).min - (vars.getVar x).max)
              (min ((vars.getVar x).max + (vars.getVar y).max)
                (vars.getVar p).max - (vars.getVar x).min) with
          | .error e => .error e
          | .ok vars3 => vars3.try_set_min_and_max p
              (max ((vars.getVar x).min + (vars.getVar y).min)
                (vars.getVar p).min)
              (min ((vars.getVar x).max + (vars.getVar y).max)
                (vars.getVar p).max) := rfl

theorem propPlus_sound {p x y : Nat} {vars : Vars} {a : Nat → Int}
    (hx : x < vars.vars.length) (hy : y < vars.vars.length)
    (hp : p < vars.vars.length)
    (hsat : a x + a y = a p) (hb : inBox vars a) :
    ∃ v2, propPlus (p, x, y) vars = .ok v2 ∧ inBox v2 a := by
  have hbx := hb x hx
  have hby := hb y hy
  have hbp := hb p hp
  obtain ⟨s1, hs1, hbox1⟩ := @try_set_min_and_max_sound _ _
    (max ((vars.getVar x).min + (vars.getVar y).min) (vars.getVar p).min
      - (vars.getVar y).max)
    (min ((vars.getVar x).max + (vars.getVar y).max) (vars.getVar p).max
      - (vars.getVar y).min) _
    hx hb (by omega) (by omega)
  have st1 := try_set_min_and_max_stepsOK hx hs1
  have hy1 : y < s1.vars.length := by rw [st1.narrows.1]; exact hy
  obtain ⟨s2, hs2, hbox2⟩ := @try_set_min_and_max_sound _ _
    (max ((vars.getVar x).min + (vars.getVar y).min) (vars.getVar p).min
      - (vars.getVar x).max)
    (min ((vars.getVar x).max + (vars.getVar y).max) (vars.getVar p).max
      - (vars.getVar x).min) _
    hy1 hbox1 (by omega) (by omega)
  have st2 := try_set_min_and_max_stepsOK hy1 hs2
  have hp2 : p < s2.vars.length := by
    rw [st2.narrows.1, st1.narrows.1]; exact hp
  obtain ⟨v2, hv2, hbox3⟩ := @try_set_min_and_max_sound _ _
    (max ((vars.getVar x).min + (vars.getVar y).min) (vars.getVar p).min)
    (min ((vars.getVar x).max + (vars.getVar y).max) (vars.getVar p).max) _
    hp2 hbox2 (by omega) (by omega)
  refine ⟨v2, ?_, hbox3⟩
  simp only [propPlus_eq, hs1, hs2]
  exact hv2

theorem propPlus_stepsOK {p x y : Nat} {vars v2 : Vars}
    (hx : x < vars.vars.length) (hy : y < vars.vars.length)
    (hp : p < vars.vars.length)
    (h : propPlus (p, x, y) vars = .ok v2) :
    StepsOK (fun j => j = x ∨ j = y ∨ j = p) vars v2 := by
  rw [propPlus_eq] at h
  cases hs1 : vars.try_set_min_and_max x
      (max ((vars.getVar x).min + (vars.getVar y).min) (vars.getVar p).min
        - (vars.getVar y).max)
      (min ((vars.getVar x).max + (vars.getVar y).max) (vars.getVar p).max
        - (vars.getVar y).min) with
  | error e => rw [hs1] at h; cases h
  | ok s1 =>
      rw [hs1] at h
      dsimp only at h
      have st1 := try_set_min_and_max_stepsOK hx hs1
      have hy1 : y < s1.vars.length := by rw [st1.narrows.1]; exact hy
      cases hs2 : s1.try_set_min_and_max y
          (max ((vars.getVar x).min + (vars.getVar y).min) (vars.getVar p).min
            - (vars.getVar x).max)
          (min ((vars.getVar x).max + (vars.getVar y).max) (vars.getVar p).max
            - (vars.getVar x).min) with
      | error e => rw [hs2] at h; cases h
      | ok s2 =>
          rw [hs2] at h
          have st2 := try_set_min_and_max_stepsOK hy1 hs2
          have hp2 : p < s2.vars.length := by
            rw [st2.narrows.1, st1.narrows.1]; exact hp
          have st3 := try_set_min_and_max_stepsOK hp2 h
          exact ((st1.mono (fun j hj => Or.inl hj)).comp
            (st2.mono (fun j hj => Or.inr (Or.inl hj)))).comp
            (st3.mono (fun j hj => Or.inr (Or.inr hj)))

theorem propPlus_establish {p x y : Nat} {vars v2 : Vars}
    (hx : x < vars.vars.length) (hy : y < vars.vars.length)
    (hp : p < vars.vars.length)
    (hpx : p ≠ x) (hpy : p ≠ y)
    (h : propPlus (p, x, y) vars = .ok v2)
    (hux : v2.getVar x = vars.getVar x)
    (huy : v2.getVar y = vars.getVar y) :
    pcheckPlus (p, x, y) v2 := by
  intro hsx hsy
  rw [propPlus_eq] at h
  cases hs1 : vars.try_set_min_and_max x
      (max ((vars.getVar x).min + (vars.getVar y).min) (vars.getVar p).min
        - (vars.getVar y).max)
      (min ((vars.getVar x).max + (vars.getVar y).max) (vars.getVar p).max
        - (vars.getVar y).min) with
  | error e => rw [hs1] at h; cases h
  | ok s1 =>
      rw [hs1] at h
      dsimp only at h
      have st1 := try_set_min_and_max_stepsOK hx hs1
      have hy1 : y < s1.vars.length := by rw [st1.narrows.1]; exact hy
      cases hs2 : s1.try_set_min_and_max y
          (max ((vars.getVar x).min + (vars.getVar y).min) (vars.getVar p).min
            - (vars.getVar x).max)
          (min ((vars.getVar x).max + (vars.getVar y).max) (vars.getVar p).max
            - (vars.getVar x).min) with
      | error e => rw [hs2] at h; cases h
      | ok s2 =>
          rw [hs2] at h
          have st2 := try_set_min_and_max_stepsOK hy1 hs2
          have hp2 : p < s2.vars.length := by
            rw [st2.narrows.1, st1.narrows.1]; exact hp
          have hfp : s2.getVar p = vars.getVar p := by
            rw [st2.frame p hpy, st1.frame p hpx]
          obtain ⟨hb3, h4a, h4b, h4c⟩ := try_set_min_and_max_ok_bounds hp2 h
          rw [hfp] at hb3
          have e3min := congrArg Var.min hb3
          have e3max := congrArg Var.max hb3
          simp only at e3min e3max
          unfold isSetVar at hsx hsy
          rw [hux] at hsx
          rw [huy] at hsy
          constructor
          · show (v2.getVar p).min = (v2.getVar x).min + (v2.getVar y).min
            rw [hux, huy]
            omega
          · show (v2.getVar p).max = (v2.getVar x).min + (v2.getVar y).min
            rw [hux, huy]
            omega

theorem pcheckPlus_preserve {p x y : Nat} {v2 v3 : Vars}
    (hp : p < v2.vars.length)
    (hpc : pcheckPlus (p, x, y) v2)
    (hnar : Narrows v3 v2) (hcross : NonCross v3)
    (hux : v3.getVar x = v2.getVar x) (huy : v3.getVar y = v2.getVar y) :
    pcheckPlus (p, x, y) v3 := by
  intro hsx hsy
  unfold isSetVar at hsx hsy
  rw [hux] at hsx
  rw [huy] at hsy
  obtain ⟨e1, e2⟩ := hpc hsx hsy
  dsimp only at e1 e2
  have hb := hnar.2 p hp
  have hc := hcross p (by rw [hnar.1]; exact hp)
  constructor
  · show (v3.getVar p).min = (v3.getVar x).min + (v3.getVar y).min
    rw [hux, huy]
    omega
  · show (v3.getVar p).max = (v3.getVar x).min + (v3.getVar y).min
    rw [hux, huy]
    omega

/-! ### Kind: Sum (sum xs = s) -/

theorem sumBounds_foldl (vars : Vars) (xs : List Nat) (a b : Int) :
    xs.foldl
      (fun pr id => (pr.1 + (vars.getVar id).min, pr.2 + (vars.getVar id).max))
      (a, b) =
    (a + (xs.map (fun i => (vars.getVar i).min)).sum,
     b + (xs.map (fun i => (vars.getVar i).max)).sum) := by
  induction xs generalizing a b with
  | nil => simp
  | cons hd tl ih =>
      simp only [List.foldl_cons, List.map_cons, List.sum_cons, ih]
      rw [Prod.mk.injEq]
      constructor <;> ring

theorem sumBounds_eq (vars : Vars) (xs : List Nat) :
    sumBounds vars xs =
      ((xs.map (fun i => (vars.getVar i).min)).sum,
       (xs.map (fun i => (vars.getVar i).max)).sum) := by
  unfold sumBounds
  rw [sumBounds_foldl]
  simp

theorem sum_sub_one_le {f g : Nat → Int} {xs : List Nat} {x : Nat}
    (hx : x ∈ xs) (hfg : ∀ j ∈ xs, f j ≤ g j) :
    (xs.map f).sum - f x ≤ (xs.map g).sum - g x := by
  induction xs with
  | nil => cases hx
  | cons hd tl ih =>
      simp only [List.map_cons, List.sum_cons]
      rcases List.mem_cons.1 hx with hh | ht
      · subst hh
        have : (tl.map f).sum ≤ (tl.map g).sum :=
          List.sum_le_sum (fun j hj => hfg j (List.mem_cons_of_mem _ hj))
        omega
      · have hih := ih ht (fun j hj => hfg j (List.mem_cons_of_mem _ hj))
        have hhd := hfg hd (List.mem_cons_self hd tl)
        omega

theorem sumLoop_sound {a : Nat → Int} (mn mx som soM : Int) (xs : List Nat)
    (vars0 : Vars) :
    ∀ (vars : Vars), Narrows vars vars0 →
    (∀ x ∈ xs, x < vars0.vars.length) → inBox vars a →
    (∀ x ∈ xs, mn - (soM - (vars0.getVar x).max) ≤ a x ∧
      a x ≤ mx - (som - (vars0.getVar x).min)) →
    ∃ v2, sumLoop mn mx som soM xs vars = .ok v2 ∧ inBox v2 a ∧
      Narrows v2 vars0 := by
  induction xs with
  | nil =>
      intro vars hnar _ hbox _
      exact ⟨vars, rfl, hbox, hnar⟩
  | cons hd tl ih =>
      intro vars hnar hval hbox hcond
      have hhd0 : hd < vars0.vars.length := hval hd (List.mem_cons_self hd tl)
      have hhd : hd < vars.vars.length := by rw [hnar.1]; exact hhd0
      obtain ⟨hc1, hc2⟩ := hcond hd (List.mem_cons_self hd tl)
      obtain ⟨hn1, hn2⟩ := hnar.2 hd hhd0
      obtain ⟨v1, hv1, hbox1⟩ := @try_set_min_and_max_sound _ _
        (mn - (soM - (vars.getVar hd).max))
        (mx - (som - (vars.getVar hd).min)) _
        hhd hbox (by omega) (by omega)
      have st := try_set_min_and_max_stepsOK hhd hv1
      obtain ⟨v2, hv2, hbox2, hnar2⟩ := ih v1 (st.narrows.trans hnar)
        (fun x hx => hval x (List.mem_cons_of_mem _ hx)) hbox1
        (fun x hx => hcond x (List.mem_cons_of_mem _ hx))
      refine ⟨v2, ?_, hbox2, hnar2⟩
      rw [show sumLoop mn mx som soM (hd :: tl) vars =
          (match vars.try_set_min_and_max hd
            (mn - (soM - (vars.getVar hd).max))
            (mx - (som - (vars.getVar hd).min)) with
          | Except.error e => Except.error e
          | Except.ok v3 => sumLoop mn mx som soM tl v3) from rfl, hv1]
      exact hv2

theorem sumLoop_stepsOK (mn mx som soM : Int) (xs : List Nat) :
    ∀ (vars v2 : Vars), (∀ x ∈ xs, x < vars.vars.length) →
    sumLoop mn mx som soM xs vars = .ok v2 →
    StepsOK (fun j => j ∈ xs) vars v2 := by
  induction xs with
  | nil =>
      intro vars v2 _ h
      cases h
      exact StepsOK.self _ _
  | cons hd tl ih =>
      intro vars v2 hval h
      have hhd : hd < vars.vars.length := hval hd (List.mem_cons_self hd tl)
      unfold sumLoop at h
      cases hv1 : vars.try_set_min_and_max hd
          (mn - (soM - (vars.getVar hd).max))
          (mx - (som - (vars.getVar hd).min)) with
      | error e => rw [hv1] at h; cases h
      | ok v1 =>
          rw [hv1] at h
          have st := try_set_min_and_max_stepsOK hhd hv1
          have hval1 : ∀ x ∈ tl, x < v1.vars.length := by
            intro x hx
            rw [st.narrows.1]
            exact hval x (List.mem_cons_of_mem _ hx)
          have st2 := ih v1 v2 hval1 h
          exact (st.mono (fun j hj => by exact hj ▸ List.mem_cons_self hd tl)).comp
            (st2.mono (fun j hj => List.mem_cons_of_mem _ hj))

theorem propSum_eq (s : Nat) (xs : List Nat) (vars : Vars) :
    propSum (s, xs) vars =
      match vars.try_set_min_and_max s
          (max ((xs.map (fun i => (vars.getVar i).min)).sum)
            (vars.getVar s).min)
          (min ((xs.map (fun i => (vars.getVar i).max)).sum)
            (vars.getVar s).max) with
      | .error e => .error e
      | .ok v2 =>
          sumLoop
            (max ((xs.map (fun i => (vars.getVar i).min)).sum)
              (vars.getVar s).min)
            (min ((xs.map (fun i => (vars.getVar i).max)).sum)
              (vars.getVar s).max)
            ((xs.map (fun i => (vars.getVar i).min)).sum)
            ((xs.map (fun i => (vars.getVar i).max)).sum) xs v2 := by
  show (match vars.try_set_min_and_max s
      (max (sumBounds vars xs).1 (vars.getVar s).min)
      (min (sumBounds vars xs).2 (vars.getVar s).max) with
    | Except.error e => Except.error e
    | Except.ok v2 => sumLoop (max (sumBounds vars xs).1 (vars.getVar s).min)
        (min (sumBounds vars xs).2 (vars.getVar s).max)
        (sumBounds vars xs).1 (sumBounds vars xs).2 xs v2) = _
  rw [sumBounds_eq]

theorem propSum_sound {s : Nat} {xs : List Nat} {vars : Vars} {a : Nat → Int}
    (hs : s < vars.vars.length) (hval : ∀ x ∈ xs, x < vars.vars.length)
    (hsat : (xs.map a).sum = a s) (hb : inBox vars a) :
    ∃ v2, propSum (s, xs) vars = .ok v2 ∧ inBox v2 a := by
  have hbs := hb s hs
  have hlo : (xs.map (fun i => (vars.getVar i).min)).sum ≤ (xs.map a).sum :=
    List.sum_le_sum (fun j hj => (hb j (hval j hj)).1)
  have hhi : (xs.map a).sum ≤ (xs.map (fun i => (vars.getVar i).max)).sum :=
    List.sum_le_sum (fun j hj => (hb j (hval j hj)).2)
  obtain ⟨v1, hv1, hbox1⟩ := @try_set_min_and_max_sound _ _
    (max ((xs.map (fun i => (vars.getVar i).min)).sum)
      (vars.getVar s).min)
    (min ((xs.map (fun i => (vars.getVar i).max)).sum)
      (vars.getVar s).max) _
    hs hb (by omega) (by omega)
  have st := try_set_min_and_max_stepsOK hs hv1
  obtain ⟨v2, hv2, hbox2, _⟩ := sumLoop_sound
    (max ((xs.map (fun i => (vars.getVar i).min)).sum) (vars.getVar s).min)
    (min ((xs.map (fun i => (vars.getVar i).max)).sum) (vars.getVar s).max)
    ((xs.map (fun i => (vars.getVar i).min)).sum)
    ((xs.map (fun i => (vars.getVar i).max)).sum) xs vars v1 st.narrows hval
    hbox1
    (by
      intro x hx
      have hsub := sum_sub_one_le (f := a)
        (g := fun i => (vars.getVar i).max) hx
        (fun j hj => (hb j (hval j hj)).2)
      have hsub2 := sum_sub_one_le (f := fun i => (vars.getVar i).min)
        (g := a) hx (fun j hj => (hb j (hval j hj)).1)
      dsimp only at hsub hsub2
      constructor <;> omega)
  refine ⟨v2, ?_, hbox2⟩
  rw [propSum_eq, hv1]
  exact hv2

theorem propSum_stepsOK {s : Nat} {xs : List Nat} {vars v2 : Vars}
    (hs : s < vars.vars.length) (hval : ∀ x ∈ xs, x < vars.vars.length)
    (h : propSum (s, xs) vars = .ok v2) :
    StepsOK (fun j => j = s ∨ j ∈ xs) vars v2 := by
  rw [propSum_eq] at h
  cases hv1 : vars.try_set_min_and_max s
      (max ((xs.map (fun i => (vars.getVar i).min)).sum) (vars.getVar s).min)
      (min ((xs.map (fun i => (vars.getVar i).max)).sum)
        (vars.getVar s).max) with
  | error e => rw [hv1] at h; cases h
  | ok v1 =>
      rw [hv1] at h
      dsimp only at h
      have st := try_set_min_and_max_stepsOK hs hv1
      have hval1 : ∀ x ∈ xs, x < v1.vars.length := by
        intro x hx
        rw [st.narrows.1]
        exact hval x hx
      have st2 := sumLoop_stepsOK _ _ _ _ xs v1 v2 hval1 h
      exact (st.mono (fun j hj => Or.inl hj)).comp
        (st2.mono (fun j hj => Or.inr hj))

theorem propSum_establish {s : Nat} {xs : List Nat} {vars v2 : Vars}
    (hs : s < vars.vars.length) (hval : ∀ x ∈ xs, x < vars.vars.length)
    (hnotin : s ∉ xs)
    (h : propSum (s, xs) vars = .ok v2)
    (hu : ∀ x ∈ xs, v2.getVar x = vars.getVar x) :
    pcheckSum (s, xs) v2 := by
  intro hall
  rw [propSum_eq] at h
  cases hv1 : vars.try_set_min_and_max s
      (max ((xs.map (fun i => (vars.getVar i).min)).sum) (vars.getVar s).min)
      (min ((xs.map (fun i => (vars.getVar i).max)).sum)
        (vars.getVar s).max) with
  | error e => rw [hv1] at h; cases h
  | ok v1 =>
      rw [hv1] at h
      dsimp only at h
      have st := try_set_min_and_max_stepsOK hs hv1
      have hval1 : ∀ x ∈ xs, x < v1.vars.length := by
        intro x hx
        rw [st.narrows.1]
        exact hval x hx
      have stl := sumLoop_stepsOK _ _ _ _ xs v1 v2 hval1 h
      have hsv : v2.getVar s = v1.getVar s := stl.frame s hnotin
      obtain ⟨hb1, hc1, hc2, hc3⟩ := try_set_min_and_max_ok_bounds hs hv1
      -- the pre-store bounds of the terms agree with the final minima
      have hmapeq : xs.map (fun i => (vars.getVar i).min)
          = xs.map (minsOf v2) := by
        apply List.map_congr_left
        intro i hi
        unfold minsOf
        rw [hu i hi]
      have hmapeq2 : xs.map (fun i => (vars.getVar i).max)
          = xs.map (minsOf v2) := by
        apply List.map_congr_left
        intro i hi
        unfold minsOf
        rw [hu i hi]
        have hset := hall i hi
        unfold isSetVar at hset
        rw [hu i hi] at hset
        omega
      rw [hmapeq] at hb1 hc1 hc2 hc3
      rw [hmapeq2] at hb1 hc1 hc3
      show (v2.getVar s).min = (xs.map (minsOf v2)).sum ∧
        (v2.getVar s).max = (xs.map (minsOf v2)).sum
      rw [hsv, hb1]
      constructor
      · show max (vars.getVar s).min _ = _
        omega
      · show min (vars.getVar s).max _ = _
        omega

theorem pcheckSum_preserve {s : Nat} {xs : List Nat} {v2 v3 : Vars}
    (hs : s < v2.vars.length)
    (hpc : pcheckSum (s, xs) v2)
    (hnar : Narrows v3 v2) (hcross : NonCross v3)
    (hu : ∀ x ∈ xs, v3.getVar x = v2.getVar x) :
    pcheckSum (s, xs) v3 := by
  intro hall
  have hall2 : ∀ x ∈ xs, isSetVar v2 x := by
    intro x hx
    have := hall x hx
    unfold isSetVar at this ⊢
    rw [hu x hx] at this
    exact this
  obtain ⟨h1, h2⟩ := hpc hall2
  dsimp only at h1 h2
  have hmapeq : xs.map (minsOf v3) = xs.map (minsOf v2) := by
    apply List.map_congr_left
    intro i hi
    unfold minsOf
    rw [hu i hi]
  obtain ⟨hn1, hn2⟩ := hnar.2 s hs
  have hs3 : s < v3.vars.length := by rw [hnar.1]; exact hs
  have hcr := hcross s hs3
  show (v3.getVar s).min = (xs.map (minsOf v3)).sum ∧
    (v3.getVar s).max = (xs.map (minsOf v3)).sum
  rw [hmapeq]
  omega

/-! ## Dependency registry and propagator dispatch (src/search/mod.rs)

Deps mirrors the Deps struct: a list of waking propagators per variable
and, per kind, the list of dependency tuples.  Searcher::propagate
dispatches a PropId to the corresponding propagate function; the
embedding totalizes the index lookups with defaults never reached for
well-formed models. -/

structure DepsProps where
  scale_pos : List (Nat × Nat × Int)
  scale_neg : List (Nat × Nat × Int)
  plus : List (Nat × Nat × Nat)
  sum : List (Nat × List Nat)
  eq : List (Nat × Nat)
  leq : List (Nat × Nat)
deriving Repr

structure Deps where
  vars : List (List PropId)
  props : DepsProps
deriving Repr

/-- One pruning pass of the propagator behind a handle. -/
def runProp (deps : Deps) (id : PropId) (vars : Vars) : Except Failed Vars :=
  match id with
  | .scalePos i => propScalePos (deps.props.scale_pos.getD i (0, 0, 1)) vars
  | .scaleNeg i => propScaleNeg (deps.props.scale_neg.getD i (0, 0, -1)) vars
  | .plus i => propPlus (deps.props.plus.getD i (0, 0, 0)) vars
  | .sum i => propSum (deps.props.sum.getD i (0, [])) vars
  | .eq i => propEq (deps.props.eq.getD i (0, 0)) vars
  | .leq i => propLeq (deps.props.leq.getD i (0, 0)) vars

/-- The constraint a registered propagator enforces. -/
def satPropId (deps : Deps) (id : PropId) (a : Nat → Int) : Prop :=
  match id with
  | .scalePos i => satScalePos (deps.props.scale_pos.getD i (0, 0, 1)) a
  | .scaleNeg i => satScaleNeg (deps.props.scale_neg.getD i (0, 0, -1)) a
  | .plus i => satPlus (deps.props.plus.getD i (0, 0, 0)) a
  | .sum i => satSum (deps.props.sum.getD i (0, [])) a
  | .eq i => satEq (deps.props.eq.getD i (0, 0)) a
  | .leq i => satLeq (deps.props.leq.getD i (0, 0)) a

/-- The stable fixed-point fact per registered propagator. -/
def pcheckPropId (deps : Deps) (id : PropId) (v : Vars) : Prop :=
  match id with
  | .scalePos i => pcheckScalePos (deps.props.scale_pos.getD i (0, 0, 1)) v
  | .scaleNeg i => pcheckScaleNeg (deps.props.scale_neg.getD i (0, 0, -1)) v
  | .plus i => pcheckPlus (deps.props.plus.getD i (0, 0, 0)) v
  | .sum i => pcheckSum (deps.props.sum.getD i (0, [])) v
  | .eq i => pcheckEq (deps.props.eq.getD i (0, 0)) v
  | .leq i => pcheckLeq (deps.props.leq.getD i (0, 0)) v

/-- Variables a propagator may read or write. -/
def opVarsOf (deps : Deps) (id : PropId) (j : Nat) : Prop :=
  match id with
  | .scalePos i =>
      j = (deps.props.scale_pos.getD i (0, 0, 1)).1 ∨
      j = (deps.props.scale_pos.getD i (0, 0, 1)).2.1
  | .scaleNeg i =>
      j = (deps.props.scale_neg.getD i (0, 0, -1)).1 ∨
      j = (deps.props.scale_neg.getD i (0, 0, -1)).2.1
  | .plus i =>
      j = (deps.props.plus.getD i (0, 0, 0)).2.1 ∨
      j = (deps.props.plus.getD i (0, 0, 0)).2.2 ∨
      j = (deps.props.plus.getD i (0, 0, 0)).1
  | .sum i =>
      j = (deps.props.sum.getD i (0, [])).1 ∨
      j ∈ (deps.props.sum.getD i (0, [])).2
  | .eq i =>
      j = (deps.props.eq.getD i (0, 0)).1 ∨
      j = (deps.props.eq.getD i (0, 0)).2
  | .leq i =>
      j = (deps.props.leq.getD i (0, 0)).1 ∨
      j = (deps.props.leq.getD i (0, 0)).2

/-- Variables registered to wake a propagator (the sum result variable is
not registered by the model builder, src/model/mod.rs sum_impl). -/
def regVarsOf (deps : Deps) (id : PropId) (j : Nat) : Prop :=
  match id with
  | .sum i => j ∈ (deps.props.sum.getD i (0, [])).2
  | .plus i =>
      j = (deps.props.plus.getD i (0, 0, 0)).2.1 ∨
      j = (deps.props.plus.getD i (0, 0, 0)).2.2
  | _ => opVarsOf deps id j

/-- A propagator handle refers to a registered propagator. -/
def validId (deps : Deps) (id : PropId) : Prop :=
  match id with
  | .scalePos i => i < deps.props.scale_pos.length
  | .scaleNeg i => i < deps.props.scale_neg.length
  | .plus i => i < deps.props.plus.length
  | .sum i => i < deps.props.sum.length
  | .eq i => i < deps.props.eq.length
  | .leq i => i < deps.props.leq.length

/-- Well-formedness the model builder establishes: every dependency tuple
names variables of the store, scale coefficients have the right sign, the
sum result is fresh, every trigger variable of a propagator holds that
propagator in its waking list, and waking lists hold only registered
handles. -/
structure DWF (deps : Deps) (n : Nat) : Prop where
  varsLen : deps.vars.length = n
  opValid : ∀ id, validId deps id → ∀ j, opVarsOf deps id j → j < n
  scaleCoefPos : ∀ i, i < deps.props.scale_pos.length →
    0 < (deps.props.scale_pos.getD i (0, 0, 1)).2.2
  scaleCoefNeg : ∀ i, i < deps.props.scale_neg.length →
    (deps.props.scale_neg.getD i (0, 0, -1)).2.2 < 0
  sumFresh : ∀ i, i < deps.props.sum.length →
    (deps.props.sum.getD i (0, [])).1 ∉ (deps.props.sum.getD i (0, [])).2
  plusFresh : ∀ i, i < deps.props.plus.length →
    (deps.props.plus.getD i (0, 0, 0)).1 ≠
      (deps.props.plus.getD i (0, 0, 0)).2.1 ∧
    (deps.props.plus.getD i (0, 0, 0)).1 ≠
      (deps.props.plus.getD i (0, 0, 0)).2.2
  registered : ∀ id, validId deps id → ∀ j, regVarsOf deps id j →
    id ∈ deps.vars.getD j []
  wakeValid : ∀ j, ∀ id, id ∈ deps.vars.getD j [] → validId deps id

/-! ### Lifted propagator lemmas, dispatched over the handle -/

theorem runProp_sound {deps : Deps} {n : Nat} {id : PropId} {vars : Vars}
    {a : Nat → Int} (hwf : DWF deps n) (hv : validId deps id)
    (hlen : vars.vars.length = n)
    (hsat : satPropId deps id a) (hb : inBox vars a) :
    ∃ v2, runProp deps id vars = .ok v2 ∧ inBox v2 a := by
  have hop := hwf.opValid id hv
  cases id with
  | scalePos i =>
      exact propScalePos_sound (by rw [hlen]; exact hop _ (Or.inl rfl))
        (by rw [hlen]; exact hop _ (Or.inr rfl)) (hwf.scaleCoefPos i hv)
        hsat hb
  | scaleNeg i =>
      exact propScaleNeg_sound (by rw [hlen]; exact hop _ (Or.inl rfl))
        (by rw [hlen]; exact hop _ (Or.inr rfl)) (hwf.scaleCoefNeg i hv)
        hsat hb
  | plus i =>
      exact propPlus_sound (by rw [hlen]; exact hop _ (Or.inl rfl))
        (by rw [hlen]; exact hop _ (Or.inr (Or.inl rfl)))
        (by rw [hlen]; exact hop _ (Or.inr (Or.inr rfl))) hsat hb
  | sum i =>
      exact propSum_sound (by rw [hlen]; exact hop _ (Or.inl rfl))
        (fun x hx => by rw [hlen]; exact hop _ (Or.inr hx)) hsat hb
  | eq i =>
      exact propEq_sound (by rw [hlen]; exact hop _ (Or.inl rfl))
        (by rw [hlen]; exact hop _ (Or.inr rfl)) hsat hb
  | leq i =>
      exact propLeq_sound (by rw [hlen]; exact hop _ (Or.inl rfl))
        (by rw [hlen]; exact hop _ (Or.inr rfl)) hsat hb

theorem runProp_stepsOK {deps : Deps} {n : Nat} {id : PropId}
    {vars v2 : Vars} (hwf : DWF deps n) (hv : validId deps id)
    (hlen : vars.vars.length = n)
    (h : runProp deps id vars = .ok v2) :
    StepsOK (opVarsOf deps id) vars v2 := by
  have hop := hwf.opValid id hv
  cases id with
  | scalePos i =>
      exact propScalePos_stepsOK (by rw [hlen]; exact hop _ (Or.inl rfl))
        (by rw [hlen]; exact hop _ (Or.inr rfl)) h
  | scaleNeg i =>
      exact propScaleNeg_stepsOK (by rw [hlen]; exact hop _ (Or.inl rfl))
        (by rw [hlen]; exact hop _ (Or.inr rfl)) h
  | plus i =>
      exact propPlus_stepsOK (by rw [hlen]; exact hop _ (Or.inl rfl))
        (by rw [hlen]; exact hop _ (Or.inr (Or.inl rfl)))
        (by rw [hlen]; exact hop _ (Or.inr (Or.inr rfl))) h
  | sum i =>
      exact propSum_stepsOK (by rw [hlen]; exact hop _ (Or.inl rfl))
        (fun x hx => by rw [hlen]; exact hop _ (Or.inr hx)) h
  | eq i =>
      exact propEq_stepsOK (by rw [hlen]; exact hop _ (Or.inl rfl))
        (by rw [hlen]; exact hop _ (Or.inr rfl)) h
  | leq i =>
      exact propLeq_stepsOK (by rw [hlen]; exact hop _ (Or.inl rfl)) h

theorem runProp_establish {deps : Deps} {n : Nat} {id : PropId}
    {vars v2 : Vars} (hwf : DWF deps n) (hv : validId deps id)
    (hlen : vars.vars.length = n)
    (h : runProp deps id vars = .ok v2)
    (hu : ∀ r, regVarsOf deps id r → v2.getVar r = vars.getVar r) :
    pcheckPropId deps id v2 := by
  have hop := hwf.opValid id hv
  cases id with
  | scalePos i =>
      exact propScalePos_establish (by rw [hlen]; exact hop _ (Or.inl rfl))
        (by rw [hlen]; exact hop _ (Or.inr rfl)) h
        (hu _ (Or.inl rfl)) (hu _ (Or.inr rfl))
  | scaleNeg i =>
      exact propScaleNeg_establish (by rw [hlen]; exact hop _ (Or.inl rfl))
        (by rw [hlen]; exact hop _ (Or.inr rfl)) h
        (hu _ (Or.inl rfl)) (hu _ (Or.inr rfl))
  | plus i =>
      exact propPlus_establish (by rw [hlen]; exact hop _ (Or.inl rfl))
        (by rw [hlen]; exact hop _ (Or.inr (Or.inl rfl)))
        (by rw [hlen]; exact hop _ (Or.inr (Or.inr rfl)))
        (hwf.plusFresh i hv).1 (hwf.plusFresh i hv).2 h
        (hu _ (Or.inl rfl)) (hu _ (Or.inr rfl))
  | sum i =>
      exact propSum_establish (by rw [hlen]; exact hop _ (Or.inl rfl))
        (fun x hx => by rw [hlen]; exact hop _ (Or.inr hx))
        (hwf.sumFresh i hv) h (fun x hx => hu x hx)
  | eq i =>
      exact propEq_establish (by rw [hlen]; exact hop _ (Or.inl rfl))
        (by rw [hlen]; exact hop _ (Or.inr rfl)) h
        (hu _ (Or.inl rfl)) (hu _ (Or.inr rfl))
  | leq i =>
      exact propLeq_establish (by rw [hlen]; exact hop _ (Or.inl rfl)) h
        (hu _ (Or.inl rfl)) (hu _ (Or.inr rfl))

theorem pcheck_preserve {deps : Deps} {n : Nat} {id : PropId} {v2 v3 : Vars}
    (hwf : DWF deps n) (hv : validId deps id) (hlen : v2.vars.length = n)
    (hpc : pcheckPropId deps id v2)
    (hnar : Narrows v3 v2) (hcross : NonCross v3)
    (hu : ∀ r, regVarsOf deps id r → v3.getVar r = v2.getVar r) :
    pcheckPropId deps id v3 := by
  have hop := hwf.opValid id hv
  cases id with
  | scalePos i =>
      exact pcheckScalePos_preserve hpc (hu _ (Or.inl rfl)) (hu _ (Or.inr rfl))
  | scaleNeg i =>
      exact pcheckScaleNeg_preserve hpc (hu _ (Or.inl rfl)) (hu _ (Or.inr rfl))
  | plus i =>
      exact pcheckPlus_preserve
        (by rw [hlen]; exact hop _ (Or.inr (Or.inr rfl)))
        hpc hnar hcross (hu _ (Or.inl rfl)) (hu _ (Or.inr rfl))
  | sum i =>
      exact pcheckSum_preserve (by rw [hlen]; exact hop _ (Or.inl rfl))
        hpc hnar hcross (fun x hx => hu x hx)
  | eq i =>
      exact pcheckEq_preserve hpc (hu _ (Or.inl rfl)) (hu _ (Or.inr rfl))
  | leq i =>
      exact pcheckLeq_preserve hpc (hu _ (Or.inl rfl)) (hu _ (Or.inr rfl))

/-- At a fully assigned store, the fixed-point facts yield the constraint
under the assignment read off the minima. -/
theorem pcheck_done {deps : Deps} {n : Nat} {id : PropId} {v : Vars}
    (hwf : DWF deps n) (hv : validId deps id) (hlen : v.vars.length = n)
    (hpc : pcheckPropId deps id v)
    (hall : ∀ i, i < v.vars.length → isSetVar v i) :
    satPropId deps id (minsOf v) := by
  have hop := hwf.opValid id hv
  cases id with
  | scalePos i =>
      exact hpc (hall _ (by rw [hlen]; exact hop _ (Or.inl rfl)))
        (hall _ (by rw [hlen]; exact hop _ (Or.inr rfl)))
  | scaleNeg i =>
      exact hpc (hall _ (by rw [hlen]; exact hop _ (Or.inl rfl)))
        (hall _ (by rw [hlen]; exact hop _ (Or.inr rfl)))
  | plus i =>
      have hpin := hpc (hall _ (by rw [hlen]; exact hop _ (Or.inl rfl)))
        (hall _ (by rw [hlen]; exact hop _ (Or.inr (Or.inl rfl))))
      exact hpin.1.symm
  | sum i =>
      have hs := hpc (fun x hx =>
        hall _ (by rw [hlen]; exact hop _ (Or.inr hx)))
      exact hs.1.symm
  | eq i =>
      exact hpc (hall _ (by rw [hlen]; exact hop _ (Or.inl rfl)))
        (hall _ (by rw [hlen]; exact hop _ (Or.inr rfl)))
  | leq i =>
      exact hpc (hall _ (by rw [hlen]; exact hop _ (Or.inl rfl)))
        (hall _ (by rw [hlen]; exact hop _ (Or.inr rfl)))

/-! ## Propagation engine (src/search/mod.rs Searcher::propagate)

The loop pops a handle, runs its propagator, drains the change events
and schedules the waking propagators of every changed variable at the
back of the agenda.  Recursion is realized with explicit fuel; the
measure lemmas below show the fuel chosen by the callers never runs
out, so the fuel-less semantics of the source is captured exactly. -/

/-- Search space: domain store plus brancher state.  The propagator
state of the built-in kinds is empty, so the Props field of the source
Space carries no information and is omitted; the brancher state of the
default Brancher(FirstUnset, SetMinToMax) is the peek cursor. -/
structure Space where
  vars : Vars
  brancher : Nat
deriving Repr

/-- Result of running the agenda to quiescence (Propagated in the
source, with Solution inlined as the assignment vector). -/
inductive Propagated where
  | fixed (space : Space)
  | done (solution : List Int)

/-- Searcher::schedule_props_from_domain_changes, as a function of the
drained events. -/
def scheduleFrom (deps : Deps) (evs : List Nat) : List PropId :=
  evs.flatMap (fun v => deps.vars.getD v [])

/-- Total number of registered wake-up entries, a static bound on how
much one drain can grow the agenda. -/
def depTotal (deps : Deps) : Nat := (deps.vars.map List.length).sum

/-- The fixed-point loop, fueled. -/
def propagateLoop (deps : Deps) (fuel : Nat) (space : Space)
    (agenda : List PropId) : Option (Except Failed Propagated) :=
  match agenda with
  | [] =>
      match space.vars.get_assignment_if_all_variables_are_set with
      | some assignment => some (.ok (.done assignment))
      | none => some (.ok (.fixed space))
  | id :: rest =>
      match fuel with
      | 0 => none
      | fuel2 + 1 =>
          match runProp deps id space.vars with
          | .error _ => some (.error .failed)
          | .ok vars2 =>
              let drained := vars2.drain_events
              propagateLoop deps fuel2 ⟨drained.2, space.brancher⟩
                (rest ++ scheduleFrom deps drained.1)

/-- Fuel measure: strictly decreases at every loop iteration. -/
def propMeasure (deps : Deps) (n : Nat) (v : Vars)
    (agenda : List PropId) : Nat :=
  v.spanTotal * (n * depTotal deps + 1) + agenda.length

/-- An assignment satisfying every registered constraint. -/
def SatM (deps : Deps) (a : Nat → Int) : Prop :=
  ∀ id, validId deps id → satPropId deps id a

/-- Loop invariant: every registered propagator is scheduled or carries
its fixed-point fact. -/
def AllOK (deps : Deps) (agenda : List PropId) (v : Vars) : Prop :=
  ∀ id, validId deps id → id ∈ agenda ∨ pcheckPropId deps id v

/-- Every domain of the store is a singleton. -/
def allSet (v : Vars) : Prop := ∀ i, i < v.vars.length → isSetVar v i

theorem getD_length_le_depTotal (deps : Deps) (v : Nat) :
    (deps.vars.getD v []).length ≤ depTotal deps := by
  rw [List.getD_eq_getElem?_getD]
  cases hv : deps.vars[v]? with
  | none => simp
  | some l =>
      simp only [Option.getD_some]
      apply List.single_le_sum (by intro x _; omega)
      exact List.mem_map.2 ⟨l, List.getElem?_mem hv, rfl⟩

theorem flatMap_length_le {f : Nat → List PropId} {B : Nat}
    (hf : ∀ x, (f x).length ≤ B) (l : List Nat) :
    (l.flatMap f).length ≤ l.length * B := by
  induction l with
  | nil => simp
  | cons hd tl ih =>
      simp only [List.flatMap_cons, List.length_append, List.length_cons]
      have := hf hd
      calc (f hd).length + (tl.flatMap f).length ≤ B + tl.length * B := by
            omega
        _ = (tl.length + 1) * B := by ring

theorem nodup_lt_length_le {l : List Nat} {n : Nat} (hnd : l.Nodup)
    (hlt : ∀ x ∈ l, x < n) : l.length ≤ n := by
  have hsub : l.toFinset ⊆ Finset.range n := by
    intro x hx
    rw [Finset.mem_range]
    exact hlt x (List.mem_toFinset.1 hx)
  have := Finset.card_le_card hsub
  rw [List.toFinset_card_of_nodup hnd, Finset.card_range] at this
  exact this

theorem scheduleFrom_length_le {deps : Deps} {n : Nat} {evs : List Nat}
    (hnd : evs.Nodup) (hlt : ∀ x ∈ evs, x < n) :
    (scheduleFrom deps evs).length ≤ n * depTotal deps := by
  unfold scheduleFrom
  calc (evs.flatMap (fun v => deps.vars.getD v [])).length
      ≤ evs.length * depTotal deps :=
        flatMap_length_le (fun x => getD_length_le_depTotal deps x) evs
    _ ≤ n * depTotal deps :=
        Nat.mul_le_mul_right _ (nodup_lt_length_le hnd hlt)

theorem get_assignment_eq_some {v : Vars} {sol : List Int}
    (h : v.get_assignment_if_all_variables_are_set = some sol) :
    sol = v.vars.map Var.min ∧ allSet v := by
  unfold Vars.get_assignment_if_all_variables_are_set at h
  split_ifs at h with hall
  · cases h
    refine ⟨rfl, ?_⟩
    intro i hi
    rw [List.all_eq_true] at hall
    unfold isSetVar
    have hmem : v.vars.getD i ⟨0, 0⟩ ∈ v.vars := by
      rw [List.getD_eq_getElem?_getD]
      cases hg : v.vars[i]? with
      | none => rw [List.getElem?_eq_none_iff] at hg; omega
      | some w => exact List.getElem?_mem hg
    exact (is_set_iff _).1 (hall _ hmem)

theorem get_assignment_eq_none {v : Vars}
    (h : v.get_assignment_if_all_variables_are_set = none) : ¬ allSet v := by
  unfold Vars.get_assignment_if_all_variables_are_set at h
  split_ifs at h with hall
  intro hcon
  rw [List.all_eq_true] at hall
  apply hall
  intro w hw
  obtain ⟨i, hi, hgi⟩ := List.getElem_of_mem hw
  have hset := hcon i hi
  unfold isSetVar Vars.getVar at hset
  rw [List.getD_eq_getElem?_getD, List.getElem?_eq_getElem hi] at hset
  rw [is_set_iff, ← hgi]
  simpa using hset

/-- What the loop guarantees about each outcome. -/
def PropOut (deps : Deps) (n : Nat) (space : Space) :
    Except Failed Propagated → Prop
  | .error _ => ∀ a, SatM deps a → inBox space.vars a → False
  | .ok (.fixed sp2) =>
      sp2.brancher = space.brancher ∧
      sp2.vars.vars.length = n ∧
      sp2.vars.events = [] ∧
      NonCross sp2.vars ∧
      Narrows sp2.vars space.vars ∧
      (∀ a, SatM deps a → inBox space.vars a → inBox sp2.vars a) ∧
      (∀ id, validId deps id → pcheckPropId deps id sp2.vars) ∧
      ¬ allSet sp2.vars
  | .ok (.done sol) =>
      ∃ v2 : Vars,
        sol = v2.vars.map Var.min ∧
        v2.vars.length = n ∧
        NonCross v2 ∧
        Narrows v2 space.vars ∧
        allSet v2 ∧
        SatM deps (minsOf v2) ∧
        inBox v2 (minsOf v2) ∧
        (∀ a, SatM deps a → inBox space.vars a → ∀ i, i < n → a i = minsOf v2 i)

theorem propagateLoop_nil (deps : Deps) (fuel : Nat) (space : Space) :
    propagateLoop deps fuel space [] =
      match space.vars.get_assignment_if_all_variables_are_set with
      | some a => some (.ok (.done a))
      | none => some (.ok (.fixed space)) := by
  rw [propagateLoop]

/-- The fixed-point checks never inspect the event log, only the domains. -/
theorem pcheck_events_irrel {deps : Deps} {id : PropId} {l : List Var}
    {e1 e2 : List Nat} (h : pcheckPropId deps id ⟨l, e1⟩) :
    pcheckPropId deps id ⟨l, e2⟩ := by
  cases id <;> exact h

theorem propagateLoop_cons (deps : Deps) (fuel2 : Nat) (space : Space)
    (id : PropId) (rest : List PropId) :
    propagateLoop deps (fuel2 + 1) space (id :: rest) =
      match runProp deps id space.vars with
      | .error _ => some (.error .failed)
      | .ok vars2 =>
          propagateLoop deps fuel2 ⟨⟨vars2.vars, []⟩, space.brancher⟩
            (rest ++ scheduleFrom deps vars2.events) := rfl

/-- Master lemma of the propagation engine: with enough fuel, the loop
returns, and the outcome is sound (failure only on infeasible boxes),
narrowing, solution-preserving, and at quiescence every registered
propagator is at its fixed point. -/
theorem propagateLoop_main {deps : Deps} {n : Nat} (hwf : DWF deps n) :
    ∀ (fuel : Nat) (space : Space) (agenda : List PropId),
    space.vars.vars.length = n →
    space.vars.events = [] →
    NonCross space.vars →
    (∀ id, id ∈ agenda → validId deps id) →
    AllOK deps agenda space.vars →
    propMeasure deps n space.vars agenda < fuel →
    ∃ res, propagateLoop deps fuel space agenda = some res ∧
      PropOut deps n space res := by
  intro fuel
  induction fuel with
  | zero =>
      intro space agenda _ _ _ _ _ hm
      omega
  | succ fuel2 ih =>
      intro space agenda hlen hev hnc hvalid hallok hm
      cases agenda with
      | nil =>
          cases hga : space.vars.get_assignment_if_all_variables_are_set with
          | some sol =>
              refine ⟨.ok (.done sol), by rw [propagateLoop_nil, hga], ?_⟩
              obtain ⟨hsol, hall⟩ := get_assignment_eq_some hga
              have hpcall : ∀ id, validId deps id →
                  pcheckPropId deps id space.vars := by
                intro id hid
                rcases hallok id hid with hmem | hpc
                · cases hmem
                · exact hpc
              have hsat : SatM deps (minsOf space.vars) := by
                intro id hid
                exact pcheck_done hwf hid hlen (hpcall id hid)
                  (fun i hi => hall i hi)
              refine ⟨space.vars, hsol, hlen, hnc, Narrows.refl _, hall, hsat,
                ?_, ?_⟩
              · intro i hi
                have hs := hall i hi
                unfold isSetVar at hs
                have hcr := hnc i hi
                unfold minsOf
                omega
              · intro a _ hbox i hi
                have hs := hall i (by omega)
                unfold isSetVar at hs
                obtain ⟨h1, h2⟩ := hbox i (by omega)
                unfold minsOf
                omega
          | none =>
              refine ⟨.ok (.fixed space), by rw [propagateLoop_nil, hga], ?_⟩
              have hpcall : ∀ id, validId deps id →
                  pcheckPropId deps id space.vars := by
                intro id hid
                rcases hallok id hid with hmem | hpc
                · cases hmem
                · exact hpc
              exact ⟨rfl, hlen, hev, hnc, Narrows.refl _,
                fun a _ hb => hb, hpcall, get_assignment_eq_none hga⟩
      | cons id rest =>
          have hvid := hvalid id (List.mem_cons_self id rest)
          cases hrp : runProp deps id space.vars with
          | error e =>
              refine ⟨.error .failed, by rw [propagateLoop_cons, hrp], ?_⟩
              intro a hsat hbox
              obtain ⟨v2, hok, _⟩ :=
                runProp_sound hwf hvid hlen (hsat id hvid) hbox
              rw [hrp] at hok
              cases hok
          | ok vars2 =>
              have st := runProp_stepsOK hwf hvid hlen hrp
              have hlen2 : vars2.vars.length = n := by
                rw [st.narrows.1]; exact hlen
              have hnc2 : NonCross vars2 := st.noncross hnc
              have hnd2 : vars2.events.Nodup := by
                apply st.nodupKept
                rw [hev]
                exact List.nodup_nil
              have hevlt : ∀ x ∈ vars2.events, x < n := by
                intro x hx
                rcases st.eventsNew x hx with hin | hop
                · rw [hev] at hin; cases hin
                · exact hwf.opValid id hvid x hop
              have hvalid3 : ∀ q, q ∈ rest ++ scheduleFrom deps vars2.events →
                  validId deps q := by
                intro q hq
                rcases List.mem_append.1 hq with hq1 | hq2
                · exact hvalid q (List.mem_cons_of_mem _ hq1)
                · obtain ⟨v, _, hv2⟩ := List.mem_flatMap.1 hq2
                  exact hwf.wakeValid v q hv2
              have hallok3 : AllOK deps (rest ++ scheduleFrom deps vars2.events)
                  (⟨vars2.vars, []⟩ : Vars) := by
                intro q hq
                have hregstep : (∀ r, regVarsOf deps q r →
                    vars2.getVar r = space.vars.getVar r) ∨
                    q ∈ scheduleFrom deps vars2.events := by
                  by_cases hch : ∀ r, regVarsOf deps q r →
                      vars2.getVar r = space.vars.getVar r
                  · exact Or.inl hch
                  · push_neg at hch
                    obtain ⟨r, hr, hne⟩ := hch
                    right
                    apply List.mem_flatMap.2
                    exact ⟨r, st.changeRecorded r hne,
                      hwf.registered q hq r hr⟩
                rcases hallok q hq with hmem | hpc
                · rcases List.mem_cons.1 hmem with rfl | hrest
                  · rcases hregstep with hch | hsch
                    · right
                      exact pcheck_events_irrel
                        (runProp_establish hwf hq hlen hrp hch)
                    · left
                      exact List.mem_append.2 (Or.inr hsch)
                  · left
                    exact List.mem_append.2 (Or.inl hrest)
                · rcases hregstep with hch | hsch
                  · right
                    exact pcheck_events_irrel
                      (pcheck_preserve hwf hq hlen hpc st.narrows hnc2 hch)
                  · left
                    exact List.mem_append.2 (Or.inr hsch)
              have hmeas3 : propMeasure deps n (⟨vars2.vars, []⟩ : Vars)
                  (rest ++ scheduleFrom deps vars2.events) < fuel2 := by
                unfold propMeasure at hm ⊢
                rw [List.length_append]
                have hsp3 : Vars.spanTotal ⟨vars2.vars, []⟩
                    = vars2.spanTotal := rfl
                rw [hsp3]
                simp only [List.length_cons] at hm
                by_cases hevs : vars2.events = []
                · have hsch0 : scheduleFrom deps vars2.events = [] := by
                    rw [hevs]; rfl
                  rw [hsch0]
                  have hmul := Nat.mul_le_mul_right (n * depTotal deps + 1)
                    st.spanLe
                  simp only [List.length_nil]
                  omega
                · have hne : vars2 ≠ space.vars := by
                    intro hcon
                    rw [hcon, hev] at hevs
                    exact hevs rfl
                  have hsp := st.spanLt hne
                  have hschlen := @scheduleFrom_length_le deps _ _
                    hnd2 hevlt
                  have hmul := Nat.mul_le_mul_right (n * depTotal deps + 1)
                    (show vars2.spanTotal + 1 ≤ space.vars.spanTotal by omega)
                  rw [Nat.add_mul, Nat.one_mul] at hmul
                  omega
              obtain ⟨res, hres, hout⟩ := ih ⟨⟨vars2.vars, []⟩, space.brancher⟩
                (rest ++ scheduleFrom deps vars2.events) hlen2 rfl hnc2
                hvalid3 hallok3 hmeas3
              refine ⟨res, by rw [propagateLoop_cons, hrp]; exact hres, ?_⟩
              have hboxstep : ∀ a, SatM deps a → inBox space.vars a →
                  inBox vars2 a := by
                intro a hsat hbox
                obtain ⟨v2x, hok, hbx⟩ :=
                  runProp_sound hwf hvid hlen (hsat id hvid) hbox
                rw [hrp] at hok
                cases hok
                exact hbx
              cases res with
              | error e2 =>
                  intro a hsat hbox
                  exact hout a hsat (hboxstep a hsat hbox)
              | ok pr =>
                  cases pr with
                  | fixed sp2 =>
                      obtain ⟨ho1, ho2, ho3, ho4, ho5, ho6, ho7, ho8⟩ := hout
                      exact ⟨ho1, ho2, ho3, ho4, ho5.trans st.narrows,
                        fun a hs hb => ho6 a hs (hboxstep a hs hb), ho7, ho8⟩
                  | done sol =>
                      obtain ⟨v2, ho1, ho2, ho3, ho4, ho5, ho6, ho7, ho8⟩ :=
                        hout
                      exact ⟨v2, ho1, ho2, ho3, ho4.trans st.narrows, ho5,
                        ho6, ho7,
                        fun a hs hb i hi =>
                          ho8 a hs (hboxstep a hs hb) i hi⟩

/-! ## Branching (src/search/branch)

The default strategy Brancher(FirstUnset, SetMinToMax): the picker is a
peek cursor over variable ids that skips set domains without consuming
the pivot, and the enumerator yields Set mutations from max down to min
(the Vec-backed LIFO stack therefore explores Set(min) first). -/

/-- src/search/branch/mod.rs Mutation. -/
inductive Mutation where
  | set (val : Int)
  | min (mn : Int)
  | max (mx : Int)
deriving Repr, DecidableEq

/-- src/search/branch/mod.rs Choice. -/
structure Choice where
  pivot : Nat
  mutation : Mutation
deriving Repr, DecidableEq

/-- FirstUnset::pick scan: advance the cursor past set variables and
return the first unset index without consuming it.  The fuel is the
number of positions left to scan. -/
def pickAux (v : Vars) : Nat → Nat → Option Nat
  | 0, _ => none
  | fuel + 1, c =>
      if c < v.vars.length then
        if (v.getVar c).is_set then pickAux v fuel (c + 1) else some c
      else none

/-- FirstUnset::pick from cursor position c. -/
def pickFirstUnset (v : Vars) (c : Nat) : Option Nat :=
  pickAux v (v.vars.length - c) c

/-- SetMinToMax::branch_on: (min..=max).rev() mapped to Set mutations on
the pivot. -/
def setMinToMaxChoices (pivot : Nat) (v : Var) : List Choice :=
  (List.range (v.max - v.min + 1).toNat).map
    (fun (i : Nat) => ⟨pivot, .set (v.max - (i : Int))⟩)

/-- Stack::push_tasks.  The source pushes each choice onto the back of a
Vec popped from the back; with the top of the stack at the head of the
list, the batch is prepended reversed.  The shared child space carries
the advanced cursor. -/
def pushTasks (tasks : List (Choice × Space)) (space : Space) :
    List (Choice × Space) :=
  match pickFirstUnset space.vars space.brancher with
  | none => tasks
  | some pivot =>
      ((setMinToMaxChoices pivot (space.vars.getVar pivot)).map
        (fun c => (c, (⟨space.vars, pivot⟩ : Space)))).reverse ++ tasks

/-- Enough fuel for one run of the propagation loop from the given store
and agenda. -/
def propFuel (deps : Deps) (v : Vars) (agenda : List PropId) : Nat :=
  propMeasure deps v.vars.length v agenda + 1

/-- Searcher::mutate_then_propagate: apply the choice, prune the
objective below the incumbent, then run the scheduled propagators. -/
def mutateThenPropagate (deps : Deps) (obj : Nat) (choice : Choice)
    (objOpt : Option Int) (space : Space) :
    Option (Except Failed Propagated) :=
  match (match choice.mutation with
         | .set val => space.vars.try_set choice.pivot val
         | .min mn => space.vars.try_set_min choice.pivot mn
         | .max mx => space.vars.try_set_max choice.pivot mx) with
  | .error _ => some (.error .failed)
  | .ok v1 =>
      match (match objOpt with
             | some ob => v1.try_set_max obj (ob - 1)
             | none => .ok v1) with
      | .error _ => some (.error .failed)
      | .ok v2 =>
          let drained := v2.drain_events
          propagateLoop deps
            (propFuel deps drained.2 (scheduleFrom deps drained.1))
            ⟨drained.2, space.brancher⟩ (scheduleFrom deps drained.1)

/-- Fuel weight of one task: enough for its whole subtree. -/
def stackFuelT (t : Choice × Space) : Nat :=
  (t.2.vars.spanTotal + 1).factorial

/-- Fuel measure of the whole task stack. -/
def stackMeasure (tasks : List (Choice × Space)) : Nat :=
  (tasks.map stackFuelT).sum

/-- Stack::search main loop (src/search/engine.rs): pop a task, mutate
and propagate; on Fixed push the children, on Done either return (solve
mode) or keep the better incumbent (exhaustive mode). -/
def stackLoop (deps : Deps) (obj : Nat) (isExh : Bool) :
    Nat → Option (List Int) → List (Choice × Space) →
      Option (Option (List Int))
  | _, best, [] => some best
  | 0, _, _ :: _ => none
  | fuel + 1, best, (choice, space) :: rest =>
      match mutateThenPropagate deps obj choice
          (best.map (fun sol => sol.getD obj 0)) space with
      | none => none
      | some (.error _) => stackLoop deps obj isExh fuel best rest
      | some (.ok (.fixed sp2)) =>
          stackLoop deps obj isExh fuel best (pushTasks rest sp2)
      | some (.ok (.done cand)) =>
          if isExh then
            stackLoop deps obj isExh fuel
              (match best with
               | some sol =>
                   if cand.getD obj 0 < sol.getD obj 0 then some cand
                   else some sol
               | none => some cand) rest
          else some (some cand)

/-- Initial agenda of Searcher::propagate_with_all_props: every declared
propagator, in kind order. -/
def allPropIds (p : DepsProps) : List PropId :=
  (List.range p.scale_pos.length).map .scalePos ++
    ((List.range p.scale_neg.length).map .scaleNeg ++
      ((List.range p.plus.length).map .plus ++
        ((List.range p.sum.length).map .sum ++
          ((List.range p.eq.length).map .eq ++
            (List.range p.leq.length).map .leq))))

/-- Searcher::search: initial propagation over all propagators, then the
stack engine; a failed initial propagation returns no solution. -/
def searcherSearch (deps : Deps) (obj : Nat) (isExh : Bool)
    (vars : List Var) : Option (Option (List Int)) :=
  match propagateLoop deps
      (propFuel deps (Vars.new vars) (allPropIds deps.props))
      ⟨Vars.new vars, 0⟩ (allPropIds deps.props) with
  | none => none
  | some (.error _) => some none
  | some (.ok (.done sol)) => some (some sol)
  | some (.ok (.fixed sp2)) =>
      stackLoop deps obj isExh (stackMeasure (pushTasks [] sp2) + 1) none
        (pushTasks [] sp2)

/-! ## The by-value model builder (src/model/mod.rs) -/

/-- Problem definition: decision variables and subscription mappings.
The Props field of the source carries no data for the built-in kinds and
is omitted. -/
structure Model where
  vars : List Var
  deps : Deps
deriving Repr

/-- Model::new / Model::default. -/
def Model.new : Model := ⟨[], ⟨[], ⟨[], [], [], [], [], []⟩⟩⟩

/-- self.deps.vars[x].push(id). -/
def pushDep (l : List (List PropId)) (x : Nat) (id : PropId) :
    List (List PropId) :=
  l.set x (l.getD x [] ++ [id])

/-- Model::new_var_impl: push the domain unchecked and an empty waking
list, and return the fresh handle. -/
def Model.new_var_impl (m : Model) (mn mx : Int) : Model × Nat :=
  (⟨m.vars ++ [⟨mn, mx⟩], ⟨m.deps.vars ++ [[]], m.deps.props⟩⟩,
    m.vars.length)

/-- Model::cst_impl. -/
def Model.cst_impl (m : Model) (value : Int) : Model × Nat :=
  m.new_var_impl value value

/-- Model::new_var_binary_impl. -/
def Model.new_var_binary_impl (m : Model) : Model × Nat :=
  m.new_var_impl 0 1

/-- Model::scale_pos: fresh result variable with scaled bounds, register
the propagator and subscribe both variables. -/
def Model.scale_pos (m : Model) (x : Nat) (coef : Int) : Model × Nat :=
  let var := m.vars.getD x ⟨0, 0⟩
  let m1s := m.new_var_impl (var.min * coef) (var.max * coef)
  let m1 := m1s.1
  let s := m1s.2
  let id := PropId.scalePos m1.deps.props.scale_pos.length
  (⟨m1.vars,
    ⟨pushDep (pushDep m1.deps.vars x id) s id,
      { m1.deps.props with
        scale_pos := m1.deps.props.scale_pos ++ [(x, s, coef)] }⟩⟩, s)

/-- Model::scale_neg: fresh result variable with bounds crossed over the
negative coefficient. -/
def Model.scale_neg (m : Model) (x : Nat) (coef : Int) : Model × Nat :=
  let var := m.vars.getD x ⟨0, 0⟩
  let m1s := m.new_var_impl (var.max * coef) (var.min * coef)
  let m1 := m1s.1
  let s := m1s.2
  let id := PropId.scaleNeg m1.deps.props.scale_neg.length
  (⟨m1.vars,
    ⟨pushDep (pushDep m1.deps.vars x id) s id,
      { m1.deps.props with
        scale_neg := m1.deps.props.scale_neg ++ [(x, s, coef)] }⟩⟩, s)

/-- Model::scale_impl: dispatch on the sign of the coefficient. -/
def Model.scale_impl (m : Model) (x : Nat) (coef : Int) : Model × Nat :=
  if coef < 0 then m.scale_neg x coef
  else if coef = 0 then m.cst_impl 0
  else m.scale_pos x coef

/-- Model::opposite_impl. -/
def Model.opposite_impl (m : Model) (x : Nat) : Model × Nat :=
  m.scale_neg x (-1)

/-- Model::plus_impl. -/
def Model.plus_impl (m : Model) (x y : Nat) : Model × Nat :=
  let vx := m.vars.getD x ⟨0, 0⟩
  let vy := m.vars.getD y ⟨0, 0⟩
  let m1s := m.new_var_impl (vx.min + vy.min) (vx.max + vy.max)
  let m1 := m1s.1
  let p := m1s.2
  let id := PropId.plus m1.deps.props.plus.length
  (⟨m1.vars,
    ⟨pushDep (pushDep m1.deps.vars x id) y id,
      { m1.deps.props with
        plus := m1.deps.props.plus ++ [(p, x, y)] }⟩⟩, p)

/-- Model::minus_impl. -/
def Model.minus_impl (m : Model) (x y : Nat) : Model × Nat :=
  let m1y := m.opposite_impl y
  m1y.1.plus_impl x m1y.2

/-- Model::sum_impl: the waking lists are extended for the operands
only, not for the fresh result variable. -/
def Model.sum_impl (m : Model) (xs : List Nat) : Model × Nat :=
  let mn := (xs.map (fun x => (m.vars.getD x ⟨0, 0⟩).min)).sum
  let mx := (xs.map (fun x => (m.vars.getD x ⟨0, 0⟩).max)).sum
  let m1s := m.new_var_impl mn mx
  let m1 := m1s.1
  let s := m1s.2
  let id := PropId.sum m1.deps.props.sum.length
  (⟨m1.vars,
    ⟨xs.foldl (fun l x => pushDep l x id) m1.deps.vars,
      { m1.deps.props with
        sum := m1.deps.props.sum ++ [(s, xs)] }⟩⟩, s)

/-- Model::linear_impl: scale each term, then sum. -/
def Model.linear_impl (m : Model) (xs : List Nat) (coefs : List Int) :
    Model × Nat :=
  let step := (xs.zip coefs).foldl
    (fun acc xc =>
      let r := acc.1.scale_impl xc.1 xc.2
      (r.1, acc.2 ++ [r.2]))
    (m, ([] : List Nat))
  step.1.sum_impl step.2

/-- Model::eq_impl. -/
def Model.eq_impl (m : Model) (x y : Nat) : Model :=
  let id := PropId.eq m.deps.props.eq.length
  ⟨m.vars,
    ⟨pushDep (pushDep m.deps.vars x id) y id,
      { m.deps.props with eq := m.deps.props.eq ++ [(x, y)] }⟩⟩

/-- Model::leq_impl. -/
def Model.leq_impl (m : Model) (x y : Nat) : Model :=
  let id := PropId.leq m.deps.props.leq.length
  ⟨m.vars,
    ⟨pushDep (pushDep m.deps.vars x id) y id,
      { m.deps.props with leq := m.deps.props.leq ++ [(x, y)] }⟩⟩

/-- Model::minimize_impl with the default strategy: exhaustive search on
the objective (src/model/generic.rs minimize, mod.rs minimize_impl). -/
def Model.minimize (m : Model) (obj : Nat) : Option (List Int) :=
  (searcherSearch m.deps obj true m.vars).getD none

/-- Model::maximize_impl: minimize the opposite of the objective. -/
def Model.maximize (m : Model) (obj : Nat) : Option (List Int) :=
  let m1o := m.scale_impl obj (-1)
  m1o.1.minimize m1o.2

/-- Model::solve_impl: non-exhaustive search on a dummy objective. -/
def Model.solve (m : Model) : Option (List Int) :=
  let m1o := m.cst_impl 0
  (searcherSearch m1o.1.deps m1o.2 false m1o.1.vars).getD none

/-- Models reachable through the public builder API (every public
variable, expression or constraint method lands in one of these
implementation functions; handle arguments are indices the model itself
returned, hence in range). -/
inductive Built : Model → Prop where
  | new : Built Model.new
  | new_var {m} (mn mx : Int) : Built m → Built (m.new_var_impl mn mx).1
  | scale {m} (x : Nat) (coef : Int) (hx : x < m.vars.length) :
      Built m → Built (m.scale_impl x coef).1
  | opposite {m} (x : Nat) (hx : x < m.vars.length) :
      Built m → Built (m.opposite_impl x).1
  | plus {m} (x y : Nat) (hx : x < m.vars.length)
      (hy : y < m.vars.length) : Built m → Built (m.plus_impl x y).1
  | sum {m} (xs : List Nat) (hxs : ∀ x ∈ xs, x < m.vars.length) :
      Built m → Built (m.sum_impl xs).1
  | eq {m} (x y : Nat) (hx : x < m.vars.length) (hy : y < m.vars.length) :
      Built m → Built (m.eq_impl x y)
  | leq {m} (x y : Nat) (hx : x < m.vars.length)
      (hy : y < m.vars.length) : Built m → Built (m.leq_impl x y)

/-! ## Search-tree invariants and helper facts -/

theorem sum_span_le : ∀ (l2 l1 : List Var), l2.length = l1.length →
    (∀ i, i < l1.length →
      (l1.getD i ⟨0, 0⟩).min ≤ (l2.getD i ⟨0, 0⟩).min ∧
      (l2.getD i ⟨0, 0⟩).max ≤ (l1.getD i ⟨0, 0⟩).max) →
    (l2.map Var.span).sum ≤ (l1.map Var.span).sum := by
  intro l2
  induction l2 with
  | nil =>
      intro l1 hlen _
      have : l1 = [] := List.eq_nil_of_length_eq_zero hlen.symm
      simp [this]
  | cons hd2 tl2 ih =>
      intro l1 hlen hpt
      cases l1 with
      | nil => simp at hlen
      | cons hd1 tl1 =>
          have h0 := hpt 0 (by simp)
          simp only [List.getD_cons_zero] at h0
          have hs : Var.span hd2 ≤ Var.span hd1 := by
            unfold Var.span
            omega
          have ht := ih tl1 (by simpa using hlen)
            (fun i hi => by
              have := hpt (i + 1) (by simpa using Nat.succ_lt_succ hi)
              simpa using this)
          simp only [List.map_cons, List.sum_cons]
          omega

theorem spanTotal_le_of_narrows {s2 s1 : Vars} (h : Narrows s2 s1) :
    s2.spanTotal ≤ s1.spanTotal :=
  sum_span_le s2.vars s1.vars h.1 h.2

theorem isSet_of_narrows {s2 s1 : Vars} {i : Nat} (h : Narrows s2 s1)
    (hnc : NonCross s2) (hi : i < s1.vars.length) (hs : isSetVar s1 i) :
    isSetVar s2 i := by
  have h2 := h.2 i hi
  have hc := hnc i (by rw [h.1]; exact hi)
  unfold isSetVar at hs ⊢
  omega

theorem getD_map_min (v : Vars) (i : Nat) :
    (v.vars.map Var.min).getD i 0 = minsOf v i := by
  unfold minsOf Vars.getVar
  rw [List.getD_eq_getElem?_getD, List.getD_eq_getElem?_getD,
    List.getElem?_map]
  cases h : v.vars[i]? <;> simp

theorem span_le_spanTotal {v : Vars} {i : Nat} (hi : i < v.vars.length) :
    (v.getVar i).span ≤ v.spanTotal := by
  unfold Vars.spanTotal Vars.getVar
  apply List.single_le_sum (fun x _ => Nat.zero_le x)
  apply List.mem_map.2
  refine ⟨v.vars.getD i ⟨0, 0⟩, ?_, rfl⟩
  rw [List.getD_eq_getElem?_getD]
  cases h : v.vars[i]? with
  | none => rw [List.getElem?_eq_none_iff] at h; omega
  | some w => exact List.getElem?_mem h

theorem pickAux_some {v : Vars} : ∀ {fuel c p : Nat},
    pickAux v fuel c = some p →
    c ≤ p ∧ p < v.vars.length ∧ ¬ isSetVar v p ∧
      ∀ i, c ≤ i → i < p → isSetVar v i := by
  intro fuel
  induction fuel with
  | zero =>
      intro c p h
      simp [pickAux] at h
  | succ f ih =>
      intro c p h
      simp only [pickAux] at h
      by_cases h1 : c < v.vars.length
      · rw [if_pos h1] at h
        by_cases h2 : (v.getVar c).is_set = true
        · rw [if_pos h2] at h
          obtain ⟨hcp, hp, hns, hall⟩ := ih h
          refine ⟨by omega, hp, hns, ?_⟩
          intro i hci hip
          by_cases hic : i = c
          · subst hic
            exact (is_set_iff _).1 h2
          · exact hall i (by omega) hip
        · rw [if_neg h2] at h
          cases h
          exact ⟨le_refl _, h1, fun hc => h2 ((is_set_iff _).2 hc),
            fun i ha hb => by omega⟩
      · rw [if_neg h1] at h
        cases h

theorem pickAux_none {v : Vars} : ∀ {fuel c : Nat},
    pickAux v fuel c = none → v.vars.length ≤ c + fuel →
    ∀ i, c ≤ i → i < v.vars.length → isSetVar v i := by
  intro fuel
  induction fuel with
  | zero =>
      intro c _ hlen i hci hi
      omega
  | succ f ih =>
      intro c h hlen i hci hi
      simp only [pickAux] at h
      by_cases h1 : c < v.vars.length
      · rw [if_pos h1] at h
        by_cases h2 : (v.getVar c).is_set = true
        · rw [if_pos h2] at h
          by_cases hic : i = c
          · subst hic
            exact (is_set_iff _).1 h2
          · exact ih h (by omega) i (by omega) hi
        · rw [if_neg h2] at h
          cases h
      · omega

theorem pickFirstUnset_some {v : Vars} {c p : Nat}
    (h : pickFirstUnset v c = some p) :
    c ≤ p ∧ p < v.vars.length ∧ ¬ isSetVar v p ∧
      ∀ i, c ≤ i → i < p → isSetVar v i :=
  pickAux_some h

theorem pickFirstUnset_none {v : Vars} {c : Nat}
    (h : pickFirstUnset v c = none)
    (hc : ∀ i, i < c → isSetVar v i) : allSet v := by
  intro i hi
  by_cases hic : i < c
  · exact hc i hic
  · exact pickAux_none h (by omega) i (by omega) hi

theorem setMinToMaxChoices_mem {pivot : Nat} {var : Var} {c : Choice} :
    c ∈ setMinToMaxChoices pivot var ↔
      ∃ w, c = ⟨pivot, .set w⟩ ∧ var.min ≤ w ∧ w ≤ var.max := by
  unfold setMinToMaxChoices
  constructor
  · intro h
    obtain ⟨i, hi, hc⟩ := List.mem_map.1 h
    rw [List.mem_range] at hi
    exact ⟨var.max - i, hc.symm, by omega, by omega⟩
  · rintro ⟨w, rfl, h1, h2⟩
    apply List.mem_map.2
    refine ⟨(var.max - w).toNat, ?_, ?_⟩
    · rw [List.mem_range]
      omega
    · have hw : var.max - ((var.max - w).toNat : Int) = w := by omega
      rw [hw]

theorem setMinToMaxChoices_length (pivot : Nat) (var : Var) :
    (setMinToMaxChoices pivot var).length = (var.max - var.min + 1).toNat := by
  unfold setMinToMaxChoices
  rw [List.length_map, List.length_range]

/-- The mutation of a Choice, as a constraint on assignments. -/
def mutHolds (c : Choice) (a : Nat → Int) : Prop :=
  match c.mutation with
  | .set v => a c.pivot = v
  | .min mn => mn ≤ a c.pivot
  | .max mx => a c.pivot ≤ mx

/-- The objective pruning: below the incumbent when there is one. -/
def ObjOK (obj : Nat) (objOpt : Option Int) (a : Nat → Int) : Prop :=
  ∀ ob, objOpt = some ob → a obj < ob

/-- Invariant carried by every task on the stack. -/
def TaskOK (deps : Deps) (n : Nat) (v0 : Vars) (t : Choice × Space) :
    Prop :=
  t.2.vars.vars.length = n ∧
  t.2.vars.events = [] ∧
  NonCross t.2.vars ∧
  Narrows t.2.vars v0 ∧
  (∀ id, validId deps id → pcheckPropId deps id t.2.vars) ∧
  (∀ i, i < t.2.brancher → isSetVar t.2.vars i) ∧
  t.1.pivot < n ∧
  ¬ isSetVar t.2.vars t.1.pivot ∧
  (∃ w, t.1.mutation = .set w ∧
    (t.2.vars.getVar t.1.pivot).min ≤ w ∧
    w ≤ (t.2.vars.getVar t.1.pivot).max)

/-- A task covers an assignment when the assignment lies in the task box
and agrees with the pending mutation. -/
def Covers (t : Choice × Space) (a : Nat → Int) : Prop :=
  inBox t.2.vars a ∧ mutHolds t.1 a

/-- The assignment improves on the incumbent (or there is none yet). -/
def Better (obj : Nat) (a : Nat → Int) : Option (List Int) → Prop
  | none => True
  | some b => a obj < b.getD obj 0

/-- The incumbent, when present, is a satisfying in-box assignment. -/
def BestOK (deps : Deps) (v0 : Vars) (best : Option (List Int)) : Prop :=
  ∀ b, best = some b →
    SatM deps (fun i => b.getD i 0) ∧ inBox v0 (fun i => b.getD i 0)

/-- Every satisfying in-box assignment better than the incumbent is
still reachable through some stacked task. -/
def Coverage (deps : Deps) (v0 : Vars) (obj : Nat)
    (best : Option (List Int)) (tasks : List (Choice × Space)) : Prop :=
  ∀ a, SatM deps a → inBox v0 a → Better obj a best →
    ∃ t ∈ tasks, Covers t a

/-- What minimize guarantees about its outcome. -/
def OptOut (deps : Deps) (v0 : Vars) (obj : Nat) :
    Option (List Int) → Prop
  | none => ∀ a, SatM deps a → inBox v0 a → False
  | some b =>
      SatM deps (fun i => b.getD i 0) ∧
      inBox v0 (fun i => b.getD i 0) ∧
      ∀ a, SatM deps a → inBox v0 a → b.getD obj 0 ≤ a obj

/-- What one mutate-then-propagate step guarantees per outcome. -/
def MTPOut (deps : Deps) (n obj : Nat) (space : Space) (choice : Choice)
    (objOpt : Option Int) : Except Failed Propagated → Prop
  | .error _ => ∀ a, SatM deps a → inBox space.vars a →
      mutHolds choice a → ObjOK obj objOpt a → False
  | .ok (.fixed sp2) =>
      sp2.brancher = space.brancher ∧
      sp2.vars.vars.length = n ∧
      sp2.vars.events = [] ∧
      NonCross sp2.vars ∧
      Narrows sp2.vars space.vars ∧
      sp2.vars.spanTotal < space.vars.spanTotal ∧
      (∀ a, SatM deps a → inBox space.vars a → mutHolds choice a →
        ObjOK obj objOpt a → inBox sp2.vars a) ∧
      (∀ id, validId deps id → pcheckPropId deps id sp2.vars) ∧
      ¬ allSet sp2.vars
  | .ok (.done sol) =>
      ∃ v2 : Vars,
        sol = v2.vars.map Var.min ∧
        v2.vars.length = n ∧
        NonCross v2 ∧
        Narrows v2 space.vars ∧
        allSet v2 ∧
        SatM deps (minsOf v2) ∧
        inBox v2 (minsOf v2) ∧
        (∀ a, SatM deps a → inBox space.vars a → mutHolds choice a →
          ObjOK obj objOpt a → ∀ i, i < n → a i = minsOf v2 i)

/-- Shared tail of mutate_then_propagate: drain the mutation events,
schedule the subscribed propagators and run the loop. -/
theorem mtp_tail {deps : Deps} {n obj : Nat} (hwf : DWF deps n)
    {space : Space} {v2 : Vars} {choice : Choice} {objOpt : Option Int}
    {P : Nat → Prop}
    (hlen : space.vars.vars.length = n)
    (hev : space.vars.events = [])
    (hnc : NonCross space.vars)
    (hpc : ∀ id, validId deps id → pcheckPropId deps id space.vars)
    (stc : StepsOK P space.vars v2)
    (hspan2 : v2.spanTotal < space.vars.spanTotal)
    (hPn : ∀ j, P j → j < n)
    (hchain : ∀ a, SatM deps a → inBox space.vars a → mutHolds choice a →
      ObjOK obj objOpt a → inBox v2 a) :
    ∃ out,
      propagateLoop deps
        (propFuel deps v2.drain_events.2
          (scheduleFrom deps v2.drain_events.1))
        ⟨v2.drain_events.2, space.brancher⟩
        (scheduleFrom deps v2.drain_events.1) = some out ∧
      MTPOut deps n obj space choice objOpt out := by
  have hnd2 : v2.events.Nodup := by
    apply stc.nodupKept
    rw [hev]
    exact List.nodup_nil
  have hevlt : ∀ x ∈ v2.events, x < n := by
    intro x hx
    rcases stc.eventsNew x hx with hin | hp
    · rw [hev] at hin
      cases hin
    · exact hPn x hp
  have hlen2 : v2.vars.length = n := by rw [stc.narrows.1]; exact hlen
  have hnc2 : NonCross v2 := stc.noncross hnc
  have hd1 : v2.drain_events.1 = v2.events := rfl
  have hd2 : v2.drain_events.2 = (⟨v2.vars, []⟩ : Vars) := rfl
  rw [hd1, hd2]
  have hvalid : ∀ id, id ∈ scheduleFrom deps v2.events →
      validId deps id := by
    intro q hq
    obtain ⟨r, _, hq2⟩ := List.mem_flatMap.1 hq
    exact hwf.wakeValid r q hq2
  have hallok : AllOK deps (scheduleFrom deps v2.events)
      (⟨v2.vars, []⟩ : Vars) := by
    intro q hq
    by_cases hch : ∀ r, regVarsOf deps q r →
        v2.getVar r = space.vars.getVar r
    · right
      exact pcheck_events_irrel
        (pcheck_preserve hwf hq hlen (hpc q hq) stc.narrows hnc2 hch)
    · left
      push_neg at hch
      obtain ⟨r, hr, hne⟩ := hch
      apply List.mem_flatMap.2
      exact ⟨r, stc.changeRecorded r hne, hwf.registered q hq r hr⟩
  have hfuel : propFuel deps (⟨v2.vars, []⟩ : Vars)
      (scheduleFrom deps v2.events) =
      propMeasure deps n (⟨v2.vars, []⟩ : Vars)
        (scheduleFrom deps v2.events) + 1 := by
    unfold propFuel
    rw [show (⟨v2.vars, []⟩ : Vars).vars.length = n from hlen2]
  have hmlt : propMeasure deps n (⟨v2.vars, []⟩ : Vars)
      (scheduleFrom deps v2.events) <
      propFuel deps (⟨v2.vars, []⟩ : Vars)
        (scheduleFrom deps v2.events) := by omega
  obtain ⟨res, hres, hout⟩ := propagateLoop_main hwf
    (propFuel deps (⟨v2.vars, []⟩ : Vars) (scheduleFrom deps v2.events))
    ⟨⟨v2.vars, []⟩, space.brancher⟩ (scheduleFrom deps v2.events)
    hlen2 rfl hnc2 hvalid hallok hmlt
  refine ⟨res, hres, ?_⟩
  cases res with
  | error e =>
      intro a hsat hbox hmh hoo
      exact hout a hsat (hchain a hsat hbox hmh hoo)
  | ok pr =>
      cases pr with
      | fixed sp2 =>
          obtain ⟨ho1, ho2, ho3, ho4, ho5, ho6, ho7, ho8⟩ := hout
          refine ⟨ho1, ho2, ho3, ho4, ho5.trans stc.narrows, ?_, ?_,
            ho7, ho8⟩
          · calc sp2.vars.spanTotal
                ≤ Vars.spanTotal ⟨v2.vars, []⟩ := spanTotal_le_of_narrows ho5
              _ = v2.spanTotal := rfl
              _ < space.vars.spanTotal := hspan2
          · intro a hsat hbox hmh hoo
            exact ho6 a hsat (hchain a hsat hbox hmh hoo)
      | done sol =>
          obtain ⟨v3, ho1, ho2, ho3, ho4, ho5, ho6, ho7, ho8⟩ := hout
          refine ⟨v3, ho1, ho2, ho3, ho4.trans stc.narrows, ho5, ho6,
            ho7, ?_⟩
          intro a hsat hbox hmh hoo i hi
          exact ho8 a hsat (hchain a hsat hbox hmh hoo) i hi

/-- Master lemma for one engine step: mutate_then_propagate always
returns with the computed fuel, failure implies no improving satisfying
point is reachable through the task, and success narrows soundly. -/
theorem mtp_main {deps : Deps} {n obj : Nat} (hwf : DWF deps n)
    (hobj : obj < n) {choice : Choice} {space : Space}
    {objOpt : Option Int}
    (hlen : space.vars.vars.length = n)
    (hev : space.vars.events = [])
    (hnc : NonCross space.vars)
    (hpc : ∀ id, validId deps id → pcheckPropId deps id space.vars)
    (hpiv : choice.pivot < n)
    (hunset : ¬ isSetVar space.vars choice.pivot)
    (hmut : ∃ w, choice.mutation = .set w) :
    ∃ out, mutateThenPropagate deps obj choice objOpt space = some out ∧
      MTPOut deps n obj space choice objOpt out := by
  obtain ⟨w, hw⟩ := hmut
  cases choice with
  | mk pivot mu =>
      have hw2 : mu = .set w := hw
      subst hw2
      have hpiv2 : pivot < n := hpiv
      have hpivlen : pivot < space.vars.vars.length := by omega
      cases hts : space.vars.try_set pivot w with
      | error e =>
          refine ⟨.error .failed, ?_, ?_⟩
          · simp only [mutateThenPropagate, hts]
          · intro a hsat hbox hmh hoo
            have hmw : a pivot = w := hmh
            obtain ⟨s2, hok, _⟩ := try_set_sound hpivlen hbox hmw
            rw [hts] at hok
            cases hok
      | ok v1 =>
          have st1 : StepsOK (· = pivot) space.vars v1 :=
            try_set_stepsOK hpivlen hts
          obtain ⟨hb1, hwlo, hwhi⟩ := try_set_ok_bounds hpivlen hts
          have hlen1 : v1.vars.length = n := by
            rw [st1.narrows.1]; exact hlen
          have hne1 : v1 ≠ space.vars := by
            intro hcon
            apply hunset
            show (space.vars.getVar pivot).min = (space.vars.getVar pivot).max
            rw [← hcon, hb1]
          have hspan1 : v1.spanTotal < space.vars.spanTotal := st1.spanLt hne1
          have hPn : ∀ j, (j = pivot ∨ j = obj) → j < n := by
            rintro j (rfl | rfl)
            · exact hpiv2
            · exact hobj
          cases objOpt with
          | none =>
              have stc : StepsOK (fun j => j = pivot ∨ j = obj)
                  space.vars v1 := st1.mono (fun j hj => Or.inl hj)
              have hchain : ∀ a, SatM deps a → inBox space.vars a →
                  mutHolds ⟨pivot, .set w⟩ a → ObjOK obj none a →
                  inBox v1 a := by
                intro a _ hbox hmh _
                have hmw : a pivot = w := hmh
                obtain ⟨s2, hok, hbox1⟩ := try_set_sound hpivlen hbox hmw
                rw [hts] at hok
                cases hok
                exact hbox1
              obtain ⟨out, hloop, hmtp⟩ := mtp_tail hwf hlen hev hnc hpc
                stc hspan1 hPn hchain
              refine ⟨out, ?_, hmtp⟩
              simp only [mutateThenPropagate, hts]
              exact hloop
          | some ob =>
              have hoblen : obj < v1.vars.length := by omega
              cases hom : v1.try_set_max obj (ob - 1) with
              | error e =>
                  refine ⟨.error .failed, ?_, ?_⟩
                  · simp only [mutateThenPropagate, hts, hom]
                  · intro a hsat hbox hmh hoo
                    have hmw : a pivot = w := hmh
                    obtain ⟨s2, hok, hbox1⟩ :=
                      try_set_sound hpivlen hbox hmw
                    rw [hts] at hok
                    cases hok
                    have herr := try_set_max_err hom
                    have hoo2 := hoo ob rfl
                    have := hbox1 obj (by omega)
                    omega
              | ok v2 =>
                  have st2 : StepsOK (· = obj) v1 v2 :=
                    try_set_max_stepsOK hoblen hom
                  have stc : StepsOK (fun j => j = pivot ∨ j = obj)
                      space.vars v2 :=
                    (st1.mono (fun j hj => Or.inl hj)).comp
                      (st2.mono (fun j hj => Or.inr hj))
                  have hspan2 : v2.spanTotal < space.vars.spanTotal :=
                    lt_of_le_of_lt st2.spanLe hspan1
                  have hchain : ∀ a, SatM deps a → inBox space.vars a →
                      mutHolds ⟨pivot, .set w⟩ a →
                      ObjOK obj (some ob) a → inBox v2 a := by
                    intro a _ hbox hmh hoo
                    have hmw : a pivot = w := hmh
                    obtain ⟨s2, hok, hbox1⟩ :=
                      try_set_sound hpivlen hbox hmw
                    rw [hts] at hok
                    cases hok
                    have hub : a obj ≤ ob - 1 := by
                      have := hoo ob rfl
                      omega
                    obtain ⟨s3, hok2, hbox2⟩ :=
                      try_set_max_sound hoblen hbox1 hub
                    rw [hom] at hok2
                    cases hok2
                    exact hbox2
                  obtain ⟨out, hloop, hmtp⟩ := mtp_tail hwf hlen hev hnc
                    hpc stc hspan2 hPn hchain
                  refine ⟨out, ?_, hmtp⟩
                  simp only [mutateThenPropagate, hts, hom]
                  exact hloop

theorem isSetVar_of_ge_len {v : Vars} {i : Nat}
    (h : v.vars.length ≤ i) : isSetVar v i := by
  unfold isSetVar Vars.getVar
  rw [List.getD_eq_getElem?_getD, List.getElem?_eq_none (by omega)]
  rfl

theorem sum_map_const {α : Type} (l : List α) (k : Nat) :
    (l.map (fun _ => k)).sum = l.length * k := by
  induction l with
  | nil => simp
  | cons hd tl ih =>
      simp only [List.map_cons, List.sum_cons, List.length_cons, ih]
      ring

theorem stackLoop_nil (deps : Deps) (obj : Nat) (isExh : Bool)
    (fuel : Nat) (best : Option (List Int)) :
    stackLoop deps obj isExh fuel best [] = some best := by
  cases fuel <;> rfl

theorem stackLoop_cons (deps : Deps) (obj : Nat) (isExh : Bool)
    (fuel : Nat) (best : Option (List Int)) (choice : Choice)
    (space : Space) (rest : List (Choice × Space)) :
    stackLoop deps obj isExh (fuel + 1) best ((choice, space) :: rest) =
      match mutateThenPropagate deps obj choice
          (best.map (fun sol => sol.getD obj 0)) space with
      | none => none
      | some (.error _) => stackLoop deps obj isExh fuel best rest
      | some (.ok (.fixed sp2)) =>
          stackLoop deps obj isExh fuel best (pushTasks rest sp2)
      | some (.ok (.done cand)) =>
          if isExh then
            stackLoop deps obj isExh fuel
              (match best with
               | some sol =>
                   if cand.getD obj 0 < sol.getD obj 0 then some cand
                   else some sol
               | none => some cand) rest
          else some (some cand) := rfl

/-- Master lemma of the exhaustive stack engine: with enough fuel the
loop returns, and the result is a satisfying in-box assignment of
minimal objective value (or none when no satisfying assignment is left
to find). -/
theorem stackLoop_main {deps : Deps} {n obj : Nat} {v0 : Vars}
    (hwf : DWF deps n) (hobj : obj < n) :
    ∀ (fuel : Nat) (best : Option (List Int))
      (tasks : List (Choice × Space)),
    (∀ t ∈ tasks, TaskOK deps n v0 t) →
    BestOK deps v0 best →
    Coverage deps v0 obj best tasks →
    stackMeasure tasks < fuel →
    ∃ r, stackLoop deps obj true fuel best tasks = some r ∧
      OptOut deps v0 obj r := by
  intro fuel
  induction fuel with
  | zero =>
      intro best tasks _ _ _ hm
      omega
  | succ fuel ih =>
      intro best tasks htask hbest hcov hm
      cases tasks with
      | nil =>
          refine ⟨best, stackLoop_nil deps obj true (fuel + 1) best, ?_⟩
          cases best with
          | none =>
              intro a hsat hbox
              obtain ⟨t, ht, _⟩ := hcov a hsat hbox trivial
              exact absurd ht (List.not_mem_nil t)
          | some b =>
              obtain ⟨hbs, hbb⟩ := hbest b rfl
              refine ⟨hbs, hbb, ?_⟩
              intro a hsat hbox
              by_contra hlt
              push_neg at hlt
              obtain ⟨t, ht, _⟩ := hcov a hsat hbox hlt
              exact absurd ht (List.not_mem_nil t)
      | cons t rest =>
          obtain ⟨choice, space⟩ := t
          obtain ⟨h1, h2, h3, h4, h5, h6, h7, h8, h9⟩ :=
            htask (choice, space) (List.mem_cons_self _ _)
          dsimp only at h1 h2 h3 h4 h5 h6 h7 h8 h9
          obtain ⟨out, hout, hmtp⟩ := mtp_main hwf hobj h1 h2 h3 h5 h7 h8
            ⟨h9.choose, h9.choose_spec.1⟩
          have htrest : ∀ t2 ∈ rest, TaskOK deps n v0 t2 :=
            fun t2 ht2 => htask t2 (List.mem_cons_of_mem _ ht2)
          have hmcons : stackMeasure ((choice, space) :: rest) =
              stackFuelT (choice, space) + stackMeasure rest := by
            unfold stackMeasure
            simp
          have hFpos : 1 ≤ stackFuelT (choice, space) :=
            Nat.one_le_iff_ne_zero.2 (Nat.factorial_ne_zero _)
          have hmrest : stackMeasure rest < fuel := by omega
          have hbo : ∀ a, Better obj a best →
              ObjOK obj (best.map (fun sol => sol.getD obj 0)) a := by
            intro a hb ob hob
            cases best with
            | none => simp at hob
            | some b =>
                have hred : (some b).map (fun sol => sol.getD obj 0) =
                    some (b.getD obj 0) := rfl
                rw [hred] at hob
                cases hob
                exact hb
          cases out with
          | error e =>
              have hcov2 : Coverage deps v0 obj best rest := by
                intro a hsat hbox hb
                obtain ⟨t2, ht2, hc2⟩ := hcov a hsat hbox hb
                rcases List.mem_cons.1 ht2 with heq | hmem
                · subst heq
                  exact absurd (hmtp a hsat hc2.1 hc2.2 (hbo a hb)) id
                · exact ⟨t2, hmem, hc2⟩
              obtain ⟨r, hr, hopt⟩ := ih best rest htrest hbest hcov2 hmrest
              exact ⟨r, by rw [stackLoop_cons, hout]; exact hr, hopt⟩
          | ok pr =>
              cases pr with
              | fixed sp2 =>
                  obtain ⟨hf1, hf2, hf3, hf4, hf5, hf6, hf7, hf8, hf9⟩ :=
                    hmtp
                  have hcur2 : ∀ i, i < sp2.brancher →
                      isSetVar sp2.vars i := by
                    intro i hi
                    rw [hf1] at hi
                    by_cases hil : i < space.vars.vars.length
                    · exact isSet_of_narrows hf5 hf4 hil (h6 i hi)
                    · exact isSetVar_of_ge_len (by omega)
                  cases hpick : pickFirstUnset sp2.vars sp2.brancher with
                  | none =>
                      exact absurd (pickFirstUnset_none hpick hcur2) hf9
                  | some pivot2 =>
                      obtain ⟨hc2le, hp2lt, hp2unset, hp2scan⟩ :=
                        pickFirstUnset_some hpick
                      have hpush : pushTasks rest sp2 =
                          ((setMinToMaxChoices pivot2
                            (sp2.vars.getVar pivot2)).map
                            (fun c => (c, (⟨sp2.vars, pivot2⟩ : Space)))).reverse
                            ++ rest := by
                        unfold pushTasks
                        rw [hpick]
                      have htask2 : ∀ t2 ∈ pushTasks rest sp2,
                          TaskOK deps n v0 t2 := by
                        rw [hpush]
                        intro t2 ht2
                        rcases List.mem_append.1 ht2 with hl | hr2
                        · rw [List.mem_reverse] at hl
                          obtain ⟨c, hc, hrc⟩ := List.mem_map.1 hl
                          obtain ⟨w, hcw, hwlo, hwhi⟩ :=
                            setMinToMaxChoices_mem.1 hc
                          subst hrc
                          subst hcw
                          have hp2n : pivot2 < n := by omega
                          refine ⟨hf2, hf3, hf4, hf5.trans h4, hf8, ?_,
                            hp2n, hp2unset, ⟨w, rfl, hwlo, hwhi⟩⟩
                          intro i hi
                          dsimp only at hi
                          by_cases hib : i < sp2.brancher
                          · exact hcur2 i hib
                          · exact hp2scan i (by omega) hi
                        · exact htrest t2 hr2
                      have hcov2 : Coverage deps v0 obj best
                          (pushTasks rest sp2) := by
                        rw [hpush]
                        intro a hsat hbox hb
                        obtain ⟨t2, ht2, hc2⟩ := hcov a hsat hbox hb
                        rcases List.mem_cons.1 ht2 with heq | hmem
                        · subst heq
                          have hbox2 : inBox sp2.vars a :=
                            hf7 a hsat hc2.1 hc2.2 (hbo a hb)
                          obtain ⟨hplo, hphi⟩ := hbox2 pivot2 hp2lt
                          refine ⟨(⟨⟨pivot2, .set (a pivot2)⟩,
                            (⟨sp2.vars, pivot2⟩ : Space)⟩ :
                              Choice × Space), ?_, hbox2, rfl⟩
                          apply List.mem_append.2
                          left
                          rw [List.mem_reverse]
                          apply List.mem_map.2
                          refine ⟨⟨pivot2, .set (a pivot2)⟩, ?_, rfl⟩
                          exact setMinToMaxChoices_mem.2
                            ⟨a pivot2, rfl, hplo, hphi⟩
                        · exact ⟨t2, List.mem_append.2 (Or.inr hmem), hc2⟩
                      have hmeas2 : stackMeasure (pushTasks rest sp2) <
                          fuel := by
                        rw [hpush]
                        unfold stackMeasure
                        rw [List.map_append, List.sum_append,
                          List.map_reverse, List.sum_reverse,
                          List.map_map]
                        have hchit : (setMinToMaxChoices pivot2
                            (sp2.vars.getVar pivot2)).map
                            (stackFuelT ∘
                              (fun c => (c, (⟨sp2.vars, pivot2⟩ : Space)))) =
                            (setMinToMaxChoices pivot2
                              (sp2.vars.getVar pivot2)).map
                              (fun _ => (sp2.vars.spanTotal + 1).factorial) :=
                          rfl
                        rw [hchit, sum_map_const, setMinToMaxChoices_length]
                        have hnc2p := hf4 pivot2 hp2lt
                        have hlcount :
                            ((sp2.vars.getVar pivot2).max -
                              (sp2.vars.getVar pivot2).min + 1).toNat =
                            (sp2.vars.getVar pivot2).span + 1 := by
                          unfold Var.span
                          omega
                        have hspanle : (sp2.vars.getVar pivot2).span ≤
                            sp2.vars.spanTotal := span_le_spanTotal hp2lt
                        have hA : ((sp2.vars.getVar pivot2).max -
                            (sp2.vars.getVar pivot2).min + 1).toNat *
                            (sp2.vars.spanTotal + 1).factorial ≤
                            (sp2.vars.spanTotal + 1) *
                              (sp2.vars.spanTotal + 1).factorial := by
                          apply Nat.mul_le_mul_right
                          omega
                        have hB : (sp2.vars.spanTotal + 1) *
                            (sp2.vars.spanTotal + 1).factorial ≤
                            space.vars.spanTotal *
                              space.vars.spanTotal.factorial :=
                          Nat.mul_le_mul (by omega)
                            (Nat.factorial_le (by omega))
                        have hD : (space.vars.spanTotal + 1).factorial =
                            space.vars.spanTotal *
                              space.vars.spanTotal.factorial +
                              space.vars.spanTotal.factorial := by
                          rw [Nat.factorial_succ]
                          ring
                        have hfp : 1 ≤ space.vars.spanTotal.factorial :=
                          Nat.one_le_iff_ne_zero.2 (Nat.factorial_ne_zero _)
                        have hsf : stackFuelT (choice, space) =
                            (space.vars.spanTotal + 1).factorial := rfl
                        have hsm : stackMeasure rest =
                            (rest.map stackFuelT).sum := rfl
                        omega
                      obtain ⟨r, hr, hopt⟩ := ih best (pushTasks rest sp2)
                        htask2 hbest hcov2 hmeas2
                      exact ⟨r, by rw [stackLoop_cons, hout]; exact hr, hopt⟩
              | done cand =>
                  obtain ⟨v2, hd1, hd2, hd3, hd4, hd5, hd6, hd7, hd8⟩ :=
                    hmtp
                  have hcf : (fun i => cand.getD i 0) = minsOf v2 := by
                    funext i
                    rw [hd1]
                    exact getD_map_min v2 i
                  have hcsat : SatM deps (fun i => cand.getD i 0) := by
                    rw [hcf]
                    exact hd6
                  have hcbox : inBox v0 (fun i => cand.getD i 0) := by
                    rw [hcf]
                    exact (hd4.trans h4).inBox_mono hd7
                  have hcobj : cand.getD obj 0 = minsOf v2 obj :=
                    congrFun hcf obj
                  have hkill : ∀ a, SatM deps a → inBox v0 a →
                      Better obj a best → Covers (choice, space) a →
                      a obj = cand.getD obj 0 := by
                    intro a hsat hbox hb hc2
                    have := hd8 a hsat hc2.1 hc2.2 (hbo a hb) obj hobj
                    rw [hcobj]
                    exact this
                  cases best with
                  | none =>
                      have hbest2 : BestOK deps v0 (some cand) := by
                        intro b hb
                        cases hb
                        exact ⟨hcsat, hcbox⟩
                      have hcov2 : Coverage deps v0 obj (some cand) rest := by
                        intro a hsat hbox hb
                        obtain ⟨t2, ht2, hc2⟩ := hcov a hsat hbox trivial
                        rcases List.mem_cons.1 ht2 with heq | hmem
                        · subst heq
                          have := hkill a hsat hbox trivial hc2
                          have hblt : a obj < cand.getD obj 0 := hb
                          omega
                        · exact ⟨t2, hmem, hc2⟩
                      obtain ⟨r, hr, hopt⟩ := ih (some cand) rest htrest
                        hbest2 hcov2 hmrest
                      exact ⟨r, by rw [stackLoop_cons, hout]; exact hr, hopt⟩
                  | some b =>
                      by_cases hlt : cand.getD obj 0 < b.getD obj 0
                      · have hbest2 : BestOK deps v0 (some cand) := by
                          intro b2 hb2
                          cases hb2
                          exact ⟨hcsat, hcbox⟩
                        have hcov2 : Coverage deps v0 obj (some cand)
                            rest := by
                          intro a hsat hbox hb
                          have hblt : a obj < cand.getD obj 0 := hb
                          have hbb : Better obj a (some b) := by
                            show a obj < b.getD obj 0
                            omega
                          obtain ⟨t2, ht2, hc2⟩ := hcov a hsat hbox hbb
                          rcases List.mem_cons.1 ht2 with heq | hmem
                          · subst heq
                            have := hkill a hsat hbox hbb hc2
                            omega
                          · exact ⟨t2, hmem, hc2⟩
                        obtain ⟨r, hr, hopt⟩ := ih (some cand) rest htrest
                          hbest2 hcov2 hmrest
                        refine ⟨r, ?_, hopt⟩
                        rw [stackLoop_cons, hout]
                        show (if true = true then _ else _) = some r
                        rw [if_pos rfl]
                        simp only [if_pos hlt]
                        exact hr
                      · have hcov2 : Coverage deps v0 obj (some b) rest := by
                          intro a hsat hbox hb
                          have hblt : a obj < b.getD obj 0 := hb
                          obtain ⟨t2, ht2, hc2⟩ := hcov a hsat hbox hb
                          rcases List.mem_cons.1 ht2 with heq | hmem
                          · subst heq
                            have := hkill a hsat hbox hb hc2
                            omega
                          · exact ⟨t2, hmem, hc2⟩
                        obtain ⟨r, hr, hopt⟩ := ih (some b) rest htrest
                          hbest hcov2 hmrest
                        refine ⟨r, ?_, hopt⟩
                        rw [stackLoop_cons, hout]
                        show (if true = true then _ else _) = some r
                        rw [if_pos rfl]
                        simp only [if_neg hlt]
                        exact hr

/-! ## Well-formedness of built models -/

theorem getD_append_lt {α : Type} (l l2 : List α) (d : α) (i : Nat)
    (h : i < l.length) : (l ++ l2).getD i d = l.getD i d := by
  rw [List.getD_eq_getElem?_getD, List.getD_eq_getElem?_getD,
    List.getElem?_append, if_pos h]

theorem getD_append_self {α : Type} (l : List α) (x d : α) :
    (l ++ [x]).getD l.length d = x := by
  rw [List.getD_eq_getElem?_getD, List.getElem?_append_right (le_refl _)]
  simp

theorem getD_out {α : Type} {l : List α} {i : Nat} (d : α)
    (h : l.length ≤ i) : l.getD i d = d := by
  rw [List.getD_eq_getElem?_getD, List.getElem?_eq_none (by omega)]
  rfl

theorem pushDep_length (l : List (List PropId)) (x : Nat) (id : PropId) :
    (pushDep l x id).length = l.length := by
  unfold pushDep
  exact List.length_set l x _

theorem pushDep_getD_other {l : List (List PropId)} {x j : Nat}
    {id : PropId} (h : j ≠ x) :
    (pushDep l x id).getD j [] = l.getD j [] := by
  unfold pushDep
  rw [List.getD_eq_getElem?_getD, List.getElem?_set_ne (by omega),
    ← List.getD_eq_getElem?_getD]

theorem pushDep_getD_self {l : List (List PropId)} {x : Nat}
    {id : PropId} (h : x < l.length) :
    (pushDep l x id).getD x [] = l.getD x [] ++ [id] := by
  unfold pushDep
  rw [List.getD_eq_getElem?_getD, List.getElem?_set_self (by omega)]
  rfl

theorem pushDep_mem_of_mem {l : List (List PropId)} {x j : Nat}
    {id q : PropId} (h : q ∈ l.getD j []) :
    q ∈ (pushDep l x id).getD j [] := by
  by_cases hjx : j = x
  · subst hjx
    by_cases hlt : j < l.length
    · rw [pushDep_getD_self hlt]
      exact List.mem_append.2 (Or.inl h)
    · rw [getD_out ([] : List PropId) (by omega)] at h
      cases h
  · rw [pushDep_getD_other hjx]
    exact h

theorem pushDep_mem_self {l : List (List PropId)} {x : Nat} {id : PropId}
    (h : x < l.length) : id ∈ (pushDep l x id).getD x [] := by
  rw [pushDep_getD_self h]
  exact List.mem_append.2 (Or.inr (List.mem_singleton.2 rfl))

theorem pushDep_mem_elim {l : List (List PropId)} {x j : Nat}
    {id q : PropId} (h : q ∈ (pushDep l x id).getD j []) :
    q ∈ l.getD j [] ∨ q = id := by
  by_cases hjx : j = x
  · subst hjx
    by_cases hlt : j < l.length
    · rw [pushDep_getD_self hlt] at h
      rcases List.mem_append.1 h with h1 | h2
      · exact Or.inl h1
      · exact Or.inr (List.mem_singleton.1 h2)
    · unfold pushDep at h
      rw [List.set_eq_of_length_le (by omega)] at h
      exact Or.inl h
  · rw [pushDep_getD_other hjx] at h
    exact Or.inl h

theorem append_nil_getD_mem {l : List (List PropId)} {j : Nat}
    {q : PropId} (h : q ∈ (l ++ [([] : List PropId)]).getD j []) :
    q ∈ l.getD j [] := by
  by_cases hlt : j < l.length
  · rw [getD_append_lt l _ _ j hlt] at h
    exact h
  · by_cases hj : j = l.length
    · subst hj
      rw [getD_append_self] at h
      cases h
    · rw [getD_out ([] : List PropId) (by simp; omega)] at h
      cases h

theorem foldl_pushDep_length (id : PropId) :
    ∀ (xs : List Nat) (l : List (List PropId)),
    (xs.foldl (fun l2 x => pushDep l2 x id) l).length = l.length := by
  intro xs
  induction xs with
  | nil => intro l; rfl
  | cons hd tl ih =>
      intro l
      rw [List.foldl_cons, ih, pushDep_length]

theorem foldl_pushDep_mem_of_mem {id q : PropId} {j : Nat} :
    ∀ (xs : List Nat) (l : List (List PropId)), q ∈ l.getD j [] →
    q ∈ (xs.foldl (fun l2 x => pushDep l2 x id) l).getD j [] := by
  intro xs
  induction xs with
  | nil => intro l h; exact h
  | cons hd tl ih =>
      intro l h
      rw [List.foldl_cons]
      exact ih _ (pushDep_mem_of_mem h)

theorem foldl_pushDep_mem_self {id : PropId} {x : Nat} :
    ∀ (xs : List Nat) (l : List (List PropId)), x ∈ xs →
    x < l.length →
    id ∈ (xs.foldl (fun l2 x2 => pushDep l2 x2 id) l).getD x [] := by
  intro xs
  induction xs with
  | nil =>
      intro l h
      cases h
  | cons hd tl ih =>
      intro l hmem hlt
      rw [List.foldl_cons]
      rcases List.mem_cons.1 hmem with rfl | htl
      · exact foldl_pushDep_mem_of_mem tl _ (pushDep_mem_self hlt)
      · exact ih _ htl (by rw [pushDep_length]; exact hlt)

theorem foldl_pushDep_mem_elim {id q : PropId} {j : Nat} :
    ∀ (xs : List Nat) (l : List (List PropId)),
    q ∈ (xs.foldl (fun l2 x => pushDep l2 x id) l).getD j [] →
    q ∈ l.getD j [] ∨ q = id := by
  intro xs
  induction xs with
  | nil => intro l h; exact Or.inl h
  | cons hd tl ih =>
      intro l h
      rw [List.foldl_cons] at h
      rcases ih _ h with h1 | h2
      · exact pushDep_mem_elim h1
      · exact Or.inr h2

theorem append_nil_getD_mem_intro {l : List (List PropId)} {j : Nat}
    {q : PropId} (h : q ∈ l.getD j []) :
    q ∈ (l ++ [([] : List PropId)]).getD j [] := by
  by_cases hlt : j < l.length
  · rw [getD_append_lt _ _ _ _ hlt]
    exact h
  · rw [getD_out ([] : List PropId) (by omega)] at h
    cases h

/-- The builder invariant: the subscription tables are well-formed for
the current number of variables. -/
def MWF (m : Model) : Prop := DWF m.deps m.vars.length

theorem MWF_new : MWF Model.new := by
  refine ⟨rfl, ?_, ?_, ?_, ?_, ?_, ?_, ?_⟩
  · intro id hv j hj
    cases id <;> exact absurd hv (by simp [validId, Model.new])
  · intro i hi
    cases hi
  · intro i hi
    cases hi
  · intro i hi
    cases hi
  · intro i hi
    cases hi
  · intro id hv j hj
    cases id <;> exact absurd hv (by simp [validId, Model.new])
  · intro j q hq
    rw [getD_out ([] : List PropId) (by simp [Model.new])] at hq
    cases hq

theorem MWF_new_var {m : Model} (hwf : MWF m) (mn mx : Int) :
    MWF (m.new_var_impl mn mx).1 := by
  refine ⟨?_, ?_, ?_, ?_, ?_, ?_, ?_, ?_⟩
  · show (m.deps.vars ++ [[]]).length = (m.vars ++ [(⟨mn, mx⟩ : Var)]).length
    rw [List.length_append, List.length_append, hwf.varsLen]
    rfl
  · intro id hv j hj
    have hn : j < m.vars.length := hwf.opValid id hv j hj
    show j < (m.vars ++ [(⟨mn, mx⟩ : Var)]).length
    rw [List.length_append]
    omega
  · exact hwf.scaleCoefPos
  · exact hwf.scaleCoefNeg
  · exact hwf.sumFresh
  · exact hwf.plusFresh
  · intro id hv j hj
    exact append_nil_getD_mem_intro (hwf.registered id hv j hj)
  · intro j q hq
    exact hwf.wakeValid j q (append_nil_getD_mem hq)

theorem length_append_one {α : Type} (l : List α) (t : α) :
    (l ++ [t]).length = l.length + 1 := by simp

theorem MWF_eq {m : Model} {x y : Nat} (hwf : MWF m)
    (hx : x < m.vars.length) (hy : y < m.vars.length) :
    MWF (m.eq_impl x y) := by
  have hvl := hwf.varsLen
  show DWF ⟨pushDep (pushDep m.deps.vars x (.eq m.deps.props.eq.length)) y
      (.eq m.deps.props.eq.length),
    { m.deps.props with eq := m.deps.props.eq ++ [(x, y)] }⟩ m.vars.length
  refine ⟨?_, ?_, ?_, ?_, ?_, ?_, ?_, ?_⟩
  · show (pushDep (pushDep m.deps.vars x _) y _).length = m.vars.length
    rw [pushDep_length, pushDep_length]
    exact hvl
  · intro id hv j hj
    cases id with
    | eq i =>
        have hv2 : i < m.deps.props.eq.length + 1 := by
          simpa [validId, List.length_append] using hv
        by_cases hi : i < m.deps.props.eq.length
        · have hg : (m.deps.props.eq ++ [(x, y)]).getD i (0, 0) =
              m.deps.props.eq.getD i (0, 0) := getD_append_lt _ _ _ _ hi
          have hj2 : opVarsOf m.deps (.eq i) j := by
            simp only [opVarsOf] at hj ⊢
            rw [hg] at hj
            exact hj
          exact hwf.opValid (.eq i) hi j hj2
        · have hieq : i = m.deps.props.eq.length := by omega
          subst hieq
          simp only [opVarsOf] at hj
          rw [getD_append_self] at hj
          dsimp only at hj
          rcases hj with rfl | rfl
          · exact hx
          · exact hy
    | scalePos i => exact hwf.opValid (.scalePos i) hv j hj
    | scaleNeg i => exact hwf.opValid (.scaleNeg i) hv j hj
    | plus i => exact hwf.opValid (.plus i) hv j hj
    | sum i => exact hwf.opValid (.sum i) hv j hj
    | leq i => exact hwf.opValid (.leq i) hv j hj
  · exact hwf.scaleCoefPos
  · exact hwf.scaleCoefNeg
  · exact hwf.sumFresh
  · exact hwf.plusFresh
  · intro id hv j hj
    cases id with
    | eq i =>
        have hv2 : i < m.deps.props.eq.length + 1 := by
          simpa [validId, List.length_append] using hv
        by_cases hi : i < m.deps.props.eq.length
        · have hg : (m.deps.props.eq ++ [(x, y)]).getD i (0, 0) =
              m.deps.props.eq.getD i (0, 0) := getD_append_lt _ _ _ _ hi
          have hj2 : regVarsOf m.deps (.eq i) j := by
            simp only [regVarsOf, opVarsOf] at hj ⊢
            rw [hg] at hj
            exact hj
          exact pushDep_mem_of_mem
            (pushDep_mem_of_mem (hwf.registered (.eq i) hi j hj2))
        · have hieq : i = m.deps.props.eq.length := by omega
          subst hieq
          simp only [regVarsOf, opVarsOf] at hj
          rw [getD_append_self] at hj
          dsimp only at hj
          rcases hj with rfl | rfl
          · exact pushDep_mem_of_mem (pushDep_mem_self (by omega))
          · exact pushDep_mem_self (by rw [pushDep_length]; omega)
    | scalePos i =>
        exact pushDep_mem_of_mem
          (pushDep_mem_of_mem (hwf.registered (.scalePos i) hv j hj))
    | scaleNeg i =>
        exact pushDep_mem_of_mem
          (pushDep_mem_of_mem (hwf.registered (.scaleNeg i) hv j hj))
    | plus i =>
        exact pushDep_mem_of_mem
          (pushDep_mem_of_mem (hwf.registered (.plus i) hv j hj))
    | sum i =>
        exact pushDep_mem_of_mem
          (pushDep_mem_of_mem (hwf.registered (.sum i) hv j hj))
    | leq i =>
        exact pushDep_mem_of_mem
          (pushDep_mem_of_mem (hwf.registered (.leq i) hv j hj))
  · intro j q hq
    have hmono : validId m.deps q →
        validId ⟨pushDep (pushDep m.deps.vars x
            (.eq m.deps.props.eq.length)) y (.eq m.deps.props.eq.length),
          { m.deps.props with eq := m.deps.props.eq ++ [(x, y)] }⟩ q := by
      intro hvq
      cases q with
      | eq i =>
          show i < (m.deps.props.eq ++ [(x, y)]).length
          rw [length_append_one]
          have hvq2 : i < m.deps.props.eq.length := hvq
          omega
      | scalePos i => exact hvq
      | scaleNeg i => exact hvq
      | plus i => exact hvq
      | sum i => exact hvq
      | leq i => exact hvq
    rcases pushDep_mem_elim hq with hq1 | hq2
    · rcases pushDep_mem_elim hq1 with hq0 | hq2b
      · exact hmono (hwf.wakeValid j q hq0)
      · subst hq2b
        show m.deps.props.eq.length < (m.deps.props.eq ++ [(x, y)]).length
        rw [length_append_one]
        omega
    · subst hq2
      show m.deps.props.eq.length < (m.deps.props.eq ++ [(x, y)]).length
      rw [length_append_one]
      omega

theorem MWF_leq {m : Model} {x y : Nat} (hwf : MWF m)
    (hx : x < m.vars.length) (hy : y < m.vars.length) :
    MWF (m.leq_impl x y) := by
  have hvl := hwf.varsLen
  show DWF ⟨pushDep (pushDep m.deps.vars x (.leq m.deps.props.leq.length)) y
      (.leq m.deps.props.leq.length),
    { m.deps.props with leq := m.deps.props.leq ++ [(x, y)] }⟩ m.vars.length
  refine ⟨?_, ?_, ?_, ?_, ?_, ?_, ?_, ?_⟩
  · show (pushDep (pushDep m.deps.vars x _) y _).length = m.vars.length
    rw [pushDep_length, pushDep_length]
    exact hvl
  · intro id hv j hj
    cases id with
    | leq i =>
        have hv2 : i < m.deps.props.leq.length + 1 := by
          simpa [validId, List.length_append] using hv
        by_cases hi : i < m.deps.props.leq.length
        · have hg : (m.deps.props.leq ++ [(x, y)]).getD i (0, 0) =
              m.deps.props.leq.getD i (0, 0) := getD_append_lt _ _ _ _ hi
          have hj2 : opVarsOf m.deps (.leq i) j := by
            simp only [opVarsOf] at hj ⊢
            rw [hg] at hj
            exact hj
          exact hwf.opValid (.leq i) hi j hj2
        · have hieq : i = m.deps.props.leq.length := by omega
          subst hieq
          simp only [opVarsOf] at hj
          rw [getD_append_self] at hj
          dsimp only at hj
          rcases hj with rfl | rfl
          · exact hx
          · exact hy
    | scalePos i => exact hwf.opValid (.scalePos i) hv j hj
    | scaleNeg i => exact hwf.opValid (.scaleNeg i) hv j hj
    | plus i => exact hwf.opValid (.plus i) hv j hj
    | sum i => exact hwf.opValid (.sum i) hv j hj
    | eq i => exact hwf.opValid (.eq i) hv j hj
  · exact hwf.scaleCoefPos
  · exact hwf.scaleCoefNeg
  · exact hwf.sumFresh
  · exact hwf.plusFresh
  · intro id hv j hj
    cases id with
    | leq i =>
        have hv2 : i < m.deps.props.leq.length + 1 := by
          simpa [validId, List.length_append] using hv
        by_cases hi : i < m.deps.props.leq.length
        · have hg : (m.deps.props.leq ++ [(x, y)]).getD i (0, 0) =
              m.deps.props.leq.getD i (0, 0) := getD_append_lt _ _ _ _ hi
          have hj2 : regVarsOf m.deps (.leq i) j := by
            simp only [regVarsOf, opVarsOf] at hj ⊢
            rw [hg] at hj
            exact hj
          exact pushDep_mem_of_mem
            (pushDep_mem_of_mem (hwf.registered (.leq i) hi j hj2))
        · have hieq : i = m.deps.props.leq.length := by omega
          subst hieq
          simp only [regVarsOf, opVarsOf] at hj
          rw [getD_append_self] at hj
          dsimp only at hj
          rcases hj with rfl | rfl
          · exact pushDep_mem_of_mem (pushDep_mem_self (by omega))
          · exact pushDep_mem_self (by rw [pushDep_length]; omega)
    | scalePos i =>
        exact pushDep_mem_of_mem
          (pushDep_mem_of_mem (hwf.registered (.scalePos i) hv j hj))
    | scaleNeg i =>
        exact pushDep_mem_of_mem
          (pushDep_mem_of_mem (hwf.registered (.scaleNeg i) hv j hj))
    | plus i =>
        exact pushDep_mem_of_mem
          (pushDep_mem_of_mem (hwf.registered (.plus i) hv j hj))
    | sum i =>
        exact pushDep_mem_of_mem
          (pushDep_mem_of_mem (hwf.registered (.sum i) hv j hj))
    | eq i =>
        exact pushDep_mem_of_mem
          (pushDep_mem_of_mem (hwf.registered (.eq i) hv j hj))
  · intro j q hq
    have hmono : validId m.deps q →
        validId ⟨pushDep (pushDep m.deps.vars x
            (.leq m.deps.props.leq.length)) y (.leq m.deps.props.leq.length),
          { m.deps.props with leq := m.deps.props.leq ++ [(x, y)] }⟩ q := by
      intro hvq
      cases q with
      | leq i =>
          show i < (m.deps.props.leq ++ [(x, y)]).length
          rw [length_append_one]
          have hvq2 : i < m.deps.props.leq.length := hvq
          omega
      | scalePos i => exact hvq
      | scaleNeg i => exact hvq
      | plus i => exact hvq
      | sum i => exact hvq
      | eq i => exact hvq
    rcases pushDep_mem_elim hq with hq1 | hq2
    · rcases pushDep_mem_elim hq1 with hq0 | hq2b
      · exact hmono (hwf.wakeValid j q hq0)
      · subst hq2b
        show m.deps.props.leq.length < (m.deps.props.leq ++ [(x, y)]).length
        rw [length_append_one]
        omega
    · subst hq2
      show m.deps.props.leq.length < (m.deps.props.leq ++ [(x, y)]).length
      rw [length_append_one]
      omega

theorem MWF_scale_pos {m : Model} {x : Nat} {coef : Int} (hwf : MWF m)
    (hx : x < m.vars.length) (hc : 0 < coef) :
    MWF (m.scale_pos x coef).1 := by
  have hvl := hwf.varsLen
  unfold MWF
  have hlen2 : (m.scale_pos x coef).1.vars.length = m.vars.length + 1 := by
    show (m.vars ++ [_]).length = _
    rw [length_append_one]
  rw [hlen2]
  show DWF ⟨pushDep (pushDep (m.deps.vars ++ [[]]) x
      (.scalePos m.deps.props.scale_pos.length)) m.vars.length
      (.scalePos m.deps.props.scale_pos.length),
    { m.deps.props with
      scale_pos := m.deps.props.scale_pos ++ [(x, m.vars.length, coef)] }⟩
    (m.vars.length + 1)
  refine ⟨?_, ?_, ?_, ?_, ?_, ?_, ?_, ?_⟩
  · show (pushDep (pushDep (m.deps.vars ++ [[]]) x _) _ _).length = _
    rw [pushDep_length, pushDep_length, length_append_one]
    omega
  · intro id hv j hj
    cases id with
    | scalePos i =>
        have hv2 : i < m.deps.props.scale_pos.length + 1 := by
          simpa [validId, List.length_append] using hv
        by_cases hi : i < m.deps.props.scale_pos.length
        · have hg : (m.deps.props.scale_pos ++
              [(x, m.vars.length, coef)]).getD i (0, 0, 1) =
              m.deps.props.scale_pos.getD i (0, 0, 1) :=
            getD_append_lt _ _ _ _ hi
          have hj2 : opVarsOf m.deps (.scalePos i) j := by
            simp only [opVarsOf] at hj ⊢
            rw [hg] at hj
            exact hj
          have := hwf.opValid (.scalePos i) hi j hj2
          omega
        · have hieq : i = m.deps.props.scale_pos.length := by omega
          subst hieq
          simp only [opVarsOf] at hj
          rw [getD_append_self] at hj
          dsimp only at hj
          rcases hj with rfl | rfl
          · omega
          · omega
    | scaleNeg i =>
        have := hwf.opValid (.scaleNeg i) hv j hj
        omega
    | plus i =>
        have := hwf.opValid (.plus i) hv j hj
        omega
    | sum i =>
        have := hwf.opValid (.sum i) hv j hj
        omega
    | eq i =>
        have := hwf.opValid (.eq i) hv j hj
        omega
    | leq i =>
        have := hwf.opValid (.leq i) hv j hj
        omega
  · intro i hi
    have hv2 : i < m.deps.props.scale_pos.length + 1 := by
      simpa [List.length_append] using hi
    show 0 < ((m.deps.props.scale_pos ++
      [(x, m.vars.length, coef)]).getD i (0, 0, 1)).2.2
    by_cases hilt : i < m.deps.props.scale_pos.length
    · rw [getD_append_lt _ _ _ _ hilt]
      exact hwf.scaleCoefPos i hilt
    · have hieq : i = m.deps.props.scale_pos.length := by omega
      subst hieq
      rw [getD_append_self]
      exact hc
  · exact hwf.scaleCoefNeg
  · exact hwf.sumFresh
  · exact hwf.plusFresh
  · intro id hv j hj
    cases id with
    | scalePos i =>
        have hv2 : i < m.deps.props.scale_pos.length + 1 := by
          simpa [validId, List.length_append] using hv
        by_cases hi : i < m.deps.props.scale_pos.length
        · have hg : (m.deps.props.scale_pos ++
              [(x, m.vars.length, coef)]).getD i (0, 0, 1) =
              m.deps.props.scale_pos.getD i (0, 0, 1) :=
            getD_append_lt _ _ _ _ hi
          have hj2 : regVarsOf m.deps (.scalePos i) j := by
            simp only [regVarsOf, opVarsOf] at hj ⊢
            rw [hg] at hj
            exact hj
          exact pushDep_mem_of_mem (pushDep_mem_of_mem
            (append_nil_getD_mem_intro
              (hwf.registered (.scalePos i) hi j hj2)))
        · have hieq : i = m.deps.props.scale_pos.length := by omega
          subst hieq
          simp only [regVarsOf, opVarsOf] at hj
          rw [getD_append_self] at hj
          dsimp only at hj
          rcases hj with rfl | rfl
          · refine pushDep_mem_of_mem (pushDep_mem_self ?_)
            rw [length_append_one]
            omega
          · refine pushDep_mem_self ?_
            rw [pushDep_length, length_append_one]
            omega
    | scaleNeg i =>
        exact pushDep_mem_of_mem (pushDep_mem_of_mem
          (append_nil_getD_mem_intro
            (hwf.registered (.scaleNeg i) hv j hj)))
    | plus i =>
        exact pushDep_mem_of_mem (pushDep_mem_of_mem
          (append_nil_getD_mem_intro (hwf.registered (.plus i) hv j hj)))
    | sum i =>
        exact pushDep_mem_of_mem (pushDep_mem_of_mem
          (append_nil_getD_mem_intro (hwf.registered (.sum i) hv j hj)))
    | eq i =>
        exact pushDep_mem_of_mem (pushDep_mem_of_mem
          (append_nil_getD_mem_intro (hwf.registered (.eq i) hv j hj)))
    | leq i =>
        exact pushDep_mem_of_mem (pushDep_mem_of_mem
          (append_nil_getD_mem_intro (hwf.registered (.leq i) hv j hj)))
  · intro j q hq
    have hmono : validId m.deps q →
        validId ⟨pushDep (pushDep (m.deps.vars ++ [[]]) x
            (.scalePos m.deps.props.scale_pos.length)) m.vars.length
            (.scalePos m.deps.props.scale_pos.length),
          { m.deps.props with
            scale_pos := m.deps.props.scale_pos ++
              [(x, m.vars.length, coef)] }⟩ q := by
      intro hvq
      cases q with
      | scalePos i =>
          show i < (m.deps.props.scale_pos ++
            [(x, m.vars.length, coef)]).length
          rw [length_append_one]
          have hvq2 : i < m.deps.props.scale_pos.length := hvq
          omega
      | scaleNeg i => exact hvq
      | plus i => exact hvq
      | sum i => exact hvq
      | eq i => exact hvq
      | leq i => exact hvq
    rcases pushDep_mem_elim hq with hq1 | hq2
    · rcases pushDep_mem_elim hq1 with hq0 | hq2b
      · exact hmono (hwf.wakeValid j q (append_nil_getD_mem hq0))
      · subst hq2b
        show m.deps.props.scale_pos.length < (m.deps.props.scale_pos ++
          [(x, m.vars.length, coef)]).length
        rw [length_append_one]
        omega
    · subst hq2
      show m.deps.props.scale_pos.length < (m.deps.props.scale_pos ++
        [(x, m.vars.length, coef)]).length
      rw [length_append_one]
      omega

theorem MWF_scale_neg {m : Model} {x : Nat} {coef : Int} (hwf : MWF m)
    (hx : x < m.vars.length) (hc : coef < 0) :
    MWF (m.scale_neg x coef).1 := by
  have hvl := hwf.varsLen
  unfold MWF
  have hlen2 : (m.scale_neg x coef).1.vars.length = m.vars.length + 1 := by
    show (m.vars ++ [_]).length = _
    rw [length_append_one]
  rw [hlen2]
  show DWF ⟨pushDep (pushDep (m.deps.vars ++ [[]]) x
      (.scaleNeg m.deps.props.scale_neg.length)) m.vars.length
      (.scaleNeg m.deps.props.scale_neg.length),
    { m.deps.props with
      scale_neg := m.deps.props.scale_neg ++ [(x, m.vars.length, coef)] }⟩
    (m.vars.length + 1)
  refine ⟨?_, ?_, ?_, ?_, ?_, ?_, ?_, ?_⟩
  · show (pushDep (pushDep (m.deps.vars ++ [[]]) x _) _ _).length = _
    rw [pushDep_length, pushDep_length, length_append_one]
    omega
  · intro id hv j hj
    cases id with
    | scaleNeg i =>
        have hv2 : i < m.deps.props.scale_neg.length + 1 := by
          simpa [validId, List.length_append] using hv
        by_cases hi : i < m.deps.props.scale_neg.length
        · have hg : (m.deps.props.scale_neg ++
              [(x, m.vars.length, coef)]).getD i (0, 0, -1) =
              m.deps.props.scale_neg.getD i (0, 0, -1) :=
            getD_append_lt _ _ _ _ hi
          have hj2 : opVarsOf m.deps (.scaleNeg i) j := by
            simp only [opVarsOf] at hj ⊢
            rw [hg] at hj
            exact hj
          have := hwf.opValid (.scaleNeg i) hi j hj2
          omega
        · have hieq : i = m.deps.props.scale_neg.length := by omega
          subst hieq
          simp only [opVarsOf] at hj
          rw [getD_append_self] at hj
          dsimp only at hj
          rcases hj with rfl | rfl
          · omega
          · omega
    | scalePos i =>
        have := hwf.opValid (.scalePos i) hv j hj
        omega
    | plus i =>
        have := hwf.opValid (.plus i) hv j hj
        omega
    | sum i =>
        have := hwf.opValid (.sum i) hv j hj
        omega
    | eq i =>
        have := hwf.opValid (.eq i) hv j hj
        omega
    | leq i =>
        have := hwf.opValid (.leq i) hv j hj
        omega
  · exact hwf.scaleCoefPos
  · intro i hi
    have hv2 : i < m.deps.props.scale_neg.length + 1 := by
      simpa [List.length_append] using hi
    show ((m.deps.props.scale_neg ++
      [(x, m.vars.length, coef)]).getD i (0, 0, -1)).2.2 < 0
    by_cases hilt : i < m.deps.props.scale_neg.length
    · rw [getD_append_lt _ _ _ _ hilt]
      exact hwf.scaleCoefNeg i hilt
    · have hieq : i = m.deps.props.scale_neg.length := by omega
      subst hieq
      rw [getD_append_self]
      exact hc
  · exact hwf.sumFresh
  · exact hwf.plusFresh
  · intro id hv j hj
    cases id with
    | scaleNeg i =>
        have hv2 : i < m.deps.props.scale_neg.length + 1 := by
          simpa [validId, List.length_append] using hv
        by_cases hi : i < m.deps.props.scale_neg.length
        · have hg : (m.deps.props.scale_neg ++
              [(x, m.vars.length, coef)]).getD i (0, 0, -1) =
              m.deps.props.scale_neg.getD i (0, 0, -1) :=
            getD_append_lt _ _ _ _ hi
          have hj2 : regVarsOf m.deps (.scaleNeg i) j := by
            simp only [regVarsOf, opVarsOf] at hj ⊢
            rw [hg] at hj
            exact hj
          exact pushDep_mem_of_mem (pushDep_mem_of_mem
            (append_nil_getD_mem_intro
              (hwf.registered (.scaleNeg i) hi j hj2)))
        · have hieq : i = m.deps.props.scale_neg.length := by omega
          subst hieq
          simp only [regVarsOf, opVarsOf] at hj
          rw [getD_append_self] at hj
          dsimp only at hj
          rcases hj with rfl | rfl
          · refine pushDep_mem_of_mem (pushDep_mem_self ?_)
            rw [length_append_one]
            omega
          · refine pushDep_mem_self ?_
            rw [pushDep_length, length_append_one]
            omega
    | scalePos i =>
        exact pushDep_mem_of_mem (pushDep_mem_of_mem
          (append_nil_getD_mem_intro
            (hwf.registered (.scalePos i) hv j hj)))
    | plus i =>
        exact pushDep_mem_of_mem (pushDep_mem_of_mem
          (append_nil_getD_mem_intro (hwf.registered (.plus i) hv j hj)))
    | sum i =>
        exact pushDep_mem_of_mem (pushDep_mem_of_mem
          (append_nil_getD_mem_intro (hwf.registered (.sum i) hv j hj)))
    | eq i =>
        exact pushDep_mem_of_mem (pushDep_mem_of_mem
          (append_nil_getD_mem_intro (hwf.registered (.eq i) hv j hj)))
    | leq i =>
        exact pushDep_mem_of_mem (pushDep_mem_of_mem
          (append_nil_getD_mem_intro (hwf.registered (.leq i) hv j hj)))
  · intro j q hq
    have hmono : validId m.deps q →
        validId ⟨pushDep (pushDep (m.deps.vars ++ [[]]) x
            (.scaleNeg m.deps.props.scale_neg.length)) m.vars.length
            (.scaleNeg m.deps.props.scale_neg.length),
          { m.deps.props with
            scale_neg := m.deps.props.scale_neg ++
              [(x, m.vars.length, coef)] }⟩ q := by
      intro hvq
      cases q with
      | scaleNeg i =>
          show i < (m.deps.props.scale_neg ++
            [(x, m.vars.length, coef)]).length
          rw [length_append_one]
          have hvq2 : i < m.deps.props.scale_neg.length := hvq
          omega
      | scalePos i => exact hvq
      | plus i => exact hvq
      | sum i => exact hvq
      | eq i => exact hvq
      | leq i => exact hvq
    rcases pushDep_mem_elim hq with hq1 | hq2
    · rcases pushDep_mem_elim hq1 with hq0 | hq2b
      · exact hmono (hwf.wakeValid j q (append_nil_getD_mem hq0))
      · subst hq2b
        show m.deps.props.scale_neg.length < (m.deps.props.scale_neg ++
          [(x, m.vars.length, coef)]).length
        rw [length_append_one]
        omega
    · subst hq2
      show m.deps.props.scale_neg.length < (m.deps.props.scale_neg ++
        [(x, m.vars.length, coef)]).length
      rw [length_append_one]
      omega


theorem MWF_plus {m : Model} {x y : Nat} (hwf : MWF m)
    (hx : x < m.vars.length) (hy : y < m.vars.length) :
    MWF (m.plus_impl x y).1 := by
  have hvl := hwf.varsLen
  unfold MWF
  have hlen2 : (m.plus_impl x y).1.vars.length = m.vars.length + 1 := by
    show (m.vars ++ [_]).length = _
    rw [length_append_one]
  rw [hlen2]
  show DWF ⟨pushDep (pushDep (m.deps.vars ++ [[]]) x
      (.plus m.deps.props.plus.length)) y
      (.plus m.deps.props.plus.length),
    { m.deps.props with
      plus := m.deps.props.plus ++ [(m.vars.length, x, y)] }⟩
    (m.vars.length + 1)
  refine ⟨?_, ?_, ?_, ?_, ?_, ?_, ?_, ?_⟩
  · show (pushDep (pushDep (m.deps.vars ++ [[]]) x _) _ _).length = _
    rw [pushDep_length, pushDep_length, length_append_one]
    omega
  · intro id hv j hj
    cases id with
    | plus i =>
        have hv2 : i < m.deps.props.plus.length + 1 := by
          simpa [validId, List.length_append] using hv
        by_cases hi : i < m.deps.props.plus.length
        · have hg : (m.deps.props.plus ++
              [(m.vars.length, x, y)]).getD i (0, 0, 0) =
              m.deps.props.plus.getD i (0, 0, 0) :=
            getD_append_lt _ _ _ _ hi
          have hj2 : opVarsOf m.deps (.plus i) j := by
            simp only [opVarsOf] at hj ⊢
            rw [hg] at hj
            exact hj
          have := hwf.opValid (.plus i) hi j hj2
          omega
        · have hieq : i = m.deps.props.plus.length := by omega
          subst hieq
          simp only [opVarsOf] at hj
          rw [getD_append_self] at hj
          dsimp only at hj
          rcases hj with rfl | rfl | rfl
          · omega
          · omega
          · omega
    | scalePos i =>
        have := hwf.opValid (.scalePos i) hv j hj
        omega
    | scaleNeg i =>
        have := hwf.opValid (.scaleNeg i) hv j hj
        omega
    | sum i =>
        have := hwf.opValid (.sum i) hv j hj
        omega
    | eq i =>
        have := hwf.opValid (.eq i) hv j hj
        omega
    | leq i =>
        have := hwf.opValid (.leq i) hv j hj
        omega
  · exact hwf.scaleCoefPos
  · exact hwf.scaleCoefNeg
  · exact hwf.sumFresh
  · intro i hi
    have hv2 : i < m.deps.props.plus.length + 1 := by
      simpa [List.length_append] using hi
    show ((m.deps.props.plus ++
        [(m.vars.length, x, y)]).getD i (0, 0, 0)).1 ≠
        ((m.deps.props.plus ++
          [(m.vars.length, x, y)]).getD i (0, 0, 0)).2.1 ∧
      ((m.deps.props.plus ++
        [(m.vars.length, x, y)]).getD i (0, 0, 0)).1 ≠
        ((m.deps.props.plus ++
          [(m.vars.length, x, y)]).getD i (0, 0, 0)).2.2
    by_cases hilt : i < m.deps.props.plus.length
    · rw [getD_append_lt _ _ _ _ hilt]
      exact hwf.plusFresh i hilt
    · have hieq : i = m.deps.props.plus.length := by omega
      subst hieq
      rw [getD_append_self]
      dsimp only
      omega
  · intro id hv j hj
    cases id with
    | plus i =>
        have hv2 : i < m.deps.props.plus.length + 1 := by
          simpa [validId, List.length_append] using hv
        by_cases hi : i < m.deps.props.plus.length
        · have hg : (m.deps.props.plus ++
              [(m.vars.length, x, y)]).getD i (0, 0, 0) =
              m.deps.props.plus.getD i (0, 0, 0) :=
            getD_append_lt _ _ _ _ hi
          have hj2 : regVarsOf m.deps (.plus i) j := by
            simp only [regVarsOf] at hj ⊢
            rw [hg] at hj
            exact hj
          exact pushDep_mem_of_mem (pushDep_mem_of_mem
            (append_nil_getD_mem_intro
              (hwf.registered (.plus i) hi j hj2)))
        · have hieq : i = m.deps.props.plus.length := by omega
          subst hieq
          simp only [regVarsOf] at hj
          rw [getD_append_self] at hj
          dsimp only at hj
          rcases hj with rfl | rfl
          · refine pushDep_mem_of_mem (pushDep_mem_self ?_)
            rw [length_append_one]
            omega
          · refine pushDep_mem_self ?_
            rw [pushDep_length, length_append_one]
            omega
    | scalePos i =>
        exact pushDep_mem_of_mem (pushDep_mem_of_mem
          (append_nil_getD_mem_intro
            (hwf.registered (.scalePos i) hv j hj)))
    | scaleNeg i =>
        exact pushDep_mem_of_mem (pushDep_mem_of_mem
          (append_nil_getD_mem_intro
            (hwf.registered (.scaleNeg i) hv j hj)))
    | sum i =>
        exact pushDep_mem_of_mem (pushDep_mem_of_mem
          (append_nil_getD_mem_intro (hwf.registered (.sum i) hv j hj)))
    | eq i =>
        exact pushDep_mem_of_mem (pushDep_mem_of_mem
          (append_nil_getD_mem_intro (hwf.registered (.eq i) hv j hj)))
    | leq i =>
        exact pushDep_mem_of_mem (pushDep_mem_of_mem
          (append_nil_getD_mem_intro (hwf.registered (.leq i) hv j hj)))
  · intro j q hq
    have hmono : validId m.deps q →
        validId ⟨pushDep (pushDep (m.deps.vars ++ [[]]) x
            (.plus m.deps.props.plus.length)) y
            (.plus m.deps.props.plus.length),
          { m.deps.props with
            plus := m.deps.props.plus ++ [(m.vars.length, x, y)] }⟩ q := by
      intro hvq
      cases q with
      | plus i =>
          show i < (m.deps.props.plus ++ [(m.vars.length, x, y)]).length
          rw [length_append_one]
          have hvq2 : i < m.deps.props.plus.length := hvq
          omega
      | scalePos i => exact hvq
      | scaleNeg i => exact hvq
      | sum i => exact hvq
      | eq i => exact hvq
      | leq i => exact hvq
    rcases pushDep_mem_elim hq with hq1 | hq2
    · rcases pushDep_mem_elim hq1 with hq0 | hq2b
      · exact hmono (hwf.wakeValid j q (append_nil_getD_mem hq0))
      · subst hq2b
        show m.deps.props.plus.length <
          (m.deps.props.plus ++ [(m.vars.length, x, y)]).length
        rw [length_append_one]
        omega
    · subst hq2
      show m.deps.props.plus.length <
        (m.deps.props.plus ++ [(m.vars.length, x, y)]).length
      rw [length_append_one]
      omega

theorem MWF_sum {m : Model} {xs : List Nat} (hwf : MWF m)
    (hxs : ∀ v ∈ xs, v < m.vars.length) :
    MWF (m.sum_impl xs).1 := by
  have hvl := hwf.varsLen
  unfold MWF
  have hlen2 : (m.sum_impl xs).1.vars.length = m.vars.length + 1 := by
    show (m.vars ++ [_]).length = _
    rw [length_append_one]
  rw [hlen2]
  show DWF ⟨xs.foldl (fun l v => pushDep l v (.sum m.deps.props.sum.length))
      (m.deps.vars ++ [[]]),
    { m.deps.props with
      sum := m.deps.props.sum ++ [(m.vars.length, xs)] }⟩
    (m.vars.length + 1)
  refine ⟨?_, ?_, ?_, ?_, ?_, ?_, ?_, ?_⟩
  · rw [foldl_pushDep_length, length_append_one]
    omega
  · intro id hv j hj
    cases id with
    | sum i =>
        have hv2 : i < m.deps.props.sum.length + 1 := by
          simpa [validId, List.length_append] using hv
        by_cases hi : i < m.deps.props.sum.length
        · have hg : (m.deps.props.sum ++
              [(m.vars.length, xs)]).getD i (0, []) =
              m.deps.props.sum.getD i (0, []) :=
            getD_append_lt _ _ _ _ hi
          have hj2 : opVarsOf m.deps (.sum i) j := by
            simp only [opVarsOf] at hj ⊢
            rw [hg] at hj
            exact hj
          have := hwf.opValid (.sum i) hi j hj2
          omega
        · have hieq : i = m.deps.props.sum.length := by omega
          subst hieq
          simp only [opVarsOf] at hj
          rw [getD_append_self] at hj
          dsimp only at hj
          rcases hj with rfl | hmem
          · omega
          · have := hxs j hmem
            omega
    | scalePos i =>
        have := hwf.opValid (.scalePos i) hv j hj
        omega
    | scaleNeg i =>
        have := hwf.opValid (.scaleNeg i) hv j hj
        omega
    | plus i =>
        have := hwf.opValid (.plus i) hv j hj
        omega
    | eq i =>
        have := hwf.opValid (.eq i) hv j hj
        omega
    | leq i =>
        have := hwf.opValid (.leq i) hv j hj
        omega
  · exact hwf.scaleCoefPos
  · exact hwf.scaleCoefNeg
  · intro i hi
    have hv2 : i < m.deps.props.sum.length + 1 := by
      simpa [List.length_append] using hi
    show ((m.deps.props.sum ++
        [(m.vars.length, xs)]).getD i (0, [])).1 ∉
      ((m.deps.props.sum ++ [(m.vars.length, xs)]).getD i (0, [])).2
    by_cases hilt : i < m.deps.props.sum.length
    · rw [getD_append_lt _ _ _ _ hilt]
      exact hwf.sumFresh i hilt
    · have hieq : i = m.deps.props.sum.length := by omega
      subst hieq
      rw [getD_append_self]
      dsimp only
      intro hmem
      have := hxs _ hmem
      omega
  · exact hwf.plusFresh
  · intro id hv j hj
    cases id with
    | sum i =>
        have hv2 : i < m.deps.props.sum.length + 1 := by
          simpa [validId, List.length_append] using hv
        by_cases hi : i < m.deps.props.sum.length
        · have hg : (m.deps.props.sum ++
              [(m.vars.length, xs)]).getD i (0, []) =
              m.deps.props.sum.getD i (0, []) :=
            getD_append_lt _ _ _ _ hi
          have hj2 : regVarsOf m.deps (.sum i) j := by
            simp only [regVarsOf] at hj ⊢
            rw [hg] at hj
            exact hj
          exact foldl_pushDep_mem_of_mem xs _
            (append_nil_getD_mem_intro (hwf.registered (.sum i) hi j hj2))
        · have hieq : i = m.deps.props.sum.length := by omega
          subst hieq
          simp only [regVarsOf] at hj
          rw [getD_append_self] at hj
          dsimp only at hj
          refine foldl_pushDep_mem_self xs _ hj ?_
          rw [length_append_one]
          have := hxs j hj
          omega
    | scalePos i =>
        exact foldl_pushDep_mem_of_mem xs _ (append_nil_getD_mem_intro
          (hwf.registered (.scalePos i) hv j hj))
    | scaleNeg i =>
        exact foldl_pushDep_mem_of_mem xs _ (append_nil_getD_mem_intro
          (hwf.registered (.scaleNeg i) hv j hj))
    | plus i =>
        exact foldl_pushDep_mem_of_mem xs _ (append_nil_getD_mem_intro
          (hwf.registered (.plus i) hv j hj))
    | eq i =>
        exact foldl_pushDep_mem_of_mem xs _ (append_nil_getD_mem_intro
          (hwf.registered (.eq i) hv j hj))
    | leq i =>
        exact foldl_pushDep_mem_of_mem xs _ (append_nil_getD_mem_intro
          (hwf.registered (.leq i) hv j hj))
  · intro j q hq
    have hmono : validId m.deps q →
        validId ⟨xs.foldl
            (fun l v => pushDep l v (.sum m.deps.props.sum.length))
            (m.deps.vars ++ [[]]),
          { m.deps.props with
            sum := m.deps.props.sum ++ [(m.vars.length, xs)] }⟩ q := by
      intro hvq
      cases q with
      | sum i =>
          show i < (m.deps.props.sum ++ [(m.vars.length, xs)]).length
          rw [length_append_one]
          have hvq2 : i < m.deps.props.sum.length := hvq
          omega
      | scalePos i => exact hvq
      | scaleNeg i => exact hvq
      | plus i => exact hvq
      | eq i => exact hvq
      | leq i => exact hvq
    rcases foldl_pushDep_mem_elim xs _ hq with hq0 | hq2
    · exact hmono (hwf.wakeValid j q (append_nil_getD_mem hq0))
    · subst hq2
      show m.deps.props.sum.length <
        (m.deps.props.sum ++ [(m.vars.length, xs)]).length
      rw [length_append_one]
      omega

theorem MWF_scale_impl {m : Model} {x : Nat} {coef : Int} (hwf : MWF m)
    (hx : x < m.vars.length) : MWF (m.scale_impl x coef).1 := by
  unfold Model.scale_impl
  split_ifs with h1 h2
  · exact MWF_scale_neg hwf hx h1
  · exact MWF_new_var hwf 0 0
  · exact MWF_scale_pos hwf hx (by omega)

/-- Every model reachable through the public builder API carries
well-formed subscription tables. -/
theorem Built_MWF : ∀ {m : Model}, Built m → MWF m := by
  intro m hb
  induction hb with
  | new => exact MWF_new
  | new_var mn mx _ ih => exact MWF_new_var ih mn mx
  | scale x coef hx _ ih => exact MWF_scale_impl ih hx
  | opposite x hx _ ih => exact MWF_scale_neg ih hx (by omega)
  | plus x y hx hy _ ih => exact MWF_plus ih hx hy
  | sum xs hxs _ ih => exact MWF_sum ih hxs
  | eq x y hx hy _ ih => exact MWF_eq ih hx hy
  | leq x y hx hy _ ih => exact MWF_leq ih hx hy

theorem allPropIds_valid {deps : Deps} {id : PropId}
    (h : id ∈ allPropIds deps.props) : validId deps id := by
  unfold allPropIds at h
  rcases List.mem_append.1 h with h1 | h
  · obtain ⟨i, hi, rfl⟩ := List.mem_map.1 h1
    exact List.mem_range.1 hi
  rcases List.mem_append.1 h with h1 | h
  · obtain ⟨i, hi, rfl⟩ := List.mem_map.1 h1
    exact List.mem_range.1 hi
  rcases List.mem_append.1 h with h1 | h
  · obtain ⟨i, hi, rfl⟩ := List.mem_map.1 h1
    exact List.mem_range.1 hi
  rcases List.mem_append.1 h with h1 | h
  · obtain ⟨i, hi, rfl⟩ := List.mem_map.1 h1
    exact List.mem_range.1 hi
  rcases List.mem_append.1 h with h1 | h
  · obtain ⟨i, hi, rfl⟩ := List.mem_map.1 h1
    exact List.mem_range.1 hi
  · obtain ⟨i, hi, rfl⟩ := List.mem_map.1 h
    exact List.mem_range.1 hi

theorem allPropIds_complete {deps : Deps} {id : PropId}
    (h : validId deps id) : id ∈ allPropIds deps.props := by
  unfold allPropIds
  cases id with
  | scalePos i =>
      exact List.mem_append.2 (Or.inl
        (List.mem_map.2 ⟨i, List.mem_range.2 h, rfl⟩))
  | scaleNeg i =>
      exact List.mem_append.2 (Or.inr (List.mem_append.2 (Or.inl
        (List.mem_map.2 ⟨i, List.mem_range.2 h, rfl⟩))))
  | plus i =>
      exact List.mem_append.2 (Or.inr (List.mem_append.2 (Or.inr
        (List.mem_append.2 (Or.inl
          (List.mem_map.2 ⟨i, List.mem_range.2 h, rfl⟩))))))
  | sum i =>
      exact List.mem_append.2 (Or.inr (List.mem_append.2 (Or.inr
        (List.mem_append.2 (Or.inr (List.mem_append.2 (Or.inl
          (List.mem_map.2 ⟨i, List.mem_range.2 h, rfl⟩))))))))
  | eq i =>
      exact List.mem_append.2 (Or.inr (List.mem_append.2 (Or.inr
        (List.mem_append.2 (Or.inr (List.mem_append.2 (Or.inr
          (List.mem_append.2 (Or.inl
            (List.mem_map.2 ⟨i, List.mem_range.2 h, rfl⟩))))))))))
  | leq i =>
      exact List.mem_append.2 (Or.inr (List.mem_append.2 (Or.inr
        (List.mem_append.2 (Or.inr (List.mem_append.2 (Or.inr
          (List.mem_append.2 (Or.inr
            (List.mem_map.2 ⟨i, List.mem_range.2 h, rfl⟩))))))))))

/-- Master theorem of Searcher::search in exhaustive mode: it always
returns, and the outcome is an optimal satisfying assignment (or none
precisely when the model is infeasible). -/
theorem searcherSearch_main {deps : Deps} {n obj : Nat} {vars : List Var}
    (hwf : DWF deps n) (hobj : obj < n) (hlen : vars.length = n)
    (hnc : NonCross (Vars.new vars)) :
    ∃ r, searcherSearch deps obj true vars = some r ∧
      OptOut deps (Vars.new vars) obj r := by
  have hvalid : ∀ id, id ∈ allPropIds deps.props → validId deps id :=
    fun id h => allPropIds_valid h
  have hallok : AllOK deps (allPropIds deps.props) (Vars.new vars) :=
    fun id hv => Or.inl (allPropIds_complete hv)
  have hmlt : propMeasure deps n (Vars.new vars) (allPropIds deps.props) <
      propFuel deps (Vars.new vars) (allPropIds deps.props) := by
    unfold propFuel
    have hl2 : (Vars.new vars).vars.length = n := hlen
    rw [hl2]
    omega
  obtain ⟨res, hres, hout⟩ := propagateLoop_main hwf
    (propFuel deps (Vars.new vars) (allPropIds deps.props))
    ⟨Vars.new vars, 0⟩ (allPropIds deps.props) hlen rfl hnc hvalid
    hallok hmlt
  cases res with
  | error e =>
      refine ⟨none, ?_, ?_⟩
      · unfold searcherSearch
        rw [hres]
      · intro a hsat hbox
        exact hout a hsat hbox
  | ok pr =>
      cases pr with
      | done sol =>
          obtain ⟨v2, ho1, ho2, ho3, ho4, ho5, ho6, ho7, ho8⟩ := hout
          refine ⟨some sol, ?_, ?_, ?_, ?_⟩
          · unfold searcherSearch
            rw [hres]
          · have hcf : (fun i => sol.getD i 0) = minsOf v2 := by
              funext i
              rw [ho1]
              exact getD_map_min v2 i
            rw [hcf]
            exact ho6
          · have hcf : (fun i => sol.getD i 0) = minsOf v2 := by
              funext i
              rw [ho1]
              exact getD_map_min v2 i
            rw [hcf]
            exact ho4.inBox_mono ho7
          · intro a hsat hbox
            have heq := ho8 a hsat hbox obj hobj
            have hco : sol.getD obj 0 = minsOf v2 obj := by
              rw [ho1]
              exact getD_map_min v2 obj
            omega
      | fixed sp2 =>
          obtain ⟨hf1, hf2, hf3, hf4, hf5, hf6, hf7, hf8⟩ := hout
          have hb0 : sp2.brancher = 0 := hf1
          have hcur2 : ∀ i, i < sp2.brancher → isSetVar sp2.vars i := by
            intro i hi
            rw [hb0] at hi
            omega
          cases hpick : pickFirstUnset sp2.vars sp2.brancher with
          | none => exact absurd (pickFirstUnset_none hpick hcur2) hf8
          | some pivot2 =>
              obtain ⟨hc2le, hp2lt, hp2unset, hp2scan⟩ :=
                pickFirstUnset_some hpick
              have hpush : pushTasks [] sp2 =
                  ((setMinToMaxChoices pivot2
                    (sp2.vars.getVar pivot2)).map
                    (fun c => (c, (⟨sp2.vars, pivot2⟩ : Space)))).reverse
                    ++ [] := by
                unfold pushTasks
                rw [hpick]
              have htask2 : ∀ t2 ∈ pushTasks [] sp2,
                  TaskOK deps n (Vars.new vars) t2 := by
                rw [hpush]
                intro t2 ht2
                rcases List.mem_append.1 ht2 with hl | hr2
                · rw [List.mem_reverse] at hl
                  obtain ⟨c, hc, hrc⟩ := List.mem_map.1 hl
                  obtain ⟨w, hcw, hwlo, hwhi⟩ :=
                    setMinToMaxChoices_mem.1 hc
                  subst hrc
                  subst hcw
                  have hp2n : pivot2 < n := by omega
                  refine ⟨hf2, hf3, hf4, hf5, hf7, ?_, hp2n, hp2unset,
                    ⟨w, rfl, hwlo, hwhi⟩⟩
                  intro i hi
                  dsimp only at hi
                  exact hp2scan i (by omega) hi
                · exact absurd hr2 (List.not_mem_nil t2)
              have hbest : BestOK deps (Vars.new vars) none :=
                fun b hb => nomatch hb
              have hcov : Coverage deps (Vars.new vars) obj none
                  (pushTasks [] sp2) := by
                rw [hpush]
                intro a hsat hbox _
                have hbox2 : inBox sp2.vars a := hf6 a hsat hbox
                obtain ⟨hplo, hphi⟩ := hbox2 pivot2 hp2lt
                refine ⟨(⟨⟨pivot2, .set (a pivot2)⟩,
                  (⟨sp2.vars, pivot2⟩ : Space)⟩ : Choice × Space), ?_,
                  hbox2, rfl⟩
                apply List.mem_append.2
                left
                rw [List.mem_reverse]
                apply List.mem_map.2
                refine ⟨⟨pivot2, .set (a pivot2)⟩, ?_, rfl⟩
                exact setMinToMaxChoices_mem.2 ⟨a pivot2, rfl, hplo, hphi⟩
              obtain ⟨r, hr, hopt⟩ := stackLoop_main hwf hobj
                (stackMeasure (pushTasks [] sp2) + 1) none
                (pushTasks [] sp2) htask2 hbest hcov (by omega)
              refine ⟨r, ?_, hopt⟩
              unfold searcherSearch
              rw [hres]
              exact hr

/-- C1: for every feasible model built through the public API,
minimize(obj) returns some solution whose objective value is the minimum
of obj over all assignments that satisfy the declared domains and all
posted constraints. -/
theorem C1_minimize_returns_optimal {m : Model} (hb : Built m)
    {obj : Nat} (hobj : obj < m.vars.length) {a0 : Nat → Int}
    (hsat0 : SatM m.deps a0) (hbox0 : inBox (Vars.new m.vars) a0) :
    ∃ sol, m.minimize obj = some sol ∧
      SatM m.deps (fun i => sol.getD i 0) ∧
      inBox (Vars.new m.vars) (fun i => sol.getD i 0) ∧
      ∀ a, SatM m.deps a → inBox (Vars.new m.vars) a →
        sol.getD obj 0 ≤ a obj := by
  have hwf : DWF m.deps m.vars.length := Built_MWF hb
  have hnc : NonCross (Vars.new m.vars) := by
    intro i hi
    obtain ⟨h1, h2⟩ := hbox0 i hi
    omega
  obtain ⟨r, hr, hopt⟩ := searcherSearch_main hwf hobj rfl hnc
  cases r with
  | none => exact (hopt a0 hsat0 hbox0).elim
  | some sol =>
      obtain ⟨h1, h2, h3⟩ := hopt
      refine ⟨sol, ?_, h1, h2, h3⟩
      unfold Model.minimize
      rw [hr]
      rfl

/-! ## The view-based generation (src/views.rs, src/props/, src/model.rs,
src/solution.rs)

Its store is a plain vector of domains; a Context wraps the store
together with a Vec-backed event log (duplicates possible, unlike the
HashSet of the by-value store). -/

/-- Context (src/views.rs): the store and the event log it appends to. -/
structure Ctx where
  vars : List Var
  events : List Nat
deriving Repr, DecidableEq

/-- Context::try_set_min: fail on infeasibility, set and log on actual
change, and return the resulting minimum. -/
def Ctx.try_set_min (c : Ctx) (v : Nat) (mn : Int) : Option (Int × Ctx) :=
  let var := c.vars.getD v ⟨0, 0⟩
  if var.max < mn then none
  else if var.min < mn then
    some (mn, ⟨c.vars.set v ⟨mn, var.max⟩, c.events ++ [v]⟩)
  else some (var.min, c)

/-- Context::try_set_max. -/
def Ctx.try_set_max (c : Ctx) (v : Nat) (mx : Int) : Option (Int × Ctx) :=
  let var := c.vars.getD v ⟨0, 0⟩
  if mx < var.min then none
  else if mx < var.max then
    some (mx, ⟨c.vars.set v ⟨var.min, mx⟩, c.events ++ [v]⟩)
  else some (var.max, c)

/-- View shapes (src/views.rs): a constant, a variable handle (the
binary wrapper delegates to its inner handle), Opposite, Plus, and
TimesPos with a strictly positive factor; TimesNeg is
TimesPos(Opposite), and Times dispatches by sign below. -/
inductive ViewE where
  | const (c : Int)
  | var (v : Nat)
  | opposite (x : ViewE)
  | plus (x : ViewE) (offset : Int)
  | timesPos (x : ViewE) (scale : Int)
deriving Repr, DecidableEq

/-- Times::new: sign dispatch; the Zero variant delegates every View
method to the constant view 0. -/
def ViewE.times (x : ViewE) (s : Int) : ViewE :=
  if s < 0 then .timesPos (.opposite x) (-s)
  else if s = 0 then .const 0
  else .timesPos x s

/-- View::get_underlying_var. -/
def ViewE.get_underlying_var : ViewE → Option Nat
  | .const _ => none
  | .var v => some v
  | .opposite x => x.get_underlying_var
  | .plus x _ => x.get_underlying_var
  | .timesPos x _ => x.get_underlying_var

mutual

def ViewE.min_raw : ViewE → List Var → Int
  | .const c, _ => c
  | .var v, vars => (vars.getD v ⟨0, 0⟩).min
  | .opposite x, vars => -(ViewE.max_raw x vars)
  | .plus x off, vars => ViewE.min_raw x vars + off
  | .timesPos x s, vars => ViewE.min_raw x vars * s

def ViewE.max_raw : ViewE → List Var → Int
  | .const c, _ => c
  | .var v, vars => (vars.getD v ⟨0, 0⟩).max
  | .opposite x, vars => -(ViewE.min_raw x vars)
  | .plus x off, vars => ViewE.max_raw x vars + off
  | .timesPos x s, vars => ViewE.max_raw x vars * s

end

mutual

def ViewE.try_set_min : ViewE → Int → Ctx → Option (Int × Ctx)
  | .const c, mn, ctx => if mn ≤ c then some (mn, ctx) else none
  | .var v, mn, ctx => Ctx.try_set_min ctx v mn
  | .opposite x, mn, ctx => ViewE.try_set_max x (-mn) ctx
  | .plus x off, mn, ctx => ViewE.try_set_min x (mn - off) ctx
  | .timesPos x s, mn, ctx => ViewE.try_set_min x (div_ceil mn s) ctx

def ViewE.try_set_max : ViewE → Int → Ctx → Option (Int × Ctx)
  | .const c, mx, ctx => if c ≤ mx then some (mx, ctx) else none
  | .var v, mx, ctx => Ctx.try_set_max ctx v mx
  | .opposite x, mx, ctx => ViewE.try_set_min x (-mx) ctx
  | .plus x off, mx, ctx => ViewE.try_set_max x (mx - off) ctx
  | .timesPos x s, mx, ctx => ViewE.try_set_max x (div_floor mx s) ctx

end

/-- LessThanOrEquals::prune (src/props/leq.rs): clamp x from above by
y's maximum, then clamp y from below by x's (possibly updated)
minimum. -/
def pruneLeq (x y : ViewE) (c : Ctx) : Option Ctx :=
  match ViewE.try_set_max x (ViewE.max_raw y c.vars) c with
  | none => none
  | some r1 =>
      match ViewE.try_set_min y (ViewE.min_raw x r1.2.vars) r1.2 with
      | none => none
      | some r2 => some r2.2

/-- The view-based model (src/model.rs).  Modelled from the spec: the
new-generation Vars store is a growable vector of domains whose
new_var_with_bounds pushes the domain and returns its index; the
Propagators registry state is irrelevant to the claims below and
omitted. -/
structure NModel where
  vars : List Var
deriving Repr, DecidableEq

/-- Model::new_var_unchecked. -/
def NModel.new_var_unchecked (m : NModel) (mn mx : Int) : NModel × Nat :=
  (⟨m.vars ++ [⟨mn, mx⟩]⟩, m.vars.length)

/-- Model::new_var: strict constructor, succeeds only for min < max. -/
def NModel.new_var (m : NModel) (mn mx : Int) : NModel × Option Nat :=
  if mn < mx then
    ((m.new_var_unchecked mn mx).1, some (m.new_var_unchecked mn mx).2)
  else (m, none)

/-- Model::new_var_binary: unchecked variable with domain {0, 1},
wrapped in the binary handle. -/
def NModel.new_var_binary (m : NModel) : NModel × Nat :=
  m.new_var_unchecked 0 1

/-- State of the lazy iterator returned by Model::new_vars:
repeat_with(|| new_var_unchecked(min, max)).take(n). -/
structure NewVarsIter where
  remaining : Nat
  mn : Int
  mx : Int
deriving Repr, DecidableEq

/-- Model::new_vars: the guard runs eagerly, variable creation does
not. -/
def NModel.new_vars (_m : NModel) (n : Nat) (mn mx : Int) :
    Option NewVarsIter :=
  if mn < mx then some ⟨n, mn, mx⟩ else none

/-- One Iterator::next call on the new_vars iterator: creates a
variable only when consumed. -/
def newVarsNext (m : NModel) (st : NewVarsIter) :
    NModel × NewVarsIter × Option Nat :=
  match st.remaining with
  | 0 => (m, st, none)
  | k + 1 =>
      ((m.new_var_unchecked st.mn st.mx).1, ⟨k, st.mn, st.mx⟩,
        some (m.new_var_unchecked st.mn st.mx).2)

/-- Advance the new_vars iterator k times. -/
def newVarsAdvance : Nat → NModel → NewVarsIter → NModel × NewVarsIter
  | 0, m, st => (m, st)
  | k + 1, m, st =>
      newVarsAdvance k (newVarsNext m st).1 (newVarsNext m st).2.1

/-- Solution::get_value_binary (src/solution.rs): the stored value
compared against 1. -/
def get_value_binary (sol : List Int) (v : Nat) : Bool :=
  sol.getD v 0 == 1

theorem ctx_try_set_min_frame {c : Ctx} {v : Nat} {mn : Int}
    {r : Int × Ctx} (h : Ctx.try_set_min c v mn = some r) :
    ∀ j, j ≠ v → r.2.vars.getD j ⟨0, 0⟩ = c.vars.getD j ⟨0, 0⟩ := by
  intro j hj
  unfold Ctx.try_set_min at h
  by_cases h1 : (c.vars.getD v ⟨0, 0⟩).max < mn
  · rw [if_pos h1] at h
    cases h
  · rw [if_neg h1] at h
    by_cases h2 : (c.vars.getD v ⟨0, 0⟩).min < mn
    · rw [if_pos h2] at h
      cases h
      show (c.vars.set v _).getD j _ = _
      rw [List.getD_eq_getElem?_getD, List.getElem?_set_ne (by omega),
        ← List.getD_eq_getElem?_getD]
    · rw [if_neg h2] at h
      cases h
      rfl

theorem ctx_try_set_max_frame {c : Ctx} {v : Nat} {mx : Int}
    {r : Int × Ctx} (h : Ctx.try_set_max c v mx = some r) :
    ∀ j, j ≠ v → r.2.vars.getD j ⟨0, 0⟩ = c.vars.getD j ⟨0, 0⟩ := by
  intro j hj
  unfold Ctx.try_set_max at h
  by_cases h1 : mx < (c.vars.getD v ⟨0, 0⟩).min
  · rw [if_pos h1] at h
    cases h
  · rw [if_neg h1] at h
    by_cases h2 : mx < (c.vars.getD v ⟨0, 0⟩).max
    · rw [if_pos h2] at h
      cases h
      show (c.vars.set v _).getD j _ = _
      rw [List.getD_eq_getElem?_getD, List.getElem?_set_ne (by omega),
        ← List.getD_eq_getElem?_getD]
    · rw [if_neg h2] at h
      cases h
      rfl

/-- C9: every view bound-setting call mutates at most the single
underlying variable of the view; any other domain is returned
unchanged, and a call on a view with no underlying variable (a constant,
or a zero-scaled view, which Times::new collapses to the constant view
0) returns the context untouched. -/
theorem C9_view_frame :
    (∀ (w : ViewE),
      (∀ (b : Int) (ctx : Ctx) (r : Int × Ctx),
        ViewE.try_set_min w b ctx = some r →
        (∀ j, (∀ u, w.get_underlying_var = some u → j ≠ u) →
          r.2.vars.getD j ⟨0, 0⟩ = ctx.vars.getD j ⟨0, 0⟩) ∧
        (w.get_underlying_var = none → r.2 = ctx)) ∧
      (∀ (b : Int) (ctx : Ctx) (r : Int × Ctx),
        ViewE.try_set_max w b ctx = some r →
        (∀ j, (∀ u, w.get_underlying_var = some u → j ≠ u) →
          r.2.vars.getD j ⟨0, 0⟩ = ctx.vars.getD j ⟨0, 0⟩) ∧
        (w.get_underlying_var = none → r.2 = ctx))) ∧
    (∀ (x : ViewE), ViewE.times x 0 = .const 0) ∧
    (∀ (k : Int), (ViewE.const k).get_underlying_var = none) := by
  refine ⟨?_, ?_, fun k => rfl⟩
  · intro w
    induction w with
    | const k =>
        constructor
        · intro b ctx r h
          simp only [ViewE.try_set_min] at h
          by_cases hb : b ≤ k
          · rw [if_pos hb] at h
            cases h
            exact ⟨fun j _ => rfl, fun _ => rfl⟩
          · rw [if_neg hb] at h
            cases h
        · intro b ctx r h
          simp only [ViewE.try_set_max] at h
          by_cases hb : k ≤ b
          · rw [if_pos hb] at h
            cases h
            exact ⟨fun j _ => rfl, fun _ => rfl⟩
          · rw [if_neg hb] at h
            cases h
    | var v =>
        constructor
        · intro b ctx r h
          simp only [ViewE.try_set_min] at h
          refine ⟨?_, ?_⟩
          · intro j hj
            exact ctx_try_set_min_frame h j (hj v rfl)
          · intro hnone
            cases hnone
        · intro b ctx r h
          simp only [ViewE.try_set_max] at h
          refine ⟨?_, ?_⟩
          · intro j hj
            exact ctx_try_set_max_frame h j (hj v rfl)
          · intro hnone
            cases hnone
    | opposite x ih =>
        obtain ⟨ihmin, ihmax⟩ := ih
        constructor
        · intro b ctx r h
          simp only [ViewE.try_set_min] at h
          obtain ⟨hfr, hnn⟩ := ihmax (-b) ctx r h
          exact ⟨fun j hj => hfr j (fun u hu => hj u hu),
            fun hn => hnn hn⟩
        · intro b ctx r h
          simp only [ViewE.try_set_max] at h
          obtain ⟨hfr, hnn⟩ := ihmin (-b) ctx r h
          exact ⟨fun j hj => hfr j (fun u hu => hj u hu),
            fun hn => hnn hn⟩
    | plus x off ih =>
        obtain ⟨ihmin, ihmax⟩ := ih
        constructor
        · intro b ctx r h
          simp only [ViewE.try_set_min] at h
          obtain ⟨hfr, hnn⟩ := ihmin (b - off) ctx r h
          exact ⟨fun j hj => hfr j (fun u hu => hj u hu),
            fun hn => hnn hn⟩
        · intro b ctx r h
          simp only [ViewE.try_set_max] at h
          obtain ⟨hfr, hnn⟩ := ihmax (b - off) ctx r h
          exact ⟨fun j hj => hfr j (fun u hu => hj u hu),
            fun hn => hnn hn⟩
    | timesPos x s ih =>
        obtain ⟨ihmin, ihmax⟩ := ih
        constructor
        · intro b ctx r h
          simp only [ViewE.try_set_min] at h
          obtain ⟨hfr, hnn⟩ := ihmin (div_ceil b s) ctx r h
          exact ⟨fun j hj => hfr j (fun u hu => hj u hu),
            fun hn => hnn hn⟩
        · intro b ctx r h
          simp only [ViewE.try_set_max] at h
          obtain ⟨hfr, hnn⟩ := ihmax (div_floor b s) ctx r h
          exact ⟨fun j hj => hfr j (fun u hu => hj u hu),
            fun hn => hnn hn⟩
  · intro x
    unfold ViewE.times
    rw [if_neg (by omega), if_pos rfl]

theorem ctx_try_set_min_eq (c : Ctx) (v : Nat) (mn : Int) :
    Ctx.try_set_min c v mn =
      if (c.vars.getD v ⟨0, 0⟩).max < mn then none
      else if (c.vars.getD v ⟨0, 0⟩).min < mn then
        some (mn, ⟨c.vars.set v ⟨mn, (c.vars.getD v ⟨0, 0⟩).max⟩,
          c.events ++ [v]⟩)
      else some ((c.vars.getD v ⟨0, 0⟩).min, c) := rfl

theorem ctx_try_set_max_eq (c : Ctx) (v : Nat) (mx : Int) :
    Ctx.try_set_max c v mx =
      if mx < (c.vars.getD v ⟨0, 0⟩).min then none
      else if mx < (c.vars.getD v ⟨0, 0⟩).max then
        some (mx, ⟨c.vars.set v ⟨(c.vars.getD v ⟨0, 0⟩).min, mx⟩,
          c.events ++ [v]⟩)
      else some ((c.vars.getD v ⟨0, 0⟩).max, c) := rfl

theorem getD_set_self {l : List Var} {i : Nat} (w : Var)
    (h : i < l.length) : (l.set i w).getD i ⟨0, 0⟩ = w := by
  rw [List.getD_eq_getElem?_getD, List.getElem?_set_self h]
  rfl

theorem getD_set_other {l : List Var} {i j : Nat} (w : Var)
    (h : j ≠ i) : (l.set i w).getD j ⟨0, 0⟩ = l.getD j ⟨0, 0⟩ := by
  rw [List.getD_eq_getElem?_getD, List.getElem?_set_ne (by omega),
    ← List.getD_eq_getElem?_getD]

/-- C2 (amended): one pruning pass of the view-based
LessThanOrEquals::prune on variable operands clamps x from above by
y.max, then y from below by x.min; it fails exactly when y.max < x.min,
and on success no other bound of x or y and no other variable
changes.  (The by-value PropLeq::propagate of the old engine performs
only the first half; see its counterexample theorem.) -/
theorem C2_leq_prune_amended (xv yv : Nat) (c : Ctx)
    (hx : xv < c.vars.length) (hy : yv < c.vars.length) (hne : xv ≠ yv) :
    (pruneLeq (.var xv) (.var yv) c = none ↔
      (c.vars.getD yv ⟨0, 0⟩).max < (c.vars.getD xv ⟨0, 0⟩).min) ∧
    ∀ c2, pruneLeq (.var xv) (.var yv) c = some c2 →
      c2.vars.getD xv ⟨0, 0⟩ =
        ⟨(c.vars.getD xv ⟨0, 0⟩).min,
          min (c.vars.getD xv ⟨0, 0⟩).max (c.vars.getD yv ⟨0, 0⟩).max⟩ ∧
      c2.vars.getD yv ⟨0, 0⟩ =
        ⟨max (c.vars.getD yv ⟨0, 0⟩).min (c.vars.getD xv ⟨0, 0⟩).min,
          (c.vars.getD yv ⟨0, 0⟩).max⟩ ∧
      ∀ j, j ≠ xv → j ≠ yv →
        c2.vars.getD j ⟨0, 0⟩ = c.vars.getD j ⟨0, 0⟩ := by
  have hpr : pruneLeq (.var xv) (.var yv) c =
      match Ctx.try_set_max c xv ((c.vars.getD yv ⟨0, 0⟩).max) with
      | none => none
      | some r1 =>
          match Ctx.try_set_min r1.2 yv
              ((r1.2.vars.getD xv ⟨0, 0⟩).min) with
          | none => none
          | some r2 => some r2.2 := rfl
  by_cases h1 : (c.vars.getD yv ⟨0, 0⟩).max < (c.vars.getD xv ⟨0, 0⟩).min
  · have hs1 : Ctx.try_set_max c xv ((c.vars.getD yv ⟨0, 0⟩).max) =
        none := by
      rw [ctx_try_set_max_eq, if_pos h1]
    have hp : pruneLeq (.var xv) (.var yv) c = none := by
      rw [hpr, hs1]
    refine ⟨⟨fun _ => h1, fun _ => hp⟩, ?_⟩
    intro c2 hc2
    rw [hp] at hc2
    cases hc2
  · -- step 1 succeeds; name the intermediate context by shape
    have hstep : ∃ c1 : Ctx,
        Ctx.try_set_max c xv ((c.vars.getD yv ⟨0, 0⟩).max) =
          some (min (c.vars.getD xv ⟨0, 0⟩).max
            (c.vars.getD yv ⟨0, 0⟩).max, c1) ∧
        c1.vars.getD xv ⟨0, 0⟩ =
          ⟨(c.vars.getD xv ⟨0, 0⟩).min,
            min (c.vars.getD xv ⟨0, 0⟩).max
              (c.vars.getD yv ⟨0, 0⟩).max⟩ ∧
        c1.vars.getD yv ⟨0, 0⟩ = c.vars.getD yv ⟨0, 0⟩ ∧
        c1.vars.length = c.vars.length ∧
        (∀ j, j ≠ xv → c1.vars.getD j ⟨0, 0⟩ = c.vars.getD j ⟨0, 0⟩) := by
      by_cases h2 : (c.vars.getD yv ⟨0, 0⟩).max <
          (c.vars.getD xv ⟨0, 0⟩).max
      · refine ⟨⟨c.vars.set xv ⟨(c.vars.getD xv ⟨0, 0⟩).min,
          (c.vars.getD yv ⟨0, 0⟩).max⟩, c.events ++ [xv]⟩, ?_, ?_, ?_,
          ?_, ?_⟩
        · rw [ctx_try_set_max_eq, if_neg h1, if_pos h2]
          have hm : min (c.vars.getD xv ⟨0, 0⟩).max
              (c.vars.getD yv ⟨0, 0⟩).max =
              (c.vars.getD yv ⟨0, 0⟩).max := by omega
          rw [hm]
        · show (c.vars.set xv _).getD xv _ = _
          rw [getD_set_self _ hx]
          have hm : min (c.vars.getD xv ⟨0, 0⟩).max
              (c.vars.getD yv ⟨0, 0⟩).max =
              (c.vars.getD yv ⟨0, 0⟩).max := by omega
          rw [hm]
        · show (c.vars.set xv _).getD yv _ = _
          exact getD_set_other _ (by omega)
        · show (c.vars.set xv _).length = _
          exact List.length_set c.vars xv _
        · intro j hj
          show (c.vars.set xv _).getD j _ = _
          exact getD_set_other _ hj
      · refine ⟨c, ?_, ?_, rfl, rfl, fun j _ => rfl⟩
        · rw [ctx_try_set_max_eq, if_neg h1, if_neg h2]
          have hm : min (c.vars.getD xv ⟨0, 0⟩).max
              (c.vars.getD yv ⟨0, 0⟩).max =
              (c.vars.getD xv ⟨0, 0⟩).max := by omega
          rw [hm]
        · have hm : min (c.vars.getD xv ⟨0, 0⟩).max
              (c.vars.getD yv ⟨0, 0⟩).max =
              (c.vars.getD xv ⟨0, 0⟩).max := by omega
          rw [hm]
    obtain ⟨c1, hs1, hc1x, hc1y, hc1len, hc1fr⟩ := hstep
    have harg : (c1.vars.getD xv ⟨0, 0⟩).min =
        (c.vars.getD xv ⟨0, 0⟩).min := by
      rw [hc1x]
    have hyl : yv < c1.vars.length := by omega
    have hstep2 : ∃ c2 : Ctx,
        Ctx.try_set_min c1 yv ((c1.vars.getD xv ⟨0, 0⟩).min) =
          some (max (c.vars.getD yv ⟨0, 0⟩).min
            (c.vars.getD xv ⟨0, 0⟩).min, c2) ∧
        c2.vars.getD yv ⟨0, 0⟩ =
          ⟨max (c.vars.getD yv ⟨0, 0⟩).min
            (c.vars.getD xv ⟨0, 0⟩).min,
            (c.vars.getD yv ⟨0, 0⟩).max⟩ ∧
        (∀ j, j ≠ yv → c2.vars.getD j ⟨0, 0⟩ = c1.vars.getD j ⟨0, 0⟩) := by
      by_cases h3 : (c.vars.getD yv ⟨0, 0⟩).min <
          (c.vars.getD xv ⟨0, 0⟩).min
      · refine ⟨⟨c1.vars.set yv ⟨(c.vars.getD xv ⟨0, 0⟩).min,
          (c.vars.getD yv ⟨0, 0⟩).max⟩, c1.events ++ [yv]⟩, ?_, ?_, ?_⟩
        · rw [ctx_try_set_min_eq, harg, hc1y, if_neg (by omega),
            if_pos h3]
          have hm : max (c.vars.getD yv ⟨0, 0⟩).min
              (c.vars.getD xv ⟨0, 0⟩).min =
              (c.vars.getD xv ⟨0, 0⟩).min := by omega
          rw [hm]
        · show (c1.vars.set yv _).getD yv _ = _
          rw [getD_set_self _ hyl]
          have hm : max (c.vars.getD yv ⟨0, 0⟩).min
              (c.vars.getD xv ⟨0, 0⟩).min =
              (c.vars.getD xv ⟨0, 0⟩).min := by omega
          rw [hm]
        · intro j hj
          show (c1.vars.set yv _).getD j _ = _
          exact getD_set_other _ hj
      · refine ⟨c1, ?_, ?_, fun j _ => rfl⟩
        · rw [ctx_try_set_min_eq, harg, hc1y, if_neg (by omega),
            if_neg h3]
          have hm : max (c.vars.getD yv ⟨0, 0⟩).min
              (c.vars.getD xv ⟨0, 0⟩).min =
              (c.vars.getD yv ⟨0, 0⟩).min := by omega
          rw [hm]
        · rw [hc1y]
          have hm : max (c.vars.getD yv ⟨0, 0⟩).min
              (c.vars.getD xv ⟨0, 0⟩).min =
              (c.vars.getD yv ⟨0, 0⟩).min := by omega
          rw [hm]
    obtain ⟨c2f, hs2, hc2y, hc2fr⟩ := hstep2
    have hp : pruneLeq (.var xv) (.var yv) c = some c2f := by
      rw [hpr, hs1]
      dsimp only
      rw [hs2]
    refine ⟨⟨fun hcon => ?_, fun hcon => ?_⟩, ?_⟩
    · rw [hp] at hcon
      cases hcon
    · omega
    · intro c2 hc2
      rw [hp] at hc2
      cases hc2
      refine ⟨?_, hc2y, ?_⟩
      · rw [hc2fr xv (by omega), hc1x]
      · intro j hjx hjy
        rw [hc2fr j hjy, hc1fr j hjx]

/-! ## Remaining claims: counterexamples and theorems -/

/-- C2 (counterexample): on x = [3,5], y = [0,10] the by-value
PropLeq::propagate of src/props.rs succeeds without touching y: its
minimum stays 0, although the claimed update max(y.min, x.min) is 3.
Only the view-based prune performs the second half. -/
theorem C2_propLeq_counterexample :
    propLeq (0, 1) ⟨[⟨3, 5⟩, ⟨0, 10⟩], []⟩ =
      .ok ⟨[⟨3, 5⟩, ⟨0, 10⟩], []⟩ ∧
    ((⟨[⟨3, 5⟩, ⟨0, 10⟩], []⟩ : Vars).getVar 1).min = 0 ∧
    max ((⟨[⟨3, 5⟩, ⟨0, 10⟩], []⟩ : Vars).getVar 1).min
      ((⟨[⟨3, 5⟩, ⟨0, 10⟩], []⟩ : Vars).getVar 0).min = 3 := by
  refine ⟨rfl, rfl, by decide⟩

/-- C4 (counterexample): the by-value builder's public new_var performs
no bound check: new_var(1, 0) returns a handle whose domain is crossed
(max < min), falsifying the invariant as claimed over every public
call. -/
theorem C4_new_var_crossed_counterexample :
    ((Model.new.new_var_impl 1 0).1.vars.getD 0 ⟨0, 0⟩).max <
      ((Model.new.new_var_impl 1 0).1.vars.getD 0 ⟨0, 0⟩).min ∧
    (Model.new.new_var_impl 1 0).2 = 0 := by
  refine ⟨by decide, rfl⟩

theorem ctx_try_set_min_noncross {c : Ctx} {v : Nat} {mn : Int}
    {r : Int × Ctx}
    (hnc : ∀ i, i < c.vars.length →
      (c.vars.getD i ⟨0, 0⟩).min ≤ (c.vars.getD i ⟨0, 0⟩).max)
    (h : Ctx.try_set_min c v mn = some r) :
    ∀ i, i < r.2.vars.length →
      (r.2.vars.getD i ⟨0, 0⟩).min ≤ (r.2.vars.getD i ⟨0, 0⟩).max := by
  intro i hi
  rw [ctx_try_set_min_eq] at h
  by_cases h1 : (c.vars.getD v ⟨0, 0⟩).max < mn
  · rw [if_pos h1] at h
    cases h
  · rw [if_neg h1] at h
    by_cases h2 : (c.vars.getD v ⟨0, 0⟩).min < mn
    · rw [if_pos h2] at h
      cases h
      dsimp only at hi ⊢
      rw [List.length_set] at hi
      by_cases hiv : i = v
      · subst hiv
        rw [getD_set_self _ hi]
        show mn ≤ (c.vars.getD i ⟨0, 0⟩).max
        omega
      · rw [getD_set_other _ hiv]
        exact hnc i hi
    · rw [if_neg h2] at h
      cases h
      dsimp only at hi ⊢
      exact hnc i hi

theorem ctx_try_set_max_noncross {c : Ctx} {v : Nat} {mx : Int}
    {r : Int × Ctx}
    (hnc : ∀ i, i < c.vars.length →
      (c.vars.getD i ⟨0, 0⟩).min ≤ (c.vars.getD i ⟨0, 0⟩).max)
    (h : Ctx.try_set_max c v mx = some r) :
    ∀ i, i < r.2.vars.length →
      (r.2.vars.getD i ⟨0, 0⟩).min ≤ (r.2.vars.getD i ⟨0, 0⟩).max := by
  intro i hi
  rw [ctx_try_set_max_eq] at h
  by_cases h1 : mx < (c.vars.getD v ⟨0, 0⟩).min
  · rw [if_pos h1] at h
    cases h
  · rw [if_neg h1] at h
    by_cases h2 : mx < (c.vars.getD v ⟨0, 0⟩).max
    · rw [if_pos h2] at h
      cases h
      dsimp only at hi ⊢
      rw [List.length_set] at hi
      by_cases hiv : i = v
      · subst hiv
        rw [getD_set_self _ hi]
        show (c.vars.getD i ⟨0, 0⟩).min ≤ mx
        omega
      · rw [getD_set_other _ hiv]
        exact hnc i hi
    · rw [if_neg h2] at h
      cases h
      dsimp only at hi ⊢
      exact hnc i hi

/-- C4 (amended): the domain mutation primitives of both store
generations preserve min ≤ max, signalling failure instead of leaving a
crossed domain, and the strict new-generation constructor rejects
crossed requests; variable creation in the by-value builder, however,
is unchecked (see the counterexample theorem). -/
theorem C4_noncross_amended :
    (∀ (s s2 : Vars) (id : Nat) (v : Int), NonCross s →
      id < s.vars.length → s.try_set id v = .ok s2 → NonCross s2) ∧
    (∀ (s s2 : Vars) (id : Nat) (mn : Int), NonCross s →
      id < s.vars.length → s.try_set_min id mn = .ok s2 → NonCross s2) ∧
    (∀ (s s2 : Vars) (id : Nat) (mx : Int), NonCross s →
      id < s.vars.length → s.try_set_max id mx = .ok s2 → NonCross s2) ∧
    (∀ (c : Ctx) (v : Nat) (mn : Int) (r : Int × Ctx),
      (∀ i, i < c.vars.length →
        (c.vars.getD i ⟨0, 0⟩).min ≤ (c.vars.getD i ⟨0, 0⟩).max) →
      Ctx.try_set_min c v mn = some r →
      ∀ i, i < r.2.vars.length →
        (r.2.vars.getD i ⟨0, 0⟩).min ≤ (r.2.vars.getD i ⟨0, 0⟩).max) ∧
    (∀ (c : Ctx) (v : Nat) (mx : Int) (r : Int × Ctx),
      (∀ i, i < c.vars.length →
        (c.vars.getD i ⟨0, 0⟩).min ≤ (c.vars.getD i ⟨0, 0⟩).max) →
      Ctx.try_set_max c v mx = some r →
      ∀ i, i < r.2.vars.length →
        (r.2.vars.getD i ⟨0, 0⟩).min ≤ (r.2.vars.getD i ⟨0, 0⟩).max) ∧
    (∀ (m : NModel) (mn mx : Int) (id : Nat),
      (m.new_var mn mx).2 = some id → mn < mx) := by
  refine ⟨?_, ?_, ?_, ?_, ?_, ?_⟩
  · intro s s2 id v hnc hid h
    exact (try_set_stepsOK hid h).noncross hnc
  · intro s s2 id mn hnc hid h
    exact (try_set_min_stepsOK hid h).noncross hnc
  · intro s s2 id mx hnc hid h
    exact (try_set_max_stepsOK hid h).noncross hnc
  · intro c v mn r hnc h
    exact ctx_try_set_min_noncross hnc h
  · intro c v mx r hnc h
    exact ctx_try_set_max_noncross hnc h
  · intro m mn mx id h
    by_contra hcon
    unfold NModel.new_var at h
    rw [if_neg hcon] at h
    cases h

/-- C5 (counterexample): the Vec-backed event log of the view-based
Context records the same variable twice across two narrowing calls,
falsifying the no-duplicates claim for that store generation. -/
theorem C5_context_events_duplicate_counterexample :
    Ctx.try_set_min ⟨[⟨0, 10⟩], []⟩ 0 2 =
      some (2, ⟨[⟨2, 10⟩], [0]⟩) ∧
    Ctx.try_set_min ⟨[⟨2, 10⟩], [0]⟩ 0 5 =
      some (5, ⟨[⟨5, 10⟩], [0, 0]⟩) ∧
    ¬ ([0, 0] : List Nat).Nodup := by
  refine ⟨rfl, rfl, by decide⟩

/-- C5 (amended): in the by-value store the event set stays
duplicate-free through every successful mutation, its size is bounded
by the number of variables, and drain_events yields exactly the
recorded ids while clearing the set; the Vec-backed log of the
view-based Context may record duplicates (see the counterexample). -/
theorem C5_events_amended :
    (∀ (s s2 : Vars) (id : Nat) (v : Int), s.events.Nodup →
      id < s.vars.length → s.try_set id v = .ok s2 →
      s2.events.Nodup) ∧
    (∀ (s s2 : Vars) (id : Nat) (mn : Int), s.events.Nodup →
      id < s.vars.length → s.try_set_min id mn = .ok s2 →
      s2.events.Nodup) ∧
    (∀ (s s2 : Vars) (id : Nat) (mx : Int), s.events.Nodup →
      id < s.vars.length → s.try_set_max id mx = .ok s2 →
      s2.events.Nodup) ∧
    (∀ s : Vars, s.drain_events.1 = s.events ∧
      s.drain_events.2.events = [] ∧ s.drain_events.2.vars = s.vars) ∧
    (∀ s : Vars, s.events.Nodup → (∀ x ∈ s.events, x < s.vars.length) →
      s.events.length ≤ s.vars.length) := by
  refine ⟨?_, ?_, ?_, ?_, ?_⟩
  · intro s s2 id v hnd hid h
    exact (try_set_stepsOK hid h).nodupKept hnd
  · intro s s2 id mn hnd hid h
    exact (try_set_min_stepsOK hid h).nodupKept hnd
  · intro s s2 id mx hnd hid h
    exact (try_set_max_stepsOK hid h).nodupKept hnd
  · intro s
    exact ⟨rfl, rfl, rfl⟩
  · intro s hnd hlt
    exact nodup_lt_length_le hnd hlt

/-- C6: try_set(v,k) is exactly try_set_min(v,k) composed with
try_set_max(v,k): the Except-valued outcomes coincide (hence identical
stores, events and failures), both succeed precisely when k lies in the
current domain, and a successful call pins the domain to [k,k] without
touching any other variable. -/
theorem C6_try_set_refines_min_max : ∀ (s : Vars) (id : Nat) (k : Int),
    s.try_set id k =
      (s.try_set_min id k).bind (fun s1 => s1.try_set_max id k) ∧
    ((∃ s2, s.try_set id k = .ok s2) ↔
      (s.getVar id).min ≤ k ∧ k ≤ (s.getVar id).max) ∧
    (∀ s2, s.try_set id k = .ok s2 → id < s.vars.length →
      s2.getVar id = ⟨k, k⟩ ∧ ∀ j, j ≠ id → s2.getVar j = s.getVar j) := by
  intro s id k
  refine ⟨?_, ?_, ?_⟩
  · rw [try_set_eq, try_set_min_eq]
    by_cases hout : k < (s.getVar id).min ∨ k > (s.getVar id).max
    · rw [if_pos hout]
      by_cases hmax : k > (s.getVar id).max
      · rw [if_pos hmax]
        rfl
      · rw [if_neg hmax, if_neg (by omega)]
        show _ = s.try_set_max id k
        rw [try_set_max_eq, if_pos (by omega)]
    · rw [if_neg hout]
      push_neg at hout
      by_cases hset : (s.getVar id).is_set
      · rw [if_pos hset]
        have hmm := (is_set_iff _).1 hset
        rw [if_neg (by omega), if_neg (by omega)]
        show _ = s.try_set_max id k
        rw [try_set_max_eq, if_neg (by omega), if_neg (by omega)]
        have hvar : (⟨k, k⟩ : Var) = s.getVar id :=
          Var.ext_mm (by show k = (s.getVar id).min; omega)
            (by show k = (s.getVar id).max; omega)
        by_cases hid : id < s.vars.length
        · have hself := set_getD_self s.vars id hid
          rw [hvar]
          show Except.ok (⟨s.vars.set id (s.getVar id), s.events⟩ : Vars)
            = _
          unfold Vars.getVar
          rw [hself]
        · rw [List.set_eq_of_length_le (by omega)]
      · rw [if_neg hset]
        have hmm : (s.getVar id).min ≠ (s.getVar id).max := by
          intro hc
          exact hset ((is_set_iff _).2 hc)
        have hid : id < s.vars.length := by
          by_contra hcon
          apply hmm
          unfold Vars.getVar
          rw [getD_out _ (by omega)]
        rw [if_neg (by omega)]
        by_cases hmin : k > (s.getVar id).min
        · rw [if_pos hmin]
          show _ = Vars.try_set_max _ id k
          rw [try_set_max_eq]
          have hg : Vars.getVar
              ⟨s.vars.set id ⟨k, (s.getVar id).max⟩, s.events.insert id⟩
              id = ⟨k, (s.getVar id).max⟩ :=
            getVar_set_self s id hid _ _
          rw [hg]
          by_cases hlt : k < (s.getVar id).max
          · rw [if_neg (by simp), if_pos (by simpa using hlt)]
            show _ =
              Except.ok (⟨(s.vars.set id ⟨k, (s.getVar id).max⟩).set id
                ⟨k, k⟩, (s.events.insert id).insert id⟩ : Vars)
            rw [List.set_set,
              List.insert_of_mem (List.mem_insert_self id s.events)]
          · rw [if_neg (by simp), if_neg (by simpa using hlt)]
            have hkm : (⟨k, k⟩ : Var) = ⟨k, (s.getVar id).max⟩ :=
              Var.ext_mm rfl (by show k = (s.getVar id).max; omega)
            rw [hkm]
        · rw [if_neg hmin]
          show _ = s.try_set_max id k
          rw [try_set_max_eq, if_neg (by omega), if_pos (by omega)]
          have hkm : (⟨k, k⟩ : Var) = ⟨(s.getVar id).min, k⟩ :=
            Var.ext_mm (by show k = (s.getVar id).min; omega) rfl
          rw [hkm]
  · constructor
    · rintro ⟨s2, h2⟩
      by_contra hcon
      rw [try_set_eq, if_pos (by omega)] at h2
      cases h2
    · intro hin
      rw [try_set_eq, if_neg (by omega)]
      by_cases hset : (s.getVar id).is_set
      · rw [if_pos hset]
        exact ⟨_, rfl⟩
      · rw [if_neg hset]
        exact ⟨_, rfl⟩
  · intro s2 h2 hid
    obtain ⟨hb, _, _⟩ := try_set_ok_bounds hid h2
    exact ⟨hb, fun j hj =>
      (try_set_stepsOK hid h2).frame j (by omega)⟩

/-- C7: the strict constructor Model::new_var of the view-based model
returns a fresh handle with the requested domain exactly when
min < max, and creates no variable otherwise; in particular (1,1)
yields no variable and (0,1) yields one. -/
theorem C7_strict_new_var : ∀ (m : NModel) (mn mx : Int),
    ((m.new_var mn mx).2 = some m.vars.length ↔ mn < mx) ∧
    ((m.new_var mn mx).2 = none ↔ ¬ mn < mx) ∧
    (mn < mx → (m.new_var mn mx).1.vars = m.vars ++ [⟨mn, mx⟩]) ∧
    (¬ mn < mx → m.new_var mn mx = (m, none)) ∧
    (m.new_var 1 1).2 = none ∧
    (m.new_var 0 1).2 = some m.vars.length := by
  intro m mn mx
  by_cases h : mn < mx
  · refine ⟨⟨fun _ => h, fun _ => ?_⟩, ⟨fun hc => ?_, fun hc => ?_⟩,
      fun _ => ?_, fun hc => absurd h hc, rfl, rfl⟩
    · unfold NModel.new_var
      rw [if_pos h]
      rfl
    · unfold NModel.new_var at hc
      rw [if_pos h] at hc
      cases hc
    · exact absurd h hc
    · unfold NModel.new_var
      rw [if_pos h]
      rfl
  · refine ⟨⟨fun hc => ?_, fun hc => absurd hc h⟩,
      ⟨fun _ => h, fun _ => ?_⟩, fun hc => absurd hc h, fun _ => ?_,
      rfl, rfl⟩
    · unfold NModel.new_var at hc
      rw [if_neg h] at hc
      cases hc
    · unfold NModel.new_var
      rw [if_neg h]
    · unfold NModel.new_var
      rw [if_neg h]

/-- C8: the solution produced by the verified exhaustive search on a
feasible model assigns a binary-domain variable (the {0,1} domain
new_var_binary installs) a value in {0,1}, so the boolean accessor
get_value_binary, which compares the stored value against 1, returns
true exactly when the assigned value is non-zero. -/
theorem C8_get_value_binary {m : Model} (hb : Built m) {obj : Nat}
    (hobj : obj < m.vars.length) {a0 : Nat → Int}
    (hsat0 : SatM m.deps a0) (hbox0 : inBox (Vars.new m.vars) a0)
    {v : Nat} (hv : v < m.vars.length)
    (hbin : m.vars.getD v ⟨0, 0⟩ = ⟨0, 1⟩) :
    ∃ sol, m.minimize obj = some sol ∧
      (sol.getD v 0 = 0 ∨ sol.getD v 0 = 1) ∧
      (get_value_binary sol v = true ↔ sol.getD v 0 ≠ 0) := by
  have hwf : DWF m.deps m.vars.length := Built_MWF hb
  have hnc : NonCross (Vars.new m.vars) := by
    intro i hi
    obtain ⟨h1, h2⟩ := hbox0 i hi
    omega
  obtain ⟨r, hr, hopt⟩ := searcherSearch_main hwf hobj rfl hnc
  cases r with
  | none => exact (hopt a0 hsat0 hbox0).elim
  | some sol =>
      obtain ⟨h1, h2, h3⟩ := hopt
      have hbd : sol.getD v 0 = 0 ∨ sol.getD v 0 = 1 := by
        obtain ⟨hlo, hhi⟩ := h2 v hv
        have hge : (Vars.new m.vars).getVar v = ⟨0, 1⟩ := by
          unfold Vars.getVar Vars.new
          exact hbin
        rw [hge] at hlo hhi
        have hlo2 : (0 : Int) ≤ sol.getD v 0 := hlo
        have hhi2 : sol.getD v 0 ≤ 1 := hhi
        omega
      refine ⟨sol, ?_, hbd, ?_⟩
      · unfold Model.minimize
        rw [hr]
        rfl
      · unfold get_value_binary
        rw [beq_iff_eq]
        omega

theorem newVarsAdvance_spec (mn mx : Int) :
    ∀ (k : Nat) (m : NModel) (nrem : Nat), k ≤ nrem →
    newVarsAdvance k m ⟨nrem, mn, mx⟩ =
      (⟨m.vars ++ List.replicate k ⟨mn, mx⟩⟩, ⟨nrem - k, mn, mx⟩) := by
  intro k
  induction k with
  | zero =>
      intro m nrem _
      show (m, (⟨nrem, mn, mx⟩ : NewVarsIter)) = _
      rw [List.replicate_zero, List.append_nil, Nat.sub_zero]
  | succ k ih =>
      intro m nrem hk
      cases nrem with
      | zero => omega
      | succ n2 =>
          show newVarsAdvance k (⟨m.vars ++ [⟨mn, mx⟩]⟩ : NModel)
            ⟨n2, mn, mx⟩ = _
          rw [ih _ n2 (by omega)]
          show ((⟨(m.vars ++ [⟨mn, mx⟩]) ++
              List.replicate k ⟨mn, mx⟩⟩ : NModel),
            (⟨n2 - k, mn, mx⟩ : NewVarsIter)) = _
          rw [List.append_assoc]
          have hrep : [(⟨mn, mx⟩ : Var)] ++ List.replicate k ⟨mn, mx⟩ =
              List.replicate (k + 1) ⟨mn, mx⟩ := by
            rw [List.replicate_succ]
            rfl
          rw [hrep, Nat.succ_sub_succ]

/-- C10: new_vars(n, min, max) with min < max returns an iterator whose
variable creation is lazy: advancing it k ≤ n times appends exactly k
fresh variables with domain [min, max] (none before consumption, the
model is untouched at construction), and an exhausted iterator yields
nothing and creates nothing. -/
theorem C10_new_vars_lazy : ∀ (m : NModel) (n : Nat) (mn mx : Int),
    mn < mx →
    ∃ st, m.new_vars n mn mx = some st ∧ st.remaining = n ∧
      (newVarsAdvance 0 m st).1 = m ∧
      (∀ k, k ≤ n →
        (newVarsAdvance k m st).1.vars =
          m.vars ++ List.replicate k ⟨mn, mx⟩ ∧
        (newVarsAdvance k m st).2.remaining = n - k) ∧
      (∀ (m2 : NModel) (st2 : NewVarsIter), st2.remaining = 0 →
        newVarsNext m2 st2 = (m2, st2, none)) := by
  intro m n mn mx h
  refine ⟨⟨n, mn, mx⟩, ?_, rfl, rfl, ?_, ?_⟩
  · unfold NModel.new_vars
    rw [if_pos h]
  · intro k hk
    rw [newVarsAdvance_spec mn mx k m n hk]
    exact ⟨rfl, rfl⟩
  · intro m2 st2 hz
    cases st2 with
    | mk rem mn2 mx2 =>
        have hz2 : rem = 0 := hz
        subst hz2
        rfl

/-- C3: for a strictly positive scale s, the TimesPos view forwards a
requested lower bound as div_ceil and an upper bound as div_floor to
the inner view; div_ceil and div_floor are the ceiling and floor of the
real quotient (characterized by the surrounding multiples), and the
next_multiple_of / rem_euclid arithmetic of PropScalePos computes these
same quotients under Rust truncated division. -/
theorem C3_times_pos_division : ∀ (m M s : Int), 0 < s →
    (∀ (x : ViewE) (ctx : Ctx),
      ViewE.try_set_min (.timesPos x s) m ctx =
        ViewE.try_set_min x (div_ceil m s) ctx ∧
      ViewE.try_set_max (.timesPos x s) M ctx =
        ViewE.try_set_max x (div_floor M s) ctx) ∧
    div_ceil m s = ceilDiv m s ∧
    div_floor M s = M / s ∧
    (s * (ceilDiv m s - 1) < m ∧ m ≤ s * ceilDiv m s) ∧
    (s * (M / s) ≤ M ∧ M < s * (M / s + 1)) ∧
    (next_multiple_of_tmp m s).tdiv s = ceilDiv m s ∧
    (M - M.emod s).tdiv s = M / s := by
  intro m M s hs
  refine ⟨?_, div_ceil_eq m hs, div_floor_eq M hs, ceilDiv_between hs,
    ediv_between hs, nmo_tdiv m hs, sub_emod_tdiv M hs⟩
  intro x ctx
  constructor
  · simp only [ViewE.try_set_min]
  · simp only [ViewE.try_set_max]

/-! ### Witnesses: each claim theorem with hypotheses, applied at a
concrete instance. -/

/-- Concrete run of the C1 theorem: a one-variable model with domain
[0, 1] minimized on that variable. -/
theorem C1_minimize_returns_optimal_witness :
    ∃ sol, (Model.new.new_var_impl 0 1).1.minimize 0 = some sol ∧
      SatM (Model.new.new_var_impl 0 1).1.deps (fun i => sol.getD i 0) ∧
      inBox (Vars.new (Model.new.new_var_impl 0 1).1.vars)
        (fun i => sol.getD i 0) ∧
      ∀ a, SatM (Model.new.new_var_impl 0 1).1.deps a →
        inBox (Vars.new (Model.new.new_var_impl 0 1).1.vars) a →
        sol.getD 0 0 ≤ a 0 :=
  @C1_minimize_returns_optimal _ (Built.new_var 0 1 Built.new)
    _ (by decide) (fun _ => 0)
    (by
      intro id hv
      exfalso
      cases id with
      | scalePos i => exact Nat.not_lt_zero i hv
      | scaleNeg i => exact Nat.not_lt_zero i hv
      | plus i => exact Nat.not_lt_zero i hv
      | sum i => exact Nat.not_lt_zero i hv
      | eq i => exact Nat.not_lt_zero i hv
      | leq i => exact Nat.not_lt_zero i hv)
    (by
      intro i hi
      have h2 : i < 1 := hi
      have h0 : i = 0 := by omega
      subst h0
      exact ⟨by decide, by decide⟩)

/-- Concrete run of the amended C2 theorem on x = [3,5], y = [0,10]. -/
theorem C2_leq_prune_amended_witness :
    (pruneLeq (.var 0) (.var 1) ⟨[⟨3, 5⟩, ⟨0, 10⟩], []⟩ = none ↔
      ((⟨[⟨3, 5⟩, ⟨0, 10⟩], []⟩ : Ctx).vars.getD 1 ⟨0, 0⟩).max <
        ((⟨[⟨3, 5⟩, ⟨0, 10⟩], []⟩ : Ctx).vars.getD 0 ⟨0, 0⟩).min) ∧
    ∀ c2, pruneLeq (.var 0) (.var 1) ⟨[⟨3, 5⟩, ⟨0, 10⟩], []⟩ = some c2 →
      c2.vars.getD 0 ⟨0, 0⟩ =
        ⟨((⟨[⟨3, 5⟩, ⟨0, 10⟩], []⟩ : Ctx).vars.getD 0 ⟨0, 0⟩).min,
          min ((⟨[⟨3, 5⟩, ⟨0, 10⟩], []⟩ : Ctx).vars.getD 0 ⟨0, 0⟩).max
            ((⟨[⟨3, 5⟩, ⟨0, 10⟩], []⟩ : Ctx).vars.getD 1 ⟨0, 0⟩).max⟩ ∧
      c2.vars.getD 1 ⟨0, 0⟩ =
        ⟨max ((⟨[⟨3, 5⟩, ⟨0, 10⟩], []⟩ : Ctx).vars.getD 1 ⟨0, 0⟩).min
          ((⟨[⟨3, 5⟩, ⟨0, 10⟩], []⟩ : Ctx).vars.getD 0 ⟨0, 0⟩).min,
          ((⟨[⟨3, 5⟩, ⟨0, 10⟩], []⟩ : Ctx).vars.getD 1 ⟨0, 0⟩).max⟩ ∧
      ∀ j, j ≠ 0 → j ≠ 1 →
        c2.vars.getD j ⟨0, 0⟩ =
          (⟨[⟨3, 5⟩, ⟨0, 10⟩], []⟩ : Ctx).vars.getD j ⟨0, 0⟩ :=
  C2_leq_prune_amended 0 1 ⟨[⟨3, 5⟩, ⟨0, 10⟩], []⟩ (by decide) (by decide)
    (by decide)

/-- Concrete run of the C3 theorem at -7 over 2: signed ceiling -3 and
floor -4. -/
theorem C3_times_pos_division_witness :
    div_ceil (-7) 2 = -3 ∧ div_floor (-7) 2 = -4 ∧
    ((next_multiple_of_tmp (-7) 2).tdiv 2 = ceilDiv (-7) 2 ∧
      ((-7 : Int) - (-7 : Int).emod 2).tdiv 2 = (-7 : Int) / 2) :=
  ⟨by decide, by decide,
    (C3_times_pos_division (-7) (-7) 2 (by decide)).2.2.2.2.2⟩

/-- Concrete run of the amended C4 theorem: assignment inside [0,5]
keeps the store uncrossed. -/
theorem C4_noncross_amended_witness :
    NonCross ⟨[⟨3, 3⟩], [0]⟩ :=
  C4_noncross_amended.1 ⟨[⟨0, 5⟩], []⟩ ⟨[⟨3, 3⟩], [0]⟩ 0 3
    (by
      intro i hi
      have h2 : i < 1 := hi
      have h0 : i = 0 := by omega
      subst h0
      decide)
    (by decide) rfl

/-- Concrete run of the amended C5 theorem: one successful assignment
records one event, and the set stays duplicate-free. -/
theorem C5_events_amended_witness :
    (⟨[⟨3, 3⟩], [0]⟩ : Vars).events.Nodup :=
  C5_events_amended.1 ⟨[⟨0, 5⟩], []⟩ ⟨[⟨3, 3⟩], [0]⟩ 0 3
    (by decide) (by decide) rfl

/-- Concrete run of the C6 theorem: try_set 3 on the domain [0,5] pins
it to [3,3] and leaves the other variable untouched. -/
theorem C6_try_set_refines_min_max_witness :
    (⟨[⟨3, 3⟩, ⟨7, 9⟩], [0]⟩ : Vars).getVar 0 = ⟨3, 3⟩ ∧
    ∀ j, j ≠ 0 → (⟨[⟨3, 3⟩, ⟨7, 9⟩], [0]⟩ : Vars).getVar j =
      (⟨[⟨0, 5⟩, ⟨7, 9⟩], []⟩ : Vars).getVar j :=
  (C6_try_set_refines_min_max ⟨[⟨0, 5⟩, ⟨7, 9⟩], []⟩ 0 3).2.2
    ⟨[⟨3, 3⟩, ⟨7, 9⟩], [0]⟩ rfl (by decide)

/-- Concrete run of the C7 theorem on the empty model: (1,1) yields no
variable and (0,1) yields handle 0. -/
theorem C7_strict_new_var_witness :
    ((⟨[]⟩ : NModel).new_var 1 1).2 = none ∧
    ((⟨[]⟩ : NModel).new_var 0 1).2 = some 0 ∧
    ((⟨[]⟩ : NModel).new_var 0 1).1.vars = [⟨0, 1⟩] :=
  ⟨(C7_strict_new_var ⟨[]⟩ 1 1).2.2.2.2.1,
    (C7_strict_new_var ⟨[]⟩ 1 1).2.2.2.2.2,
    (C7_strict_new_var ⟨[]⟩ 0 1).2.2.1 (by decide)⟩

/-- Concrete run of the C8 theorem on a one-variable binary model. -/
theorem C8_get_value_binary_witness :
    ∃ sol, (Model.new.new_var_impl 0 1).1.minimize 0 = some sol ∧
      (sol.getD 0 0 = 0 ∨ sol.getD 0 0 = 1) ∧
      (get_value_binary sol 0 = true ↔ sol.getD 0 0 ≠ 0) :=
  @C8_get_value_binary _ (Built.new_var 0 1 Built.new)
    _ (by decide) (fun _ => 0)
    (by
      intro id hv
      exfalso
      cases id with
      | scalePos i => exact Nat.not_lt_zero i hv
      | scaleNeg i => exact Nat.not_lt_zero i hv
      | plus i => exact Nat.not_lt_zero i hv
      | sum i => exact Nat.not_lt_zero i hv
      | eq i => exact Nat.not_lt_zero i hv
      | leq i => exact Nat.not_lt_zero i hv)
    (by
      intro i hi
      have h2 : i < 1 := hi
      have h0 : i = 0 := by omega
      subst h0
      exact ⟨by decide, by decide⟩)
    _ (by decide) rfl

/-- Concrete run of the C9 theorem: a Plus view over variable 0 mutates
only variable 0. -/
theorem C9_view_frame_witness :
    ViewE.try_set_min (.plus (.var 0) 3) 5 ⟨[⟨0, 10⟩, ⟨1, 2⟩], []⟩ =
      some (2, ⟨[⟨2, 10⟩, ⟨1, 2⟩], [0]⟩) ∧
    (⟨[⟨2, 10⟩, ⟨1, 2⟩], [0]⟩ : Ctx).vars.getD 1 ⟨0, 0⟩ =
      (⟨[⟨0, 10⟩, ⟨1, 2⟩], []⟩ : Ctx).vars.getD 1 ⟨0, 0⟩ :=
  ⟨rfl,
    ((C9_view_frame.1 (.plus (.var 0) 3)).1 5 ⟨[⟨0, 10⟩, ⟨1, 2⟩], []⟩
      (2, ⟨[⟨2, 10⟩, ⟨1, 2⟩], [0]⟩) rfl).1 1
      (by
        intro u hu
        cases hu
        decide)⟩

/-- Concrete run of the C10 theorem: two lazy variables over [0, 5]. -/
theorem C10_new_vars_lazy_witness :
    ∃ st, (⟨[]⟩ : NModel).new_vars 2 0 5 = some st ∧ st.remaining = 2 ∧
      (newVarsAdvance 0 ⟨[]⟩ st).1 = ⟨[]⟩ ∧
      (∀ k, k ≤ 2 →
        (newVarsAdvance k ⟨[]⟩ st).1.vars =
          ([] : List Var) ++ List.replicate k ⟨0, 5⟩ ∧
        (newVarsAdvance k ⟨[]⟩ st).2.remaining = 2 - k) ∧
      (∀ (m2 : NModel) (st2 : NewVarsIter), st2.remaining = 0 →
        newVarsNext m2 st2 = (m2, st2, none)) :=
  C10_new_vars_lazy ⟨[]⟩ 2 0 5 (by decide)

end Copper
